import Mathlib

/-!
# Sudoku solver: bitmask propagation and backtracking search

Shallow embedding of `src/cpp/src/sudoku.hpp` (class template `SudokuSolver<c_block_size>`) and
proofs about it. Masks are natural numbers; the 64-bit `myuint` operations and the 32-bit `int`
shifts of the source are spelled out with explicit reductions modulo `2 ^ 64` and `2 ^ 32`.
-/

namespace SudokuSolver

/-! ## Machine arithmetic -/

/-- Number of value bits of `myuint` (`std::size_t`). -/
def myuint_digits : Nat := 64

/-- Bit pattern of the `int` expression `1 << n` with a count that is known at run time only
(the shifts by `i`, `src.bit`, `z0` and `v` in `get_possible_values`, `propagate` and `solve`):
the literal `1` is a 32-bit `int`. C++ leaves a count of 32 or more undefined; the shift
instruction of the compiled code takes the count modulo 32, and so does this definition. -/
def int_shl1 (n : Nat) : Nat := 2 ^ (n % 32)

/-- Bit pattern of the constant `int` expression `1 << n` that the compiler folds (the shift by
`c_side_len` in the mask of a blank cell): the result is kept modulo `2 ^ 32`, so it is `0`
from `n = 32` on. -/
def int_shl1_folded (n : Nat) : Nat := if n < 32 then 2 ^ n else 0

/-- Bit pattern of the `int` expression `x - 1`. -/
def int_pred (x : Nat) : Nat := (x + (2 ^ 32 - 1)) % 2 ^ 32

/-- Bit pattern of the `int` expression `~x`. -/
def int_not (x : Nat) : Nat := 2 ^ 32 - 1 - x % 2 ^ 32

/-- Conversion of an `int` bit pattern to `myuint`: the sign bit is extended. -/
def int_to_myuint (x : Nat) : Nat := if x < 2 ^ 31 then x else x + (2 ^ 64 - 2 ^ 32)

/-- The `myuint` expression `v - 1`. -/
def myuint_pred (v : Nat) : Nat := (v + (2 ^ 64 - 1)) % 2 ^ 64

/-- The `myuint` expression `v + 1`. -/
def myuint_succ (v : Nat) : Nat := (v + 1) % 2 ^ 64

/-- Loop of `popcount_bits`: adds up the lowest `k` bits of `x`. -/
def popcount_bits : Nat → Nat → Nat
  | 0, _ => 0
  | k + 1, x => x % 2 + popcount_bits k (x / 2)

/-- The call `__builtin_popcount(v)`: the argument is converted to `unsigned int` (32 bits). -/
def builtin_popcount (v : Nat) : Nat := popcount_bits 32 (v % 2 ^ 32)

/-- Loop of `builtin_clzll`: counts the bits `k-1, k-2, ...` above the highest set bit. -/
def clz_bits : Nat → Nat → Nat
  | 0, _ => 0
  | k + 1, v => if v < 2 ^ k then 1 + clz_bits k v else 0

/-- The call `__builtin_clzll(v)` on 64 bits. C leaves the result at `0` undefined; here it is
`63`, the value that the compiled code gives there (`highest_bit(0)` is `0`). -/
def builtin_clzll (v : Nat) : Nat :=
  if v % 2 ^ 64 = 0 then 63 else clz_bits 64 (v % 2 ^ 64)

/-! ## Configuration constants -/

def c_side_len (B : Nat) : Nat := B * B

def c_total_cells (B : Nat) : Nat := c_side_len B * c_side_len B

def c_peer_count (B : Nat) : Nat := (c_side_len B - 1) + (c_side_len B - B) * 2

/-- A queue entry: a solved cell and the index of its bit. -/
structure Solved where
  position : Nat
  bit : Nat
  deriving DecidableEq, Repr

/-! ## Peer table -/

/-- Inner loop `for y` of the block phase of `compute_peers`, for a fixed `x`; `ys` are the
values of `y` still to visit. -/
def block_column (B i block_corner x : Nat) : List Nat → List Nat × Nat → List Nat × Nat
  | [], st => st
  | y :: ys, (peers, n) =>
    let p := block_corner + x + y * c_side_len B
    if p ≠ i then block_column B i block_corner x ys (peers.set (i * c_peer_count B + n) p, n + 1)
    else block_column B i block_corner x ys (peers, n)

/-- Outer loop `for x` of the block phase of `compute_peers`. -/
def block_phase (B i block_corner : Nat) : List Nat → List Nat × Nat → List Nat × Nat
  | [], st => st
  | x :: xs, st =>
    block_phase B i block_corner xs (block_column B i block_corner x (List.range B) st)

/-- Row phase of `compute_peers`: the cells of the row of `i` outside the block columns. -/
def row_phase (B i bx cy : Nat) : List Nat → List Nat × Nat → List Nat × Nat
  | [], st => st
  | x :: xs, (peers, n) =>
    if x < bx ∨ x ≥ bx + B then
      row_phase B i bx cy xs (peers.set (i * c_peer_count B + n) (x + cy), n + 1)
    else row_phase B i bx cy xs (peers, n)

/-- Column phase of `compute_peers`: the cells of the column of `i` outside the block rows. -/
def col_phase (B i ix by_ : Nat) : List Nat → List Nat × Nat → List Nat × Nat
  | [], st => st
  | y :: ys, (peers, n) =>
    if y < by_ ∨ y ≥ by_ + B then
      col_phase B i ix by_ ys (peers.set (i * c_peer_count B + n) (ix + y * c_side_len B), n + 1)
    else col_phase B i ix by_ ys (peers, n)

/-- Body of the loop over `i` in `compute_peers`: returns the table and the final value of the
slot counter `n`. -/
def peers_cell (B i : Nat) (peers : List Nat) : List Nat × Nat :=
  let ix := i % c_side_len B
  let iy := i / c_side_len B
  let bx := ix - ix % B
  let by_ := iy - iy % B
  let block_corner := bx + by_ * c_side_len B
  let st1 := block_phase B i block_corner (List.range B) (peers, 0)
  let cy := i - ix
  let st2 := row_phase B i bx cy (List.range (c_side_len B)) st1
  col_phase B i ix by_ (List.range (c_side_len B)) st2

/-- Loop over `i` of `compute_peers`. -/
def peers_loop (B : Nat) : List Nat → List Nat → List Nat
  | [], peers => peers
  | i :: is, peers => peers_loop B is (peers_cell B i peers).1

/-- `compute_peers`: the flattened table, `c_peer_count` slots for each cell. -/
def compute_peers (B : Nat) : List Nat :=
  peers_loop B (List.range (c_total_cells B))
    (List.replicate (c_total_cells B * c_peer_count B) 0)

/-! ## Bit helpers of the solver -/

/-- `highest_bit`: `digits - __builtin_clzll(v) - 1`, computed in `int` and converted to
`myuint`. -/
def highest_bit (v : Nat) : Nat :=
  (myuint_digits + 2 ^ 64 - builtin_clzll v - 1) % 2 ^ 64

/-- The test `(cell & (cell - 1)) == 0` that the source comments as "is solved?". -/
def is_solved (cell : Nat) : Bool := (cell &&& myuint_pred cell) == 0

/-- The update `peer & ~(1 << bit)`. -/
def lower_bit (peer bit : Nat) : Nat := peer &&& int_to_myuint (int_not (int_shl1 bit))

/-- The mask `1 << n` stored into a `myuint` cell. -/
def bit_mask (n : Nat) : Nat := int_to_myuint (int_shl1 n)

/-- The mask `(1 << c_side_len) - 1` stored into a blank cell. -/
def blank_mask (B : Nat) : Nat := int_to_myuint (int_pred (int_shl1_folded (c_side_len B)))

/-- The statement `m_occurences[k]++`. -/
def bump (occ : List Nat) (k : Nat) : List Nat := occ.set k (myuint_succ (occ.getD k 0))

/-! ## Branch selector -/

/-- Loop of `get_smallest_unsolved`; `i` is the index of the head of the remaining cells. -/
def smallest_loop : List Nat → Nat → Nat → Nat → Nat
  | [], _, _, pos => pos
  | cell :: rest, i, best, pos =>
    let c := builtin_popcount cell
    if c = 2 then i
    else if c > 2 ∧ c < best then smallest_loop rest (i + 1) c i
    else smallest_loop rest (i + 1) best pos

def get_smallest_unsolved (B : Nat) (grid : List Nat) : Nat :=
  smallest_loop grid 0 (c_side_len B + 1) grid.length

/-- Exchange of `list[i]` and `list[j]`. -/
def swap_at (list : List Nat) (i j : Nat) : List Nat :=
  let tmp := list.getD i 0
  (list.set i (list.getD j 0)).set j tmp

/-- Inner loop `for j` of the sort in `get_possible_values`; `n` iterations are left. -/
def order_inner (occ : List Nat) (i : Nat) : Nat → Nat → List Nat → List Nat
  | 0, _, list => list
  | n + 1, j, list =>
    if occ.getD i 0 > occ.getD j 0 then order_inner occ i n (j + 1) (swap_at list i j)
    else order_inner occ i n (j + 1) list

/-- Outer loop `for i` of the sort in `get_possible_values`; `n` iterations are left. -/
def order_outer (occ : List Nat) : Nat → Nat → List Nat → List Nat
  | 0, _, list => list
  | n + 1, i, list =>
    order_outer occ n (i + 1) (order_inner occ i (list.length - (i + 1)) (i + 1) list)

def get_possible_values (B : Nat) (occ : List Nat) (value : Nat) : List Nat :=
  let list := (List.range (c_side_len B)).filter (fun i => (value &&& bit_mask i) != 0)
  order_outer occ (myuint_pred list.length) 0 list

/-! ## Propagator -/

/-- State of a propagation: the grid, the occurrence counters and the queue. -/
structure State where
  grid : List Nat
  occ : List Nat
  queue : List Solved
  deriving DecidableEq, Repr

/-- The loop `for i` over the peers of `src` in `propagate`; `is` are the slot numbers still to
visit. The result is `false` with the queue cleared when a conflict is met. -/
def peer_loop (B : Nat) (c_peers : List Nat) (src : Solved) : List Nat → State → Bool × State
  | [], st => (true, st)
  | i :: is, st =>
    let p := c_peers.getD (src.position * c_peer_count B + i) 0
    let peer := st.grid.getD p 0
    if is_solved peer then
      if src.bit = highest_bit peer then (false, { st with queue := [] })
      else peer_loop B c_peers src is st
    else
      let peer1 := lower_bit peer src.bit
      let grid1 := st.grid.set p peer1
      if is_solved peer1 then
        let solved := highest_bit peer1
        peer_loop B c_peers src is
          { grid := grid1, occ := bump st.occ solved, queue := st.queue ++ [⟨p, solved⟩] }
      else peer_loop B c_peers src is { st with grid := grid1 }

/-- The loop `while(!queue.empty())` of `propagate`, bounded by `fuel` iterations; `none` when
the bound is reached. -/
def propagate_loop (B : Nat) (c_peers : List Nat) : Nat → State → Option (Bool × State)
  | 0, _ => none
  | fuel + 1, st =>
    match st.queue with
    | [] => some (true, st)
    | src :: rest =>
      match peer_loop B c_peers src (List.range (c_peer_count B)) { st with queue := rest } with
      | (false, st1) => some (false, st1)
      | (true, st1) => propagate_loop B c_peers fuel st1

/-- Number of cells that the test "is solved?" rejects. -/
def unsolved_count (grid : List Nat) : Nat := grid.countP (fun cell => !is_solved cell)

/-- `propagate`, with the number of iterations that the loop can need. -/
def propagate (B : Nat) (c_peers : List Nat) (st : State) : Option (Bool × State) :=
  propagate_loop B c_peers (st.queue.length + unsolved_count st.grid + 1) st

/-! ## Formatter -/

def format (grid : List Nat) : List Nat :=
  grid.map (fun cell => if is_solved cell then myuint_succ (highest_bit cell) else 0)

/-! ## Search engine -/

/-- What a call of `solve` can do. -/
inductive Outcome where
  /-- the exception "Invalid Input Grid Size." -/
  | invalid_size
  /-- the exception "Invalid Grid Cell Value." -/
  | invalid_value
  /-- the empty optional -/
  | absent
  /-- the optional holding a formatted grid -/
  | solved (grid : List Nat)
  /-- the iteration bound of the model was reached -/
  | out_of_fuel
  deriving DecidableEq, Repr

/-- The loop of `solve` that fills the initial grid; `i` is the index of the head of the
remaining input. `none` stands for the exception "Invalid Grid Cell Value.". -/
def init_loop (B : Nat) : List Nat → Nat → State → Option State
  | [], _, st => some st
  | v :: rest, i, st =>
    if v > myuint_succ (c_side_len B) then none
    else if v = 0 then init_loop B rest (i + 1) { st with grid := st.grid.set i (blank_mask B) }
    else
      let z0 := myuint_pred v
      init_loop B rest (i + 1)
        { grid := st.grid.set i (bit_mask z0), occ := bump st.occ z0,
          queue := st.queue ++ [⟨i, z0⟩] }

/-- The loop `for v : values` of `solve`: each value is tried on a copy of `grid`. -/
def branch_loop (B : Nat) (c_peers : List Nat) (grid : List Nat) (pos : Nat) :
    List Nat → List (List Nat) → List Nat → List Solved →
      Option (List (List Nat) × List Nat × List Solved)
  | [], stack, occ, queue => some (stack, occ, queue)
  | v :: vs, stack, occ, queue =>
    let cpy := grid.set pos (bit_mask v)
    match propagate B c_peers { grid := cpy, occ := occ, queue := queue ++ [⟨pos, v⟩] } with
    | none => none
    | some (true, st) => branch_loop B c_peers grid pos vs (st.grid :: stack) st.occ st.queue
    | some (false, st) => branch_loop B c_peers grid pos vs stack st.occ st.queue

/-- Body of the loop `while(!stack.empty())` of `solve` on the popped `grid`: either the call
returns (left) or the loop goes on with a new stack (right). -/
def search_step (B : Nat) (c_peers : List Nat) (grid : List Nat) (stack : List (List Nat))
    (occ : List Nat) (queue : List Solved) :
    Outcome ⊕ (List (List Nat) × List Nat × List Solved) :=
  let pos := get_smallest_unsolved B grid
  if pos < grid.length then
    let values := get_possible_values B occ (grid.getD pos 0)
    match branch_loop B c_peers grid pos values stack occ queue with
    | none => Sum.inl Outcome.out_of_fuel
    | some next => Sum.inr next
  else Sum.inl (Outcome.solved (format grid))

/-- The loop `while(!stack.empty())` of `solve`, bounded by `fuel` iterations. The head of
`stack` is its top. -/
def search_loop (B : Nat) (c_peers : List Nat) :
    Nat → List (List Nat) → List Nat → List Solved → Outcome
  | 0, _, _, _ => Outcome.out_of_fuel
  | _ + 1, [], _, _ => Outcome.absent
  | fuel + 1, grid :: stack, occ, queue =>
    match search_step B c_peers grid stack occ queue with
    | Sum.inl result => result
    | Sum.inr (stack1, occ1, queue1) => search_loop B c_peers fuel stack1 occ1 queue1

/-- Total number of candidate bits of a grid. -/
def candidate_count (grid : List Nat) : Nat := (grid.map (popcount_bits 64)).sum

/-- Number of iterations that the search loop can need from a stack holding `grid` alone. -/
def search_bound (B : Nat) (grid : List Nat) : Nat :=
  (c_side_len B + 1) ^ (candidate_count grid + 1) + 1

/-- The state that `solve` builds before the first call of `propagate`: counters reset, then
the loop over the input. `none` stands for the exception "Invalid Grid Cell Value.". -/
def initial_state (B : Nat) (input : List Nat) : Option State :=
  init_loop B input 0
    { grid := List.replicate (c_total_cells B) 0,
      occ := List.replicate (c_side_len B) 0, queue := [] }

/-- `solve` with the peer table as a parameter. -/
def solve_with (B : Nat) (c_peers : List Nat) (input : List Nat) : Outcome :=
  if input.length ≠ c_total_cells B then Outcome.invalid_size
  else
    match initial_state B input with
    | none => Outcome.invalid_value
    | some st0 =>
      match propagate B c_peers st0 with
      | none => Outcome.out_of_fuel
      | some (false, _) => Outcome.absent
      | some (true, st) =>
        search_loop B c_peers (search_bound B st.grid) [st.grid] st.occ st.queue

/-- `solve` on a solver constructed with block size `B`. -/
def solve (B : Nat) (input : List Nat) : Outcome := solve_with B (compute_peers B) input

/-- The constructor accepts the block size: the `static_assert` and the bit-width test. -/
def constructible (B : Nat) : Prop := 1 < B ∧ ¬ c_side_len B ≥ myuint_digits

/-! ## Vocabulary of the specification -/

/-- Cells of row `r`. -/
def row_cells (B r : Nat) : List Nat := (List.range (c_side_len B)).map (fun c => r * c_side_len B + c)

/-- Cells of column `c`. -/
def col_cells (B c : Nat) : List Nat := (List.range (c_side_len B)).map (fun r => r * c_side_len B + c)

/-- Cells of the block in block-row `br` and block-column `bc`. -/
def block_cells (B br bc : Nat) : List Nat :=
  (List.range B).flatMap (fun y => (List.range B).map (fun x => (br * B + y) * c_side_len B + (bc * B + x)))

/-- The rows, columns and blocks of the grid. -/
def units (B : Nat) : List (List Nat) :=
  (List.range (c_side_len B)).map (row_cells B) ++ (List.range (c_side_len B)).map (col_cells B)
    ++ (List.range B).flatMap (fun br => (List.range B).map (fun bc => block_cells B br bc))

/-- Values that `grid` holds in the cells `cells`. -/
def values_at (grid cells : List Nat) : List Nat := cells.map (fun i => grid.getD i 0)

/-- Every row, column and block of `grid` holds each of `1..side_len` exactly once. -/
def valid_grid (B : Nat) (grid : List Nat) : Prop :=
  grid.length = c_total_cells B ∧
    ∀ u ∈ units B, ∀ v ∈ List.range (c_side_len B), (values_at grid u).count (v + 1) = 1

/-- No row, column or block of `grid` holds a value twice. -/
def no_repeat (B : Nat) (grid : List Nat) : Prop := ∀ u ∈ units B, (values_at grid u).Nodup

/-- Cells `i` and `j` lie in the same row, the same column or the same block. -/
def same_unit (B i j : Nat) : Prop :=
  i / c_side_len B = j / c_side_len B ∨ i % c_side_len B = j % c_side_len B ∨
    (i / c_side_len B / B = j / c_side_len B / B ∧ i % c_side_len B / B = j % c_side_len B / B)

/-- The input is a sequence of `total_cells` values in `[0, side_len]`. -/
def well_formed (B : Nat) (input : List Nat) : Prop :=
  input.length = c_total_cells B ∧ ∀ v ∈ input, v ≤ c_side_len B

/-- `grid` is a valid completion of `input`: values in `1..side_len`, the givens kept, no
repeated value in a row, column or block. -/
def completion (B : Nat) (input grid : List Nat) : Prop :=
  grid.length = c_total_cells B ∧ (∀ v ∈ grid, 1 ≤ v ∧ v ≤ c_side_len B) ∧
    (∀ i < c_total_cells B, input.getD i 0 ≠ 0 → grid.getD i 0 = input.getD i 0) ∧
    no_repeat B grid

/-! ## Auxiliary definitions of the proofs -/

/-- Writes `vals` into consecutive slots of `peers` from index `start` on. -/
def write_seq (peers : List Nat) (start : Nat) : List Nat → List Nat
  | [] => peers
  | v :: vs => write_seq (peers.set start v) (start + 1) vs

/-- The values that the block phase of `compute_peers` writes for cell `i`. -/
def block_peers (B i : Nat) : List Nat :=
  let ix := i % c_side_len B
  let iy := i / c_side_len B
  let bx := ix - ix % B
  let by_ := iy - iy % B
  let block_corner := bx + by_ * c_side_len B
  (List.range B).flatMap (fun x =>
    ((List.range B).map (fun y => block_corner + x + y * c_side_len B)).filter (fun p => p ≠ i))

/-- The values that the row phase of `compute_peers` writes for cell `i`. -/
def row_peers (B i : Nat) : List Nat :=
  let ix := i % c_side_len B
  let bx := ix - ix % B
  ((List.range (c_side_len B)).filter (fun x => x < bx ∨ x ≥ bx + B)).map (fun x => x + (i - ix))

/-- The values that the column phase of `compute_peers` writes for cell `i`. -/
def col_peers (B i : Nat) : List Nat :=
  let ix := i % c_side_len B
  let iy := i / c_side_len B
  let by_ := iy - iy % B
  ((List.range (c_side_len B)).filter (fun y => y < by_ ∨ y ≥ by_ + B)).map
    (fun y => ix + y * c_side_len B)

/-- The cells that `compute_peers` writes for cell `i`, in the order of the three phases. -/
def peers_of (B i : Nat) : List Nat := block_peers B i ++ (row_peers B i ++ col_peers B i)

/-- The slots of cell `i` read from a flattened peer table. -/
def peer_slots (B : Nat) (c_peers : List Nat) (i : Nat) : List Nat :=
  (List.range (c_peer_count B)).map (fun k => c_peers.getD (i * c_peer_count B + k) 0)

/-- Every cell of the grid holds a non-empty set of candidates below `side_len`. -/
def masks_ok (B : Nat) (grid : List Nat) : Prop :=
  grid.length = c_total_cells B ∧
    ∀ c, c < c_total_cells B → 0 < grid.getD c 0 ∧ grid.getD c 0 < 2 ^ c_side_len B

/-- Every queue entry names a cell of the grid whose mask is the single bit of the entry. -/
def queue_ok (B : Nat) (grid : List Nat) (queue : List Solved) : Prop :=
  ∀ e ∈ queue, e.position < c_total_cells B ∧ e.bit < c_side_len B ∧
    grid.getD e.position 0 = 2 ^ e.bit

/-- Every solved cell either waits in the queue or its bit is gone from each of its peers; for
the cell `cur` that is being propagated the peers in `todo` are still to be visited. -/
def settled (B : Nat) (c_peers grid : List Nat) (queue : List Solved) (cur : Nat)
    (todo : List Nat) : Prop :=
  ∀ c b, c < c_total_cells B → grid.getD c 0 = 2 ^ b →
    (⟨c, b⟩ : Solved) ∈ queue ∨
      ∀ p ∈ peer_slots B c_peers c, (grid.getD p 0).testBit b = false ∨ (c = cur ∧ p ∈ todo)

/-- The grid `g2` comes from `g1` by removing candidates from unsolved cells only. -/
def shrinks (g1 g2 : List Nat) : Prop :=
  g2.length = g1.length ∧
    ∀ c, (is_solved (g1.getD c 0) = true → g2.getD c 0 = g1.getD c 0) ∧
      ∀ j, (g2.getD c 0).testBit j = true → (g1.getD c 0).testBit j = true

/-- One pass of the loop body of `propagate` for the peer cell `p`; `none` is the conflict. -/
def peer_visit (src : Solved) (p : Nat) (st : State) : Option State :=
  let peer := st.grid.getD p 0
  if is_solved peer then
    if src.bit = highest_bit peer then none else some st
  else
    let peer1 := lower_bit peer src.bit
    if is_solved peer1 then
      some { grid := st.grid.set p peer1, occ := bump st.occ (highest_bit peer1),
             queue := st.queue ++ [⟨p, highest_bit peer1⟩] }
    else some { st with grid := st.grid.set p peer1 }

/-- The peer cell that slot `i` of cell `pos` holds in a flattened table. -/
def slot (B : Nat) (c_peers : List Nat) (pos i : Nat) : Nat :=
  c_peers.getD (pos * c_peer_count B + i) 0

/-- Invariant of the visits of the peers of `src`; `todo` are the peers still to visit. -/
def visit_inv (B : Nat) (c_peers : List Nat) (src : Solved) (todo : List Nat) (st : State) : Prop :=
  masks_ok B st.grid ∧ queue_ok B st.grid st.queue ∧
    st.grid.getD src.position 0 = 2 ^ src.bit ∧
    settled B c_peers st.grid st.queue src.position todo

/-- Invariant of the loop of `propagate` started from the grid `g0`. -/
def propagate_inv (B : Nat) (c_peers g0 : List Nat) (st : State) : Prop :=
  masks_ok B st.grid ∧ queue_ok B st.grid st.queue ∧ settled B c_peers st.grid st.queue 0 [] ∧
    shrinks g0 st.grid

/-- The givens of `input` are solved in `grid` with their value. -/
def keeps_givens (B : Nat) (input grid : List Nat) : Prop :=
  ∀ i, i < c_total_cells B → input.getD i 0 ≠ 0 → grid.getD i 0 = 2 ^ (input.getD i 0 - 1)

/-- Invariant of the grids on the search stack. -/
def stack_inv (B : Nat) (c_peers input grid : List Nat) : Prop :=
  masks_ok B grid ∧ settled B c_peers grid [] 0 [] ∧ keeps_givens B input grid

/-- An assignment of a bit index below `side_len` to every cell that gives a cell and each cell
listed as its peer different values. -/
def proper (B : Nat) (c_peers : List Nat) (s : Nat → Nat) : Prop :=
  (∀ c, c < c_total_cells B → s c < c_side_len B) ∧
    ∀ c, c < c_total_cells B → ∀ p ∈ peer_slots B c_peers c, p < c_total_cells B ∧ s p ≠ s c

/-- The assignment `s` picks for every cell one of the candidates that `grid` leaves it. -/
def fits (B : Nat) (s : Nat → Nat) (grid : List Nat) : Prop :=
  ∀ c, c < c_total_cells B → (grid.getD c 0).testBit (s c) = true

/-- Number of iterations that the search loop can need from `stack`. -/
def search_need (B : Nat) (stack : List (List Nat)) : Nat :=
  (stack.map (fun g => (c_side_len B + 1) ^ (candidate_count g + 1))).sum

/-! ## Inputs of the scenarios -/

/-- The 4x4 input of the specification's scenario. -/
def scenario_4x4 : List Nat := [1, 0, 0, 0, 0, 0, 1, 0, 0, 1, 0, 0, 0, 0, 0, 1]

/-- The grid that `solve` returns for `scenario_4x4`. -/
def scenario_4x4_solution : List Nat := [1, 3, 2, 4, 2, 4, 1, 3, 4, 1, 3, 2, 3, 2, 4, 1]

/-- The all-blank 9x9 input. -/
def empty_9x9 : List Nat := List.replicate 81 0

/-- The grid that `solve` returns for `empty_9x9`. -/
def empty_9x9_solution : List Nat :=
  [9, 8, 7, 6, 5, 4, 3, 2, 1, 4, 3, 1, 2, 8, 9, 6, 7, 5, 5, 6, 2, 3, 7, 1, 8, 9, 4,
   6, 1, 5, 8, 4, 2, 9, 3, 7, 8, 4, 9, 5, 3, 7, 2, 1, 6, 7, 2, 3, 9, 1, 6, 5, 4, 8,
   2, 7, 8, 4, 9, 5, 1, 6, 3, 3, 9, 4, 1, 6, 8, 7, 5, 2, 1, 5, 6, 7, 2, 3, 4, 8, 9]

/-- A 4x4 input whose first cell holds `side_len + 1`. -/
def input_with_five : List Nat := 5 :: List.replicate 15 0

/-- A 4x4 input with two givens. -/
def two_givens_4x4 : List Nat := [0, 2, 0, 0, 0, 0, 0, 3, 0, 0, 0, 0, 0, 0, 0, 0]

/-! ## Inputs for block size 6 -/

/-- Value of cell `i` in the grid whose rows are cyclic shifts of `1..side_len`. -/
def shifted_value (B i : Nat) : Nat :=
  (i / c_side_len B % B * B + i / c_side_len B / B + i % c_side_len B) % c_side_len B + 1

/-- A complete grid for block size `B`: row `r` is `1..side_len` shifted by
`(r % B) * B + r / B`. -/
def shifted_grid (B : Nat) : List Nat := (List.range (c_total_cells B)).map (shifted_value B)

/-- The complete 36x36 grid `shifted_grid 6`, as an input without blanks. -/
def full_36x36 : List Nat := shifted_grid 6

/-- The 36x36 input whose cells all hold 33. -/
def all_33_36x36 : List Nat := List.replicate 1296 33

/-- The 36x36 input whose cells all hold 36. -/
def all_36_36x36 : List Nat := List.replicate 1296 36

/-- The 36x36 input with the givens `1..32` in cells `0..31` and `34` in cell 33 of the first
row, all other cells blank. -/
def first_row_36x36 : List Nat :=
  (List.range 1296).map (fun i => if i < 32 ∨ i = 33 then i + 1 else 0)

/-! ## Lists -/

theorem getD_set_eq (l : List Nat) (i j a d : Nat) :
    (l.set i a).getD j d = if i = j ∧ i < l.length then a else l.getD j d := by
  simp only [List.getD_eq_getElem?_getD, List.getElem?_set]
  by_cases h : i = j
  · subst h
    by_cases h2 : i < l.length
    · simp [h2]
    · simp [h2, List.getElem?_eq_none (Nat.le_of_not_lt h2)]
  · simp [h]

theorem write_seq_length (vs : List Nat) : ∀ (peers : List Nat) (s : Nat),
    (write_seq peers s vs).length = peers.length := by
  induction vs with
  | nil => intro peers s; rfl
  | cons v vs ih => intro peers s; simp [write_seq, ih]

theorem write_seq_append (a b : List Nat) : ∀ (peers : List Nat) (s : Nat),
    write_seq peers s (a ++ b) = write_seq (write_seq peers s a) (s + a.length) b := by
  induction a with
  | nil => intro peers s; simp [write_seq]
  | cons v vs ih =>
    intro peers s
    have e : s + (vs.length + 1) = s + 1 + vs.length := by omega
    rw [List.cons_append, write_seq, write_seq, List.length_cons, e]
    exact ih _ _

theorem write_seq_getD (vs : List Nat) : ∀ (peers : List Nat) (s j : Nat),
    s + vs.length ≤ peers.length →
    (write_seq peers s vs).getD j 0 =
      if s ≤ j ∧ j < s + vs.length then vs.getD (j - s) 0 else peers.getD j 0 := by
  induction vs with
  | nil =>
    intro peers s j _
    have h2 : ¬ (s ≤ j ∧ j < s + ([] : List Nat).length) := by simp
    rw [if_neg h2]; rfl
  | cons v vs ih =>
    intro peers s j h
    simp only [List.length_cons] at h
    rw [write_seq, ih _ _ _ (by simp; omega), getD_set_eq]
    by_cases h1 : s + 1 ≤ j ∧ j < s + 1 + vs.length
    · have h2 : s ≤ j ∧ j < s + (v :: vs).length := by simp; omega
      rw [if_pos h1, if_pos h2]
      have : j - s = (j - (s + 1)) + 1 := by omega
      rw [this, List.getD_cons_succ]
    · rw [if_neg h1]
      by_cases h3 : s = j
      · subst h3
        have h2 : s ≤ s ∧ s < s + (v :: vs).length := by simp
        rw [if_pos ⟨rfl, by omega⟩, if_pos h2]
        simp
      · have h2 : ¬ (s ≤ j ∧ j < s + (v :: vs).length) := by simp; omega
        rw [if_neg (by simp [h3]), if_neg h2]

/-! ## The loops of `compute_peers` as sequential writes -/

theorem block_column_eq (B i corner x : Nat) (ys : List Nat) : ∀ (peers : List Nat) (n : Nat),
    block_column B i corner x ys (peers, n) =
      (write_seq peers (i * c_peer_count B + n)
          ((ys.map (fun y => corner + x + y * c_side_len B)).filter (fun p => p ≠ i)),
        n + ((ys.map (fun y => corner + x + y * c_side_len B)).filter (fun p => p ≠ i)).length) := by
  induction ys with
  | nil => intro peers n; simp [block_column, write_seq]
  | cons y ys ih =>
    intro peers n
    by_cases h : corner + x + y * c_side_len B = i
    · simp [block_column, h, ih]
    · simp [block_column, h, ih, write_seq]
      exact ⟨rfl, by omega⟩

theorem block_phase_eq (B i corner : Nat) (xs : List Nat) : ∀ (peers : List Nat) (n : Nat),
    block_phase B i corner xs (peers, n) =
      (write_seq peers (i * c_peer_count B + n)
          (xs.flatMap (fun x =>
            ((List.range B).map (fun y => corner + x + y * c_side_len B)).filter (fun p => p ≠ i))),
        n + (xs.flatMap (fun x =>
            ((List.range B).map (fun y => corner + x + y * c_side_len B)).filter
              (fun p => p ≠ i))).length) := by
  induction xs with
  | nil => intro peers n; simp [block_phase, write_seq]
  | cons x xs ih =>
    intro peers n
    rw [block_phase, block_column_eq, ih, List.flatMap_cons, write_seq_append, List.length_append]
    simp only [Nat.add_assoc]

theorem row_phase_eq (B i bx cy : Nat) (xs : List Nat) : ∀ (peers : List Nat) (n : Nat),
    row_phase B i bx cy xs (peers, n) =
      (write_seq peers (i * c_peer_count B + n)
          ((xs.filter (fun x => x < bx ∨ x ≥ bx + B)).map (fun x => x + cy)),
        n + ((xs.filter (fun x => x < bx ∨ x ≥ bx + B)).map (fun x => x + cy)).length) := by
  induction xs with
  | nil => intro peers n; simp [row_phase, write_seq]
  | cons x xs ih =>
    intro peers n
    by_cases h : x < bx ∨ x ≥ bx + B
    · simp [row_phase, h, ih, write_seq, List.filter_cons]
      exact ⟨rfl, by omega⟩
    · simp [row_phase, h, ih, List.filter_cons]

theorem col_phase_eq (B i ix by_ : Nat) (ys : List Nat) : ∀ (peers : List Nat) (n : Nat),
    col_phase B i ix by_ ys (peers, n) =
      (write_seq peers (i * c_peer_count B + n)
          ((ys.filter (fun y => y < by_ ∨ y ≥ by_ + B)).map (fun y => ix + y * c_side_len B)),
        n + ((ys.filter (fun y => y < by_ ∨ y ≥ by_ + B)).map
              (fun y => ix + y * c_side_len B)).length) := by
  induction ys with
  | nil => intro peers n; simp [col_phase, write_seq]
  | cons y ys ih =>
    intro peers n
    by_cases h : y < by_ ∨ y ≥ by_ + B
    · simp [col_phase, h, ih, write_seq, List.filter_cons]
      exact ⟨rfl, by omega⟩
    · simp [col_phase, h, ih, List.filter_cons]

theorem peers_cell_eq (B i : Nat) (peers : List Nat) :
    peers_cell B i peers = (write_seq peers (i * c_peer_count B) (peers_of B i), (peers_of B i).length) := by
  simp only [peers_cell, peers_of, block_peers, row_peers, col_peers, block_phase_eq, row_phase_eq, col_phase_eq, write_seq_append,
    List.length_append, Nat.add_zero, Nat.zero_add, Nat.add_assoc]

theorem peers_loop_append (B : Nat) (a b : List Nat) : ∀ peers : List Nat,
    peers_loop B (a ++ b) peers = peers_loop B b (peers_loop B a peers) := by
  induction a with
  | nil => intro peers; rfl
  | cons x xs ih => intro peers; simp [peers_loop, ih]

/-! ## Cell coordinates -/

theorem cell_div (S c r : Nat) (hc : c < S) : (c + r * S) / S = r := by
  have hS : 0 < S := by omega
  rw [Nat.add_mul_div_right _ _ hS, Nat.div_eq_of_lt hc, Nat.zero_add]

theorem cell_mod (S c r : Nat) (hc : c < S) : (c + r * S) % S = c := by
  rw [Nat.add_mul_mod_self_right, Nat.mod_eq_of_lt hc]

theorem cell_lt (S c r : Nat) (hc : c < S) (hr : r < S) : c + r * S < S * S := by
  have h1 : (r + 1) * S ≤ S * S := Nat.mul_le_mul_right S hr
  rw [Nat.add_mul, Nat.one_mul] at h1
  omega

theorem cell_decomp (S j : Nat) : j = j % S + j / S * S := by
  have := Nat.mod_add_div j S
  rw [Nat.mul_comm] at this
  omega

/-- Position of `x` relative to the aligned window of width `B` that starts at `B * q`. -/
theorem window_iff (B q x : Nat) (hB : 0 < B) : x / B = q ↔ B * q ≤ x ∧ x < B * q + B := by
  constructor
  · intro h
    have h1 := Nat.div_add_mod x B
    have h2 := Nat.mod_lt x hB
    rw [h] at h1
    omega
  · rintro ⟨h1, h2⟩
    apply Nat.div_eq_of_lt_le
    · rw [Nat.mul_comm]; exact h1
    · rw [Nat.add_mul, Nat.one_mul, Nat.mul_comm]; exact h2

theorem sub_mod_eq (B x : Nat) : x - x % B = B * (x / B) := by
  have h1 := Nat.div_add_mod x B
  omega

/-- Facts on the coordinates of a cell `i` of the grid. -/
theorem coords (B i : Nat) (hB : 0 < B) (hi : i < c_total_cells B) :
    i % c_side_len B < c_side_len B ∧ i / c_side_len B < c_side_len B ∧
    i % c_side_len B / B < B ∧ i / c_side_len B / B < B ∧
    B * (i % c_side_len B / B) + B ≤ c_side_len B ∧
    B * (i / c_side_len B / B) + B ≤ c_side_len B := by
  have hS : 0 < c_side_len B := Nat.mul_pos hB hB
  have h1 : i % c_side_len B < c_side_len B := Nat.mod_lt _ hS
  have h2 : i / c_side_len B < c_side_len B := Nat.div_lt_of_lt_mul hi
  have h3 : i % c_side_len B / B < B := Nat.div_lt_of_lt_mul h1
  have h4 : i / c_side_len B / B < B := Nat.div_lt_of_lt_mul h2
  have h5 : B * (i % c_side_len B / B + 1) ≤ B * B := Nat.mul_le_mul_left B h3
  have h6 : B * (i / c_side_len B / B + 1) ≤ B * B := Nat.mul_le_mul_left B h4
  rw [Nat.mul_add, Nat.mul_one] at h5 h6
  exact ⟨h1, h2, h3, h4, h5, h6⟩

/-! ## Membership in the three parts of a peer list -/

theorem mem_block_peers (B i p : Nat) (hB : 0 < B) (hi : i < c_total_cells B) :
    p ∈ block_peers B i ↔ p ≠ i ∧ p < c_total_cells B ∧
      p % c_side_len B / B = i % c_side_len B / B ∧ p / c_side_len B / B = i / c_side_len B / B := by
  obtain ⟨h1, h2, h3, h4, h5, h6⟩ := coords B i hB hi
  simp only [block_peers, List.mem_flatMap, List.mem_filter, List.mem_map, List.mem_range,
    decide_eq_true_eq, sub_mod_eq]
  generalize hS : c_side_len B = S at *
  generalize hqx : i % S / B = qx at *
  generalize hqy : i / S / B = qy at *
  constructor
  · rintro ⟨x, hx, ⟨y, hy, rfl⟩, hne⟩
    have e : B * qx + B * qy * S + x + y * S = (B * qx + x) + (B * qy + y) * S := by
      rw [Nat.add_mul]; omega
    rw [e] at hne ⊢
    have hc : B * qx + x < S := by omega
    have hr : B * qy + y < S := by omega
    rw [cell_div S _ _ hc, cell_mod S _ _ hc]
    refine ⟨hne, ?_, ?_, ?_⟩
    · rw [c_total_cells, hS]; exact cell_lt S _ _ hc hr
    · rw [window_iff B qx _ hB]; omega
    · rw [window_iff B qy _ hB]; omega
  · rintro ⟨hne, _, hx, hy⟩
    rw [window_iff B qx _ hB] at hx
    rw [window_iff B qy _ hB] at hy
    refine ⟨p % S - B * qx, by omega, ⟨p / S - B * qy, by omega, ?_⟩, hne⟩
    have e : B * qx + B * qy * S + (p % S - B * qx) + (p / S - B * qy) * S
        = (B * qx + (p % S - B * qx)) + (B * qy + (p / S - B * qy)) * S := by
      rw [Nat.add_mul]; omega
    rw [e, Nat.add_sub_cancel' hx.1, Nat.add_sub_cancel' hy.1]
    exact (cell_decomp S p).symm

theorem mem_row_peers (B i p : Nat) (hB : 0 < B) (hi : i < c_total_cells B) :
    p ∈ row_peers B i ↔ p < c_total_cells B ∧ p / c_side_len B = i / c_side_len B ∧
      p % c_side_len B / B ≠ i % c_side_len B / B := by
  obtain ⟨h1, h2, h3, h4, h5, h6⟩ := coords B i hB hi
  have hcy : i - i % c_side_len B = i / c_side_len B * c_side_len B := by
    have := cell_decomp (c_side_len B) i
    omega
  simp only [row_peers, List.mem_filter, List.mem_map, List.mem_range,
    decide_eq_true_eq, sub_mod_eq, hcy]
  generalize hS : c_side_len B = S at *
  generalize hqx : i % S / B = qx at *
  constructor
  · rintro ⟨x, ⟨hx, hout⟩, rfl⟩
    rw [cell_div S _ _ hx, cell_mod S _ _ hx]
    refine ⟨?_, rfl, ?_⟩
    · rw [c_total_cells, hS]; exact cell_lt S _ _ hx h2
    · rw [Ne, window_iff B qx _ hB]; omega
  · rintro ⟨hp, hrow, hx⟩
    rw [Ne, window_iff B qx _ hB] at hx
    have hS0 : 0 < S := by omega
    refine ⟨p % S, ⟨Nat.mod_lt _ hS0, by omega⟩, ?_⟩
    rw [← hrow]
    exact (cell_decomp S p).symm

theorem mem_col_peers (B i p : Nat) (hB : 0 < B) (hi : i < c_total_cells B) :
    p ∈ col_peers B i ↔ p < c_total_cells B ∧ p % c_side_len B = i % c_side_len B ∧
      p / c_side_len B / B ≠ i / c_side_len B / B := by
  obtain ⟨h1, h2, h3, h4, h5, h6⟩ := coords B i hB hi
  simp only [col_peers, List.mem_filter, List.mem_map, List.mem_range,
    decide_eq_true_eq, sub_mod_eq]
  generalize hS : c_side_len B = S at *
  generalize hqy : i / S / B = qy at *
  constructor
  · rintro ⟨y, ⟨hy, hout⟩, rfl⟩
    rw [cell_div S _ _ h1, cell_mod S _ _ h1]
    refine ⟨?_, rfl, ?_⟩
    · rw [c_total_cells, hS]; exact cell_lt S _ _ h1 hy
    · rw [Ne, window_iff B qy _ hB]; omega
  · rintro ⟨hp, hcol, hy⟩
    rw [Ne, window_iff B qy _ hB] at hy
    have hpy : p / S < S := by
      rw [c_total_cells, hS] at hp
      exact Nat.div_lt_of_lt_mul hp
    refine ⟨p / S, ⟨hpy, by omega⟩, ?_⟩
    rw [← hcol]
    exact (cell_decomp S p).symm

/-- Membership in the peer list of `i`: the other cells of its row, column and block. -/
theorem mem_peers_of (B i p : Nat) (hB : 0 < B) (hi : i < c_total_cells B) :
    p ∈ peers_of B i ↔ p < c_total_cells B ∧ p ≠ i ∧ same_unit B i p := by
  simp only [peers_of, List.mem_append, mem_block_peers B i p hB hi, mem_row_peers B i p hB hi,
    mem_col_peers B i p hB hi, same_unit]
  constructor
  · rintro (⟨h1, h2, h3, h4⟩ | ⟨h1, h2, h3⟩ | ⟨h1, h2, h3⟩)
    · exact ⟨h2, h1, Or.inr (Or.inr ⟨h4.symm, h3.symm⟩)⟩
    · refine ⟨h1, ?_, Or.inl h2.symm⟩
      rintro rfl; exact h3 rfl
    · refine ⟨h1, ?_, Or.inr (Or.inl h2.symm)⟩
      rintro rfl; exact h3 rfl
  · rintro ⟨h1, h2, h3⟩
    by_cases hx : p % c_side_len B / B = i % c_side_len B / B
    · by_cases hy : p / c_side_len B / B = i / c_side_len B / B
      · exact Or.inl ⟨h2, h1, hx, hy⟩
      · rcases h3 with h | h | h
        · rw [h] at hy; exact absurd rfl hy
        · exact Or.inr (Or.inr ⟨h1, h.symm, hy⟩)
        · exact absurd h.1.symm hy
    · rcases h3 with h | h | h
      · exact Or.inr (Or.inl ⟨h1, h.symm, hx⟩)
      · rw [h] at hx; exact absurd rfl hx
      · exact absurd h.2.symm hx

/-! ## No repetition and number of entries in a peer list -/

theorem block_full_nodup (B corner S : Nat) (hS : 0 < S) (hc : corner % S + B ≤ S) :
    ((List.range B).flatMap (fun x =>
      (List.range B).map (fun y => corner + x + y * S))).Nodup := by
  rw [List.nodup_flatMap]
  constructor
  · intro x _
    apply List.Nodup.map _ (List.nodup_range B)
    intro y1 y2 h
    simp only at h
    exact Nat.eq_of_mul_eq_mul_right hS (by omega)
  · apply List.Nodup.pairwise_of_forall_ne (List.nodup_range B)
    intro x1 hx1 x2 hx2 hne
    rw [List.mem_range] at hx1 hx2
    intro p h1 h2
    simp only [List.mem_map, List.mem_range] at h1 h2
    obtain ⟨y1, _, e1⟩ := h1
    obtain ⟨y2, _, e2⟩ := h2
    have d := cell_decomp S corner
    have m1 : (corner % S + x1 + (corner / S + y1) * S) % S = corner % S + x1 :=
      cell_mod S _ _ (by omega)
    have m2 : (corner % S + x2 + (corner / S + y2) * S) % S = corner % S + x2 :=
      cell_mod S _ _ (by omega)
    have f1 : p = corner % S + x1 + (corner / S + y1) * S := by rw [Nat.add_mul]; omega
    have f2 : p = corner % S + x2 + (corner / S + y2) * S := by rw [Nat.add_mul]; omega
    rw [← f1] at m1
    rw [← f2] at m2
    omega

theorem block_full_length (B corner S : Nat) :
    ((List.range B).flatMap (fun x =>
      (List.range B).map (fun y => corner + x + y * S))).length = B * B := by
  rw [List.length_flatMap]
  have e : (List.length ∘ fun x => List.map (fun y => corner + x + y * S) (List.range B))
      = fun _ => B := by
    funext x
    simp
  rw [e, List.map_const', List.sum_replicate, List.length_range, smul_eq_mul]

theorem filter_ne_length (l : List Nat) (i : Nat) (hl : l.Nodup) (hi : i ∈ l) :
    (l.filter (fun p => p ≠ i)).length + 1 = l.length := by
  have h1 := List.length_erase_of_mem hi
  have h2 := List.Nodup.erase_eq_filter hl i
  have h3 : l.filter (fun p => p != i) = l.filter (fun p => decide (p ≠ i)) := by
    apply List.filter_congr
    intro x _
    by_cases hx : x = i <;> simp [hx]
  rw [h2, h3] at h1
  have h4 : 0 < l.length := List.length_pos_of_mem hi
  omega

theorem block_peers_eq_filter (B i : Nat) :
    block_peers B i =
      ((List.range B).flatMap (fun x => (List.range B).map (fun y =>
          (i % c_side_len B - i % c_side_len B % B
            + (i / c_side_len B - i / c_side_len B % B) * c_side_len B) + x + y * c_side_len B))).filter
        (fun p => p ≠ i) := by
  rw [block_peers, List.filter_flatMap]

theorem outside_count (a B : Nat) : ∀ n : Nat,
    ((List.range n).filter (fun x => x < a ∨ x ≥ a + B)).length =
      if n ≤ a then n else if n ≤ a + B then a else n - B := by
  intro n
  induction n with
  | zero => simp
  | succ n ih =>
    rw [List.range_succ, List.filter_append, List.length_append, ih]
    by_cases h : n < a ∨ n ≥ a + B
    · rw [List.filter_cons_of_pos (by simpa using h)]
      simp only [List.filter_nil, List.length_cons, List.length_nil]
      split_ifs <;> omega
    · rw [List.filter_cons_of_neg (by simpa using h)]
      simp only [List.filter_nil, List.length_nil]
      split_ifs <;> omega

theorem peers_of_nodup (B i : Nat) (hB : 0 < B) (hi : i < c_total_cells B) :
    (peers_of B i).Nodup := by
  obtain ⟨h1, h2, h3, h4, h5, h6⟩ := coords B i hB hi
  have hS : 0 < c_side_len B := Nat.mul_pos hB hB
  rw [peers_of]
  apply List.Nodup.append
  · rw [block_peers_eq_filter]
    apply List.Nodup.filter
    apply block_full_nodup B _ _ hS
    rw [sub_mod_eq, sub_mod_eq, cell_mod _ _ _ (by omega)]
    exact h5
  · apply List.Nodup.append
    · rw [row_peers]
      exact List.Nodup.map (fun a b h => by omega)
        (List.Nodup.filter _ (List.nodup_range _))
    · rw [col_peers]
      exact List.Nodup.map
        (fun a b h => Nat.eq_of_mul_eq_mul_right hS (by omega))
        (List.Nodup.filter _ (List.nodup_range _))
    · intro p hr hc
      rw [mem_row_peers B i p hB hi] at hr
      rw [mem_col_peers B i p hB hi] at hc
      rw [hr.2.1] at hc
      exact hc.2.2 rfl
  · intro p hb hrc
    rw [mem_block_peers B i p hB hi] at hb
    rw [List.mem_append, mem_row_peers B i p hB hi, mem_col_peers B i p hB hi] at hrc
    rcases hrc with h | h
    · exact h.2.2 hb.2.2.1
    · exact h.2.2 hb.2.2.2

theorem peers_of_length (B i : Nat) (hB : 0 < B) (hi : i < c_total_cells B) :
    (peers_of B i).length = c_peer_count B := by
  obtain ⟨h1, h2, h3, h4, h5, h6⟩ := coords B i hB hi
  have hS : 0 < c_side_len B := Nat.mul_pos hB hB
  have hBS : B ≤ c_side_len B := Nat.le_mul_of_pos_left B hB
  have hblock : (block_peers B i).length + 1 = c_side_len B := by
    rw [block_peers_eq_filter]
    rw [filter_ne_length, block_full_length, c_side_len]
    · apply block_full_nodup B _ _ hS
      rw [sub_mod_eq, sub_mod_eq, cell_mod _ _ _ (by omega)]
      exact h5
    · simp only [List.mem_flatMap, List.mem_map, List.mem_range]
      refine ⟨i % c_side_len B % B, Nat.mod_lt _ hB, i / c_side_len B % B, Nat.mod_lt _ hB, ?_⟩
      have e1 := Nat.mod_add_div (i % c_side_len B) B
      have e2 := Nat.mod_add_div (i / c_side_len B) B
      have e3 := cell_decomp (c_side_len B) i
      have e4 : i / c_side_len B * c_side_len B =
          (i / c_side_len B - i / c_side_len B % B) * c_side_len B
            + i / c_side_len B % B * c_side_len B := by
        rw [← Nat.add_mul]
        congr 1
        omega
      omega
  have hrow : (row_peers B i).length = c_side_len B - B := by
    rw [row_peers, List.length_map, sub_mod_eq, outside_count]
    split_ifs <;> omega
  have hcol : (col_peers B i).length = c_side_len B - B := by
    rw [col_peers, List.length_map, sub_mod_eq, outside_count]
    split_ifs <;> omega
  rw [peers_of, List.length_append, List.length_append, hrow, hcol, c_peer_count]
  omega

/-! ## The flattened table -/

theorem peers_loop_range (B : Nat) (hB : 0 < B) (init : List Nat)
    (hlen : init.length = c_total_cells B * c_peer_count B) : ∀ n : Nat, n ≤ c_total_cells B →
    (peers_loop B (List.range n) init).length = init.length ∧
    (∀ i k, i < n → k < c_peer_count B →
      (peers_loop B (List.range n) init).getD (i * c_peer_count B + k) 0 = (peers_of B i).getD k 0) ∧
    (∀ j, n * c_peer_count B ≤ j → (peers_loop B (List.range n) init).getD j 0 = init.getD j 0) := by
  intro n
  induction n with
  | zero => intro _; simp [peers_loop]
  | succ n ih =>
    intro hn
    obtain ⟨ih1, ih2, ih3⟩ := ih (by omega)
    have hlenn := peers_of_length B n hB (by omega)
    have hfit : n * c_peer_count B + (peers_of B n).length ≤
        (peers_loop B (List.range n) init).length := by
      rw [ih1, hlen, hlenn]
      have := Nat.mul_le_mul_right (c_peer_count B) hn
      rw [Nat.add_mul, Nat.one_mul] at this
      exact this
    rw [List.range_succ, peers_loop_append]
    simp only [peers_loop, peers_cell_eq]
    refine ⟨by rw [write_seq_length, ih1], ?_, ?_⟩
    · intro i k hi hk
      rw [write_seq_getD _ _ _ _ hfit, hlenn]
      by_cases hin : i = n
      · subst hin
        rw [if_pos ⟨by omega, by omega⟩, Nat.add_sub_cancel_left]
      · have hi2 : i < n := by omega
        have := Nat.mul_le_mul_right (c_peer_count B) hi2
        rw [Nat.succ_mul] at this
        rw [if_neg (by omega)]
        exact ih2 i k hi2 hk
    · intro j hj
      rw [Nat.add_mul, Nat.one_mul] at hj
      rw [write_seq_getD _ _ _ _ hfit, hlenn, if_neg (by omega)]
      exact ih3 j (by omega)

/-- The slots that `compute_peers` fills for cell `i` are the entries of `peers_of B i`. -/
theorem compute_peers_getD (B i k : Nat) (hB : 0 < B) (hi : i < c_total_cells B)
    (hk : k < c_peer_count B) :
    (compute_peers B).getD (i * c_peer_count B + k) 0 = (peers_of B i).getD k 0 :=
  (peers_loop_range B hB _ (by simp) (c_total_cells B) (Nat.le_refl _)).2.1 i k hi hk

theorem compute_peers_length (B : Nat) (hB : 0 < B) :
    (compute_peers B).length = c_total_cells B * c_peer_count B := by
  rw [compute_peers, (peers_loop_range B hB _ (by simp) (c_total_cells B) (Nat.le_refl _)).1]
  simp

theorem peer_slots_compute_peers (B i : Nat) (hB : 0 < B) (hi : i < c_total_cells B) :
    peer_slots B (compute_peers B) i = peers_of B i := by
  apply List.ext_getElem
  · rw [peer_slots, List.length_map, List.length_range, peers_of_length B i hB hi]
  · intro k h1 h2
    rw [peer_slots, List.length_map, List.length_range] at h1
    simp only [peer_slots, List.getElem_map, List.getElem_range]
    rw [compute_peers_getD B i k hB hi h1, List.getD_eq_getElem _ _ h2]

/-- Final value of the slot counter `n` in `compute_peers` for cell `i`. -/
theorem peers_cell_count (B i : Nat) (peers : List Nat) (hB : 0 < B) (hi : i < c_total_cells B) :
    (peers_cell B i peers).2 = c_peer_count B := by
  rw [peers_cell_eq, peers_of_length B i hB hi]

/-! ## Machine arithmetic on masks -/

theorem int_shl1_small (n : Nat) (hn : n < 32) : int_shl1 n = 2 ^ n := by
  rw [int_shl1, Nat.mod_eq_of_lt hn]

theorem bit_mask_eq (n : Nat) (hn : n < 31) : bit_mask n = 2 ^ n := by
  have h1 : 2 ^ n < 2 ^ 31 := Nat.pow_lt_pow_right (by decide) hn
  rw [bit_mask, int_shl1_small n (by omega), int_to_myuint, if_pos h1]

theorem blank_mask_eq (B : Nat) (hS : c_side_len B < 32) : blank_mask B = 2 ^ c_side_len B - 1 := by
  have h1 : 2 ^ c_side_len B ≤ 2 ^ 31 := Nat.pow_le_pow_right (by decide) (by omega)
  have h2 : 0 < 2 ^ c_side_len B := Nat.pow_pos (by decide)
  rw [blank_mask, int_shl1_folded, if_pos hS, int_pred, int_to_myuint]
  have h3 : (2 ^ c_side_len B + (2 ^ 32 - 1)) % 2 ^ 32 = 2 ^ c_side_len B - 1 := by omega
  rw [h3, if_pos (by omega)]

theorem lower_bit_eq (m b : Nat) (hb : b < 31) : lower_bit m b = m &&& (2 ^ 64 - (2 ^ b + 1)) := by
  have h1 : 2 ^ b < 2 ^ 31 := Nat.pow_lt_pow_right (by decide) hb
  rw [lower_bit, int_shl1_small b (by omega), int_not, int_to_myuint]
  generalize 2 ^ b = x at *
  have h3 : ¬ (2 ^ 32 - 1 - x % 2 ^ 32 < 2 ^ 31) := by omega
  rw [if_neg h3]
  congr 1
  omega

theorem testBit_of_lt (m n j : Nat) (hm : m < 2 ^ n) (hj : m.testBit j = true) : j < n := by
  by_contra h
  have h2 : m < 2 ^ j := Nat.lt_of_lt_of_le hm (Nat.pow_le_pow_right (by decide) (by omega))
  rw [Nat.testBit_lt_two_pow h2] at hj
  exact Bool.noConfusion hj

theorem lower_bit_testBit (m b j : Nat) (hm : m < 2 ^ 64) (hb : b < 31) :
    (lower_bit m b).testBit j = (m.testBit j && decide (j ≠ b)) := by
  have h1 : 2 ^ b < 2 ^ 64 := Nat.pow_lt_pow_right (by decide) (by omega)
  rw [lower_bit_eq m b hb, Nat.testBit_and, Nat.testBit_two_pow_sub_succ h1, Nat.testBit_two_pow]
  by_cases hj : m.testBit j = true
  · have := testBit_of_lt m 64 j hm hj
    by_cases hjb : j = b
    · subst hjb; simp
    · have : ¬ b = j := fun h => hjb h.symm
      simp [hj, hjb, this, *]
  · simp [hj]

theorem lower_bit_le (m b : Nat) : lower_bit m b ≤ m := Nat.and_le_left

theorem myuint_pred_eq (m : Nat) (h0 : 0 < m) (hm : m < 2 ^ 64) : myuint_pred m = m - 1 := by
  rw [myuint_pred]; omega

theorem is_solved_zero : is_solved 0 = true := by decide

theorem is_solved_two_pow (k : Nat) (hk : k < 64) : is_solved (2 ^ k) = true := by
  have h1 : 2 ^ k < 2 ^ 64 := Nat.pow_lt_pow_right (by decide) hk
  have h2 : 0 < 2 ^ k := Nat.pow_pos (by decide)
  rw [is_solved, myuint_pred_eq _ h2 h1, beq_iff_eq]
  apply Nat.eq_of_testBit_eq
  intro j
  rw [Nat.testBit_and, Nat.testBit_two_pow, Nat.testBit_two_pow_sub_one, Nat.zero_testBit]
  by_cases h : k = j
  · subst h; simp
  · simp [h]

theorem top_bit (x k : Nat) (h1 : 2 ^ k ≤ x) (h2 : x < 2 ^ (k + 1)) : x.testBit k = true := by
  rw [Nat.testBit_to_div_mod]
  have : x / 2 ^ k = 1 := by
    apply Nat.div_eq_of_lt_le
    · rw [Nat.one_mul]; exact h1
    · rw [Nat.pow_succ] at h2; omega
  rw [this]
  decide

/-- A non-zero mask that passes the test "is solved?" has exactly one bit. -/
theorem is_solved_elim (m : Nat) (h0 : 0 < m) (hm : m < 2 ^ 64) (hs : is_solved m = true) :
    ∃ k, m = 2 ^ k := by
  rw [is_solved, myuint_pred_eq m h0 hm, beq_iff_eq] at hs
  refine ⟨Nat.log 2 m, ?_⟩
  have h1 : 2 ^ Nat.log 2 m ≤ m := Nat.pow_log_le_self 2 (by omega)
  have h2 : m < 2 ^ (Nat.log 2 m + 1) := Nat.lt_pow_succ_log_self (by decide) m
  by_contra hne
  have h3 : 2 ^ Nat.log 2 m ≤ m - 1 := by omega
  have t1 := top_bit m _ h1 h2
  have t2 := top_bit (m - 1) _ h3 (by omega)
  have t3 : (m &&& (m - 1)).testBit (Nat.log 2 m) = true := by
    rw [Nat.testBit_and, t1, t2]; rfl
  rw [hs, Nat.zero_testBit] at t3
  exact Bool.noConfusion t3

theorem two_pow_lt_iff (k n : Nat) : 2 ^ k < 2 ^ n ↔ k < n :=
  Nat.pow_lt_pow_iff_right (by decide)

theorem clz_bits_two_pow (k : Nat) : ∀ n, k < n → clz_bits n (2 ^ k) = n - 1 - k := by
  intro n
  induction n with
  | zero => intro h; omega
  | succ n ih =>
    intro h
    rw [clz_bits]
    by_cases hk : k < n
    · rw [if_pos ((two_pow_lt_iff k n).2 hk), ih hk]; omega
    · rw [if_neg (fun h' => hk ((two_pow_lt_iff k n).1 h'))]; omega

theorem highest_bit_two_pow (k : Nat) (hk : k < 64) : highest_bit (2 ^ k) = k := by
  have h1 : 2 ^ k < 2 ^ 64 := Nat.pow_lt_pow_right (by decide) hk
  have h2 : 2 ^ k ≠ 0 := Nat.pos_iff_ne_zero.1 (Nat.pow_pos (by decide))
  rw [highest_bit, builtin_clzll, Nat.mod_eq_of_lt h1, if_neg h2, clz_bits_two_pow k 64 hk,
    myuint_digits]
  omega

theorem highest_bit_zero : highest_bit 0 = 0 := by decide

/-! ## Population count -/

theorem popcount_bits_zero : ∀ k, popcount_bits k 0 = 0 := by
  intro k
  induction k with
  | zero => rfl
  | succ k ih => rw [popcount_bits, Nat.zero_div, ih]

theorem popcount_bits_le : ∀ (k n x : Nat), x < 2 ^ n → popcount_bits k x ≤ n := by
  intro k
  induction k with
  | zero => intro n x _; simp [popcount_bits]
  | succ k ih =>
    intro n x hx
    rw [popcount_bits]
    cases n with
    | zero =>
      have : x = 0 := by simpa using hx
      subst this
      simp [popcount_bits_zero]
    | succ n =>
      have h1 : x / 2 < 2 ^ n := by
        rw [Nat.pow_succ] at hx
        omega
      have := ih n (x / 2) h1
      omega

theorem popcount_bits_two_pow : ∀ (k j : Nat), j < k → popcount_bits k (2 ^ j) = 1 := by
  intro k
  induction k with
  | zero => intro j h; omega
  | succ k ih =>
    intro j h
    rw [popcount_bits]
    cases j with
    | zero => simp [popcount_bits_zero]
    | succ j =>
      have h1 : 2 ^ (j + 1) = 2 * 2 ^ j := by rw [Nat.pow_succ, Nat.mul_comm]
      have h2 : 2 ^ (j + 1) % 2 = 0 := by omega
      have h3 : 2 ^ (j + 1) / 2 = 2 ^ j := by omega
      rw [h2, h3, ih j (by omega)]

theorem popcount_bits_le_one : ∀ (k x : Nat), x < 2 ^ k → popcount_bits k x ≤ 1 →
    x = 0 ∨ ∃ j, j < k ∧ x = 2 ^ j := by
  intro k
  induction k with
  | zero => intro x hx _; left; simpa using hx
  | succ k ih =>
    intro x hx hp
    rw [popcount_bits] at hp
    have h1 : x / 2 < 2 ^ k := by
      rw [Nat.pow_succ] at hx
      omega
    have h2 : popcount_bits k (x / 2) ≤ 1 := by omega
    rcases ih (x / 2) h1 h2 with h | ⟨j, hj, h⟩
    · by_cases h0 : x = 0
      · left; exact h0
      · right
        exact ⟨0, by omega, by simp; omega⟩
    · right
      have h3 : popcount_bits k (x / 2) = 1 := by rw [h]; exact popcount_bits_two_pow k j hj
      refine ⟨j + 1, by omega, ?_⟩
      rw [Nat.pow_succ]
      omega

theorem builtin_popcount_le (m n : Nat) (hm : m < 2 ^ n) : builtin_popcount m ≤ n := by
  rw [builtin_popcount]
  exact popcount_bits_le 32 n _ (Nat.lt_of_le_of_lt (Nat.mod_le _ _) hm)

theorem builtin_popcount_two_pow (j : Nat) (hj : j < 32) : builtin_popcount (2 ^ j) = 1 := by
  rw [builtin_popcount, Nat.mod_eq_of_lt (Nat.pow_lt_pow_right (by decide) hj)]
  exact popcount_bits_two_pow 32 j hj

theorem builtin_popcount_le_one (m : Nat) (h0 : 0 < m) (hm : m < 2 ^ 32)
    (hp : builtin_popcount m ≤ 1) : ∃ j, j < 32 ∧ m = 2 ^ j := by
  rw [builtin_popcount, Nat.mod_eq_of_lt hm] at hp
  rcases popcount_bits_le_one 32 m hm hp with h | h
  · omega
  · exact h

/-! ## The loop over the peers, one visit at a time -/

theorem peer_loop_cons (B : Nat) (tbl : List Nat) (src : Solved) (i : Nat) (is : List Nat)
    (st : State) :
    peer_loop B tbl src (i :: is) st =
      match peer_visit src (slot B tbl src.position i) st with
      | none => (false, { st with queue := [] })
      | some st1 => peer_loop B tbl src is st1 := by
  rw [peer_loop, peer_visit, slot]
  dsimp only
  split_ifs <;> rfl

/-- An invariant of the visits holds at the end of a loop that meets no conflict. -/
theorem peer_loop_true (B : Nat) (tbl : List Nat) (src : Solved) (I : List Nat → State → Prop)
    (step : ∀ p todo st st1, I (p :: todo) st → peer_visit src p st = some st1 → I todo st1) :
    ∀ (is : List Nat) (st : State), I (is.map (slot B tbl src.position)) st →
      (peer_loop B tbl src is st).1 = true → I [] (peer_loop B tbl src is st).2 := by
  intro is
  induction is with
  | nil => intro st h _; exact h
  | cons i is ih =>
    intro st h hr
    rw [peer_loop_cons] at hr ⊢
    rw [List.map_cons] at h
    cases hv : peer_visit src (slot B tbl src.position i) st with
    | none => rw [hv] at hr; exact Bool.noConfusion hr
    | some st1 => rw [hv] at hr; exact ih st1 (step _ _ _ _ h hv) hr

/-- A loop that ends with a conflict stops at a visit that returns the conflict, and clears
the queue. -/
theorem peer_loop_false (B : Nat) (tbl : List Nat) (src : Solved) (I : List Nat → State → Prop)
    (step : ∀ p todo st st1, I (p :: todo) st → peer_visit src p st = some st1 → I todo st1) :
    ∀ (is : List Nat) (st : State), I (is.map (slot B tbl src.position)) st →
      (peer_loop B tbl src is st).1 = false →
      ∃ p todo st1, I (p :: todo) st1 ∧ peer_visit src p st1 = none ∧
        (peer_loop B tbl src is st).2 = { st1 with queue := [] } := by
  intro is
  induction is with
  | nil => intro st _ hr; exact Bool.noConfusion hr
  | cons i is ih =>
    intro st h hr
    rw [peer_loop_cons] at hr ⊢
    rw [List.map_cons] at h
    cases hv : peer_visit src (slot B tbl src.position i) st with
    | none => exact ⟨_, _, st, h, hv, rfl⟩
    | some st1 => rw [hv] at hr; exact ih st1 (step _ _ _ _ h hv) hr

/-! ## Masks of a well-formed grid -/

theorem two_pow_inj (a b : Nat) (h : 2 ^ a = 2 ^ b) : a = b :=
  Nat.pow_right_injective (Nat.le_refl 2) h

theorem single_bit (m b : Nat) (h : ∀ j, j ≠ b → m.testBit j = false) : m = 0 ∨ m = 2 ^ b := by
  by_cases hb : m.testBit b = true
  · right
    apply Nat.eq_of_testBit_eq
    intro j
    rw [Nat.testBit_two_pow]
    by_cases hj : b = j
    · subst hj; simp [hb]
    · simp [hj, h j (fun e => hj e.symm)]
  · left
    apply Nat.eq_of_testBit_eq
    intro j
    rw [Nat.zero_testBit]
    by_cases hj : j = b
    · subst hj; simpa using hb
    · exact h j hj

theorem mask_solved (S m : Nat) (hS : S < 32) (h0 : 0 < m) (hm : m < 2 ^ S)
    (hs : is_solved m = true) : ∃ k, k < S ∧ m = 2 ^ k ∧ highest_bit m = k := by
  have h64 : m < 2 ^ 64 := Nat.lt_of_lt_of_le hm (Nat.pow_le_pow_right (by decide) (by omega))
  obtain ⟨k, hk⟩ := is_solved_elim m h0 h64 hs
  have hkS : k < S := by rw [hk, two_pow_lt_iff] at hm; exact hm
  exact ⟨k, hkS, hk, by rw [hk]; exact highest_bit_two_pow k (by omega)⟩

theorem mask_lowered (S m b : Nat) (hS : S < 32) (hm : m < 2 ^ S)
    (hs : ¬ is_solved m = true) (hb : b < S) :
    0 < lower_bit m b ∧ lower_bit m b < 2 ^ S ∧
      ∀ j, (lower_bit m b).testBit j = (m.testBit j && decide (j ≠ b)) := by
  have h64 : m < 2 ^ 64 := Nat.lt_of_lt_of_le hm (Nat.pow_le_pow_right (by decide) (by omega))
  have ht := fun j => lower_bit_testBit m b j h64 (by omega)
  refine ⟨?_, Nat.lt_of_le_of_lt (lower_bit_le m b) hm, ht⟩
  rw [Nat.pos_iff_ne_zero]
  intro h0
  have hall : ∀ j, j ≠ b → m.testBit j = false := by
    intro j hj
    have := ht j
    rw [h0, Nat.zero_testBit] at this
    simpa [hj] using this.symm
  rcases single_bit m b hall with h | h
  · rw [h] at hs; exact hs is_solved_zero
  · rw [h] at hs; exact hs (is_solved_two_pow b (by omega))

theorem getD_of_ge (g : List Nat) (p : Nat) (h : g.length ≤ p) : g.getD p 0 = 0 := by
  simp [List.getD_eq_getElem?_getD, List.getElem?_eq_none h]

theorem shrinks_refl (g : List Nat) : shrinks g g :=
  ⟨rfl, fun _ => ⟨fun _ => rfl, fun _ h => h⟩⟩

theorem shrinks_trans (g1 g2 g3 : List Nat) (h12 : shrinks g1 g2) (h23 : shrinks g2 g3) :
    shrinks g1 g3 := by
  refine ⟨h23.1.trans h12.1, fun c => ⟨fun hs => ?_, fun j hj => ?_⟩⟩
  · have e := (h12.2 c).1 hs
    rw [(h23.2 c).1 (by rw [e]; exact hs), e]
  · exact (h12.2 c).2 j ((h23.2 c).2 j hj)

/-- Replacing an unsolved mask by a subset of it shrinks the grid. -/
theorem shrinks_set (g : List Nat) (p m : Nat) (hs : ¬ is_solved (g.getD p 0) = true)
    (hsub : ∀ j, m.testBit j = true → (g.getD p 0).testBit j = true) : shrinks g (g.set p m) := by
  refine ⟨List.length_set _ _ _, fun c => ⟨fun hc => ?_, fun j hj => ?_⟩⟩
  · rw [getD_set_eq, if_neg]
    rintro ⟨rfl, _⟩
    exact hs hc
  · rw [getD_set_eq] at hj
    split_ifs at hj with h
    · rw [← h.1]; exact hsub j hj
    · exact hj

/-! ## One visit keeps the invariant of the propagation -/

theorem visit_inv_step (B : Nat) (tbl : List Nat) (src : Solved) (hS : c_side_len B < 32)
    (hbit : src.bit < c_side_len B) (p : Nat) (todo : List Nat) (st st1 : State)
    (hinv : visit_inv B tbl src (p :: todo) st) (hv : peer_visit src p st = some st1) :
    visit_inv B tbl src todo st1 ∧ shrinks st.grid st1.grid := by
  obtain ⟨⟨hlen, hmask⟩, hq, hsrc, hset⟩ := hinv
  -- the part of `settled` that does not depend on the visited peer
  have hkeep : ∀ (g1 : List Nat) (q1 : List Solved),
      (∀ e ∈ st.queue, e ∈ q1) →
      (∀ c, (g1.getD c 0).testBit src.bit = true → c = p → False) →
      (∀ c j, (g1.getD c 0).testBit j = true → (st.grid.getD c 0).testBit j = true) →
      (∀ c b, c < c_total_cells B → g1.getD c 0 = 2 ^ b → st.grid.getD c 0 ≠ 2 ^ b →
        (⟨c, b⟩ : Solved) ∈ q1) →
      settled B tbl g1 q1 src.position todo := by
    intro g1 q1 hqs hbitp hsub hnew c b hc hcb
    by_cases hold : st.grid.getD c 0 = 2 ^ b
    · rcases hset c b hc hold with h | h
      · exact Or.inl (hqs _ h)
      · right
        intro p1 hp1
        rcases h p1 hp1 with h1 | ⟨h1, h2⟩
        · left
          by_contra hne
          have := hsub p1 b (by simpa using hne)
          rw [h1] at this
          exact Bool.noConfusion this
        · rcases List.mem_cons.1 h2 with h3 | h3
          · left
            by_contra hne
            have hb : b = src.bit := by
              rw [h1, hsrc] at hold
              exact (two_pow_inj _ _ hold).symm
            rw [hb] at hne
            exact hbitp p1 (by simpa using hne) h3
          · exact Or.inr ⟨h1, h3⟩
    · exact Or.inl (hnew c b hc hcb hold)
  unfold peer_visit at hv
  dsimp only at hv
  by_cases hps : is_solved (st.grid.getD p 0) = true
  · -- the peer is solved: nothing changes
    rw [if_pos hps] at hv
    by_cases hsame : src.bit = highest_bit (st.grid.getD p 0)
    · rw [if_pos hsame] at hv; exact Option.noConfusion hv
    · rw [if_neg hsame] at hv
      cases hv
      refine ⟨⟨⟨hlen, hmask⟩, hq, hsrc, ?_⟩, shrinks_refl _⟩
      apply hkeep st.grid st.queue (fun _ h => h) _ (fun _ _ h => h)
      · intro c b _ h1 h2; exact absurd h1 h2
      · intro c hc hcp
        subst hcp
        by_cases hpN : c < c_total_cells B
        · obtain ⟨k, _, hk, hhb⟩ := mask_solved _ _ hS (hmask c hpN).1 (hmask c hpN).2 hps
          rw [hk, Nat.testBit_two_pow] at hc
          rw [hhb] at hsame
          have hks : k = src.bit := by simpa using hc
          exact hsame hks.symm
        · rw [getD_of_ge _ _ (by omega), Nat.zero_testBit] at hc
          exact Bool.noConfusion hc
  · -- the peer is unsolved: the bit of the source is removed
    rw [if_neg hps] at hv
    have hpN : p < c_total_cells B := by
      by_contra h
      rw [getD_of_ge _ _ (by omega)] at hps
      exact hps is_solved_zero
    obtain ⟨hpos, hlt, htb⟩ :=
      mask_lowered _ _ src.bit hS (hmask p hpN).2 hps hbit
    have hne : p ≠ src.position := by
      rintro rfl
      rw [hsrc] at hps
      exact hps (is_solved_two_pow _ (by omega))
    have hsub : ∀ c j, ((st.grid.set p (lower_bit (st.grid.getD p 0) src.bit)).getD c 0).testBit j
        = true → (st.grid.getD c 0).testBit j = true := by
      intro c j hj
      rw [getD_set_eq] at hj
      split_ifs at hj with h
      · rw [htb] at hj
        rw [← h.1]
        simp only [Bool.and_eq_true] at hj
        exact hj.1
      · exact hj
    have hshr : shrinks st.grid (st.grid.set p (lower_bit (st.grid.getD p 0) src.bit)) :=
      shrinks_set _ _ _ hps (fun j hj => by
        rw [htb] at hj
        simp only [Bool.and_eq_true] at hj
        exact hj.1)
    have hmask1 : masks_ok B (st.grid.set p (lower_bit (st.grid.getD p 0) src.bit)) := by
      refine ⟨by rw [List.length_set]; exact hlen, fun c hc => ?_⟩
      rw [getD_set_eq]
      split_ifs
      · exact ⟨hpos, hlt⟩
      · exact hmask c hc
    have hsrc1 : (st.grid.set p (lower_bit (st.grid.getD p 0) src.bit)).getD src.position 0
        = 2 ^ src.bit := by
      rw [getD_set_eq, if_neg (fun h => hne h.1), hsrc]
    have hbitp : ∀ c, ((st.grid.set p (lower_bit (st.grid.getD p 0) src.bit)).getD c 0).testBit
        src.bit = true → c = p → False := by
      intro c hc hcp
      subst hcp
      rw [getD_set_eq, if_pos ⟨rfl, by omega⟩, htb] at hc
      simp at hc
    have hqold : ∀ e ∈ st.queue,
        e.position < c_total_cells B ∧ e.bit < c_side_len B ∧
          (st.grid.set p (lower_bit (st.grid.getD p 0) src.bit)).getD e.position 0 = 2 ^ e.bit := by
      intro e he
      obtain ⟨h1, h2, h3⟩ := hq e he
      refine ⟨h1, h2, ?_⟩
      rw [getD_set_eq, if_neg, h3]
      rintro ⟨rfl, _⟩
      rw [h3] at hps
      exact hps (is_solved_two_pow _ (by omega))
    have hchg : ∀ c b, (st.grid.set p (lower_bit (st.grid.getD p 0) src.bit)).getD c 0 = 2 ^ b →
        st.grid.getD c 0 ≠ 2 ^ b → c = p := by
      intro c b h1 h2
      by_contra hcp
      rw [getD_set_eq, if_neg (fun h => hcp h.1.symm)] at h1
      exact h2 h1
    by_cases hps1 : is_solved (lower_bit (st.grid.getD p 0) src.bit) = true
    · rw [if_pos hps1] at hv
      cases hv
      obtain ⟨k, hk, hk2, hhb⟩ := mask_solved _ _ hS hpos hlt hps1
      refine ⟨⟨hmask1, ?_, hsrc1, ?_⟩, hshr⟩
      · intro e he
        rcases List.mem_append.1 he with h | h
        · exact hqold e h
        · rw [List.mem_singleton] at h
          subst h
          refine ⟨hpN, by rw [hhb]; exact hk, ?_⟩
          dsimp only
          rw [getD_set_eq, if_pos ⟨rfl, by omega⟩, hhb]
          exact hk2
      · apply hkeep _ _ (fun e h => List.mem_append.2 (Or.inl h)) hbitp hsub
        intro c b _ h1 h2
        have hcp := hchg c b h1 h2
        subst hcp
        rw [getD_set_eq, if_pos ⟨rfl, by omega⟩, hk2] at h1
        have := two_pow_inj _ _ h1
        subst this
        rw [hhb]
        exact List.mem_append.2 (Or.inr (List.mem_singleton.2 rfl))
    · rw [if_neg hps1] at hv
      cases hv
      refine ⟨⟨hmask1, hqold, hsrc1, ?_⟩, hshr⟩
      apply hkeep _ _ (fun e h => h) hbitp hsub
      intro c b _ h1 h2
      have hcp := hchg c b h1 h2
      subst hcp
      rw [getD_set_eq, if_pos ⟨rfl, by omega⟩] at h1
      rw [h1] at hps1 hlt
      rw [two_pow_lt_iff] at hlt
      exact absurd (is_solved_two_pow b (by omega)) hps1

/-! ## The loop over the queue -/

theorem propagate_loop_cons (B : Nat) (tbl : List Nat) (fuel : Nat) (st : State) (src : Solved)
    (rest : List Solved) (hq : st.queue = src :: rest) :
    propagate_loop B tbl (fuel + 1) st =
      match peer_loop B tbl src (List.range (c_peer_count B)) { st with queue := rest } with
      | (false, st1) => some (false, st1)
      | (true, st1) => propagate_loop B tbl fuel st1 := by
  rw [propagate_loop]
  split
  · rename_i h; rw [hq] at h; exact List.noConfusion h
  · rename_i s r h
    rw [hq] at h
    cases h
    rfl

theorem propagate_loop_nil (B : Nat) (tbl : List Nat) (fuel : Nat) (st : State)
    (hq : st.queue = []) : propagate_loop B tbl (fuel + 1) st = some (true, st) := by
  rw [propagate_loop]
  split
  · rfl
  · rename_i s r h; rw [hq] at h; exact List.noConfusion h

/-- An invariant of the iterations holds when `propagate` returns `true`; a return of `false`
comes from a conflict met from a state with the invariant; the queue is empty in both cases. -/
theorem propagate_loop_inv (B : Nat) (tbl : List Nat) (J : State → Prop)
    (step : ∀ src rest st st1, J st → st.queue = src :: rest →
      peer_loop B tbl src (List.range (c_peer_count B)) { st with queue := rest } = (true, st1) →
      J st1) :
    ∀ (fuel : Nat) (st : State) (ok : Bool) (r : State), J st →
      propagate_loop B tbl fuel st = some (ok, r) →
      r.queue = [] ∧ (ok = true → J r) ∧
      (ok = false → ∃ s src rest, J s ∧ s.queue = src :: rest ∧
        peer_loop B tbl src (List.range (c_peer_count B)) { s with queue := rest } = (false, r)) := by
  intro fuel
  induction fuel with
  | zero => intro st ok r _ h; rw [propagate_loop] at h; exact Option.noConfusion h
  | succ fuel ih =>
    intro st ok r hJ h
    cases hq : st.queue with
    | nil =>
      rw [propagate_loop_nil B tbl fuel st hq] at h
      cases h
      exact ⟨hq, fun _ => hJ, fun h => Bool.noConfusion h⟩
    | cons src rest =>
      rw [propagate_loop_cons B tbl fuel st src rest hq] at h
      cases hp : peer_loop B tbl src (List.range (c_peer_count B)) { st with queue := rest } with
      | mk b st1 =>
        rw [hp] at h
        cases b with
        | false =>
          dsimp only at h
          cases h
          refine ⟨?_, fun h => Bool.noConfusion h, fun _ => ⟨st, src, rest, hJ, hq, hp⟩⟩
          have := peer_loop_false B tbl src (fun _ _ => True) (fun _ _ _ _ _ _ => trivial)
            (List.range (c_peer_count B)) { st with queue := rest } trivial (by rw [hp])
          obtain ⟨_, _, st2, _, _, h2⟩ := this
          rw [hp] at h2
          dsimp only at h2
          rw [h2]
        | true =>
          dsimp only at h
          exact ih st1 ok r (step src rest st st1 hJ hq hp) h

theorem peer_slots_eq (B : Nat) (tbl : List Nat) (c : Nat) :
    peer_slots B tbl c = (List.range (c_peer_count B)).map (slot B tbl c) := rfl

/-- The visits of one source keep the invariant of `propagate`, with or without conflict. -/
theorem propagate_inv_step (B : Nat) (tbl g0 : List Nat) (hS : c_side_len B < 32)
    (src : Solved) (rest : List Solved) (st st1 : State) (ok : Bool)
    (hJ : propagate_inv B tbl g0 st) (hq : st.queue = src :: rest)
    (hp : peer_loop B tbl src (List.range (c_peer_count B)) { st with queue := rest } = (ok, st1)) :
    masks_ok B st1.grid ∧ shrinks g0 st1.grid ∧
      (ok = true → propagate_inv B tbl g0 st1) := by
  obtain ⟨hm, hqo, hset, hsh⟩ := hJ
  have hsrc := hqo src (by rw [hq]; exact List.mem_cons_self _ _)
  let I : List Nat → State → Prop := fun todo s =>
    visit_inv B tbl src todo s ∧ shrinks g0 s.grid
  have hstep : ∀ p todo s s1, I (p :: todo) s → peer_visit src p s = some s1 → I todo s1 := by
    intro p todo s s1 hI hv
    have := visit_inv_step B tbl src hS hsrc.2.1 p todo s s1 hI.1 hv
    exact ⟨this.1, shrinks_trans _ _ _ hI.2 this.2⟩
  have hI0 : I ((List.range (c_peer_count B)).map (slot B tbl src.position))
      { st with queue := rest } := by
    refine ⟨⟨hm, ?_, hsrc.2.2, ?_⟩, hsh⟩
    · intro e he
      exact hqo e (by rw [hq]; exact List.mem_cons_of_mem _ he)
    · intro c b hc hcb
      rcases hset c b hc hcb with h | h
      · rw [hq] at h
        rcases List.mem_cons.1 h with h1 | h1
        · right
          intro p hp1
          right
          subst h1
          exact ⟨rfl, hp1⟩
        · exact Or.inl h1
      · right
        intro p hp1
        rcases h p hp1 with h2 | h2
        · exact Or.inl h2
        · exact absurd h2.2 (List.not_mem_nil _)
  cases ok with
  | true =>
    have := peer_loop_true B tbl src I hstep _ _ hI0 (by rw [hp])
    rw [hp] at this
    obtain ⟨⟨h1, h2, _, h4⟩, h5⟩ := this
    refine ⟨h1, h5, fun _ => ⟨h1, h2, ?_, h5⟩⟩
    intro c b hc hcb
    rcases h4 c b hc hcb with h | h
    · exact Or.inl h
    · right
      intro p hp1
      rcases h p hp1 with h2 | h2
      · exact Or.inl h2
      · exact absurd h2.2 (List.not_mem_nil _)
  | false =>
    obtain ⟨p, todo, s, hI, _, he⟩ := peer_loop_false B tbl src I hstep _ _ hI0 (by rw [hp])
    rw [hp] at he
    dsimp only at he
    rw [he]
    exact ⟨hI.1.1, hI.2, fun h => Bool.noConfusion h⟩

/-- Soundness of `propagate`: on return the grid is well formed, it comes from the grid of the
call by removing candidates of unsolved cells, and on success every solved cell has its value
removed from all its peers. -/
theorem propagate_loop_sound (B : Nat) (tbl g0 : List Nat) (hS : c_side_len B < 32)
    (fuel : Nat) (st r : State) (ok : Bool) (hJ : propagate_inv B tbl g0 st)
    (h : propagate_loop B tbl fuel st = some (ok, r)) :
    masks_ok B r.grid ∧ shrinks g0 r.grid ∧ r.queue = [] ∧
      (ok = true → settled B tbl r.grid [] 0 []) := by
  obtain ⟨h1, h2, h3⟩ := propagate_loop_inv B tbl (propagate_inv B tbl g0)
    (fun src rest s s1 hs hq hp => (propagate_inv_step B tbl g0 hS src rest s s1 true hs hq hp).2.2 rfl)
    fuel st ok r hJ h
  cases ok with
  | true =>
    obtain ⟨a, _, c, d⟩ := h2 rfl
    rw [h1] at c
    exact ⟨a, d, h1, fun _ => c⟩
  | false =>
    obtain ⟨s, src, rest, hs, hq, hp⟩ := h3 rfl
    have := propagate_inv_step B tbl g0 hS src rest s r false hs hq hp
    exact ⟨this.1, this.2.1, h1, fun h => Bool.noConfusion h⟩

/-! ## The initial grid -/

theorem myuint_succ_small (n : Nat) (h : n < 2 ^ 63) : myuint_succ n = n + 1 := by
  rw [myuint_succ]; omega

theorem myuint_pred_small (n : Nat) (h0 : 0 < n) (h : n < 2 ^ 63) : myuint_pred n = n - 1 := by
  rw [myuint_pred]; omega

theorem init_loop_spec (B : Nat) (hB : c_side_len B < 2 ^ 62) : ∀ (rest : List Nat) (i : Nat)
    (st : State), (∀ v ∈ rest, v ≤ c_side_len B + 1) → i + rest.length ≤ st.grid.length →
    ∃ st1, init_loop B rest i st = some st1 ∧ st1.grid.length = st.grid.length ∧
      (∀ c, c < i ∨ i + rest.length ≤ c → st1.grid.getD c 0 = st.grid.getD c 0) ∧
      (∀ k, k < rest.length → st1.grid.getD (i + k) 0 =
        if rest.getD k 0 = 0 then blank_mask B else bit_mask (rest.getD k 0 - 1)) ∧
      (∀ e, e ∈ st1.queue ↔ e ∈ st.queue ∨
        ∃ k, k < rest.length ∧ rest.getD k 0 ≠ 0 ∧ e = ⟨i + k, rest.getD k 0 - 1⟩) := by
  intro rest
  induction rest with
  | nil =>
    intro i st _ _
    refine ⟨st, rfl, rfl, fun _ _ => rfl, fun k hk => absurd hk (Nat.not_lt_zero _), fun e => ?_⟩
    constructor
    · exact Or.inl
    · rintro (h | ⟨k, hk, _⟩)
      · exact h
      · exact absurd hk (Nat.not_lt_zero _)
  | cons v rest ih =>
    intro i st hv hlen
    have hv0 := hv v (List.mem_cons_self _ _)
    have hvr : ∀ w ∈ rest, w ≤ c_side_len B + 1 := fun w hw => hv w (List.mem_cons_of_mem _ hw)
    rw [List.length_cons] at hlen
    rw [init_loop, myuint_succ_small _ (by omega), if_neg (by omega)]
    by_cases h0 : v = 0
    · rw [if_pos h0]
      obtain ⟨st1, e1, e2, e3, e4, e5⟩ := ih (i + 1)
        { st with grid := st.grid.set i (blank_mask B) } hvr (by simp; omega)
      refine ⟨st1, e1, by simpa using e2, ?_, ?_, ?_⟩
      · intro c hc
        rw [List.length_cons] at hc
        rw [e3 c (by omega)]
        dsimp only
        rw [getD_set_eq, if_neg (by omega)]
      · intro k hk
        cases k with
        | zero =>
          rw [Nat.add_zero, e3 i (by omega)]
          dsimp only
          rw [getD_set_eq, if_pos ⟨rfl, by omega⟩, List.getD_cons_zero, if_pos h0]
        | succ k =>
          have := e4 k (by simp only [List.length_cons] at hk; omega)
          rw [List.getD_cons_succ, ← this]
          congr 1
          omega
      · intro e
        rw [e5 e]
        dsimp only
        constructor
        · rintro (h | ⟨k, hk, hk0, he⟩)
          · exact Or.inl h
          · exact Or.inr ⟨k + 1, by simp; omega, by simpa using hk0, by
              rw [he, List.getD_cons_succ]; congr 1; omega⟩
        · rintro (h | ⟨k, hk, hk0, he⟩)
          · exact Or.inl h
          · cases k with
            | zero => rw [List.getD_cons_zero] at hk0; exact absurd h0 hk0
            | succ k =>
              rw [List.getD_cons_succ] at hk0 he
              exact Or.inr ⟨k, by simp only [List.length_cons] at hk; omega, hk0, by
                rw [he]; congr 1; omega⟩
    · rw [if_neg h0]
      dsimp only
      rw [myuint_pred_small v (by omega) (by omega)]
      obtain ⟨st1, e1, e2, e3, e4, e5⟩ := ih (i + 1)
        { grid := st.grid.set i (bit_mask (v - 1)), occ := bump st.occ (v - 1),
          queue := st.queue ++ [⟨i, v - 1⟩] } hvr (by simp; omega)
      refine ⟨st1, e1, by simpa using e2, ?_, ?_, ?_⟩
      · intro c hc
        rw [List.length_cons] at hc
        rw [e3 c (by omega)]
        dsimp only
        rw [getD_set_eq, if_neg (by omega)]
      · intro k hk
        cases k with
        | zero =>
          rw [Nat.add_zero, e3 i (by omega)]
          dsimp only
          rw [getD_set_eq, if_pos ⟨rfl, by omega⟩, List.getD_cons_zero, if_neg h0]
        | succ k =>
          have := e4 k (by simp only [List.length_cons] at hk; omega)
          rw [List.getD_cons_succ, ← this]
          congr 1
          omega
      · intro e
        rw [e5 e]
        dsimp only
        rw [List.mem_append, List.mem_singleton]
        constructor
        · rintro ((h | h) | ⟨k, hk, hk0, he⟩)
          · exact Or.inl h
          · exact Or.inr ⟨0, by simp, by simpa using h0, by simpa using h⟩
          · exact Or.inr ⟨k + 1, by simp; omega, by simpa using hk0, by
              rw [he, List.getD_cons_succ]; congr 1; omega⟩
        · rintro (h | ⟨k, hk, hk0, he⟩)
          · exact Or.inl (Or.inl h)
          · cases k with
            | zero => exact Or.inl (Or.inr (by simpa using he))
            | succ k =>
              rw [List.getD_cons_succ] at hk0 he
              exact Or.inr ⟨k, by simp only [List.length_cons] at hk; omega, hk0, by
                rw [he]; congr 1; omega⟩

theorem blank_not_single (S b : Nat) (hS : 2 ≤ S) : 2 ^ S - 1 ≠ 2 ^ b := by
  have h1 : 2 ^ S = 4 * 2 ^ (S - 2) := by
    rw [show (4 : Nat) = 2 ^ 2 by rfl, ← Nat.pow_add]
    congr 1; omega
  have h2 : 0 < 2 ^ (S - 2) := Nat.pow_pos (by decide)
  cases b with
  | zero => simp; omega
  | succ b =>
    rw [Nat.pow_succ]
    omega

/-- The state built from a well-formed input satisfies the invariant of `propagate` and holds the
masks of the givens and of the blank cells. -/
theorem initial_state_spec (B : Nat) (tbl input : List Nat) (hB : 2 ≤ B) (hS : c_side_len B < 32)
    (hin : well_formed B input) :
    ∃ st0, initial_state B input = some st0 ∧ propagate_inv B tbl st0.grid st0 ∧
      keeps_givens B input st0.grid ∧
      (∀ i, i < c_total_cells B → input.getD i 0 = 0 → st0.grid.getD i 0 = 2 ^ c_side_len B - 1) := by
  obtain ⟨hlen, hval⟩ := hin
  have hS2 : 2 ≤ c_side_len B := by
    rw [c_side_len]
    exact Nat.le_trans hB (Nat.le_mul_of_pos_left B (by omega))
  obtain ⟨st0, e1, e2, _, e4, e5⟩ := init_loop_spec B (by omega) input 0
    { grid := List.replicate (c_total_cells B) 0, occ := List.replicate (c_side_len B) 0,
      queue := [] }
    (fun v hv => Nat.le_succ_of_le (hval v hv)) (by simp [hlen])
  have hvi : ∀ i, i < c_total_cells B → input.getD i 0 ≤ c_side_len B := by
    intro i hi
    rw [List.getD_eq_getElem _ _ (by omega)]
    exact hval _ (List.getElem_mem _)
  have hgiven : ∀ i, i < c_total_cells B → input.getD i 0 ≠ 0 →
      st0.grid.getD i 0 = 2 ^ (input.getD i 0 - 1) := by
    intro i hi h0
    have := e4 i (by omega)
    rw [Nat.zero_add, if_neg h0, bit_mask_eq _ (by have := hvi i hi; omega)] at this
    exact this
  have hblank : ∀ i, i < c_total_cells B → input.getD i 0 = 0 →
      st0.grid.getD i 0 = 2 ^ c_side_len B - 1 := by
    intro i hi h0
    have := e4 i (by omega)
    rw [Nat.zero_add, if_pos h0, blank_mask_eq B hS] at this
    exact this
  refine ⟨st0, e1, ⟨⟨?_, ?_⟩, ?_, ?_, shrinks_refl _⟩, hgiven, hblank⟩
  · simpa using e2
  · intro c hc
    by_cases h0 : input.getD c 0 = 0
    · rw [hblank c hc h0]
      have : 4 ≤ 2 ^ c_side_len B := by
        calc 4 = 2 ^ 2 := rfl
          _ ≤ 2 ^ c_side_len B := Nat.pow_le_pow_right (by decide) hS2
      omega
    · rw [hgiven c hc h0]
      refine ⟨Nat.pow_pos (by decide), (two_pow_lt_iff _ _).2 ?_⟩
      have := hvi c hc
      omega
  · intro e he
    rw [e5] at he
    rcases he with h | ⟨k, hk, hk0, rfl⟩
    · exact absurd h (List.not_mem_nil _)
    · rw [Nat.zero_add]
      have := hvi k (by omega)
      dsimp only
      exact ⟨by omega, by omega, hgiven k (by omega) hk0⟩
  · intro c b hc hcb
    left
    rw [e5]
    right
    by_cases h0 : input.getD c 0 = 0
    · rw [hblank c hc h0] at hcb
      exact absurd hcb (blank_not_single _ _ hS2)
    · rw [hgiven c hc h0] at hcb
      refine ⟨c, by omega, h0, ?_⟩
      rw [Nat.zero_add, two_pow_inj _ _ hcb]

/-! ## Order of the candidate values -/

theorem swap_at_perm (l : List Nat) (i j : Nat) (hi : i < l.length) (hj : j < l.length)
    (hij : i ≠ j) : (swap_at l i j).Perm l := by
  rw [List.perm_iff_count]
  intro b
  rw [swap_at]
  rw [List.getD_eq_getElem _ _ hi, List.getD_eq_getElem _ _ hj,
    List.count_set _ _ _ _ (by rw [List.length_set]; exact hj),
    List.count_set _ _ _ _ hi, List.getElem_set_ne hij]
  have h1 : (if (l[i] == b) = true then 1 else 0) ≤ l.count b := by
    split_ifs with h
    · exact List.count_pos_iff.2 (by rw [← beq_iff_eq.1 h]; exact List.getElem_mem _)
    · exact Nat.zero_le _
  have h2 : (if (l[j] == b) = true then 1 else 0) ≤ l.count b := by
    split_ifs with h
    · exact List.count_pos_iff.2 (by rw [← beq_iff_eq.1 h]; exact List.getElem_mem _)
    · exact Nat.zero_le _
  omega

theorem order_inner_perm (occ : List Nat) (i : Nat) : ∀ (n j : Nat) (list : List Nat),
    i < j → j + n ≤ list.length → (order_inner occ i n j list).Perm list := by
  intro n
  induction n with
  | zero => intro j list _ _; exact List.Perm.refl _
  | succ n ih =>
    intro j list hij hlen
    rw [order_inner]
    split_ifs
    · have hp := swap_at_perm list i j (by omega) (by omega) (by omega)
      exact (ih (j + 1) _ (by omega) (by rw [hp.length_eq]; omega)).trans hp
    · exact ih (j + 1) _ (by omega) (by omega)

theorem order_outer_perm (occ : List Nat) : ∀ (n i : Nat) (list : List Nat),
    (order_outer occ n i list).Perm list := by
  intro n
  induction n with
  | zero => intro i list; exact List.Perm.refl _
  | succ n ih =>
    intro i list
    rw [order_outer]
    have hp : (order_inner occ i (list.length - (i + 1)) (i + 1) list).Perm list := by
      by_cases h : i + 1 ≤ list.length
      · exact order_inner_perm occ i _ _ _ (by omega) (by omega)
      · have : list.length - (i + 1) = 0 := by omega
        rw [this, order_inner]
    exact (ih (i + 1) _).trans hp

theorem and_two_pow_ne_zero (m i : Nat) : (m &&& 2 ^ i != 0) = m.testBit i := by
  by_cases h : m.testBit i = true
  · rw [h]
    have : (m &&& 2 ^ i).testBit i = true := by rw [Nat.testBit_and, h, Nat.testBit_two_pow_self]; rfl
    rw [bne_iff_ne]
    intro h0
    rw [h0, Nat.zero_testBit] at this
    exact Bool.noConfusion this
  · have h' : m.testBit i = false := by simpa using h
    rw [h']
    have : m &&& 2 ^ i = 0 := by
      apply Nat.eq_of_testBit_eq
      intro j
      rw [Nat.testBit_and, Nat.testBit_two_pow, Nat.zero_testBit]
      by_cases hj : i = j
      · subst hj; simp [h']
      · simp [hj]
    rw [this]
    rfl

/-- The list of `get_possible_values` is a rearrangement of the indices of the set bits. -/
theorem get_possible_values_perm (B : Nat) (occ : List Nat) (value : Nat)
    (hS : c_side_len B < 32) :
    (get_possible_values B occ value).Perm
      ((List.range (c_side_len B)).filter (fun i => value.testBit i)) := by
  rw [get_possible_values]
  have e : (List.range (c_side_len B)).filter (fun i => (value &&& bit_mask i) != 0)
      = (List.range (c_side_len B)).filter (fun i => value.testBit i) := by
    apply List.filter_congr
    intro i hi
    rw [List.mem_range] at hi
    rw [bit_mask_eq i (by omega), and_two_pow_ne_zero]
  rw [e]
  exact order_outer_perm _ _ _ _

theorem mem_get_possible_values (B : Nat) (occ : List Nat) (value v : Nat)
    (hS : c_side_len B < 32) :
    v ∈ get_possible_values B occ value ↔ v < c_side_len B ∧ value.testBit v = true := by
  rw [(get_possible_values_perm B occ value hS).mem_iff, List.mem_filter, List.mem_range]

/-! ## Choice of the branching cell -/

theorem smallest_loop_lt : ∀ (cells : List Nat) (i best pos L : Nat), pos < L →
    i + cells.length ≤ L → smallest_loop cells i best pos < L := by
  intro cells
  induction cells with
  | nil => intro i best pos L h _; exact h
  | cons c cells ih =>
    intro i best pos L h hl
    rw [List.length_cons] at hl
    rw [smallest_loop]
    split_ifs
    · omega
    · exact ih _ _ _ L (by omega) (by omega)
    · exact ih _ _ _ L h (by omega)

theorem smallest_loop_none : ∀ (cells : List Nat) (i best pos : Nat),
    i + cells.length ≤ smallest_loop cells i best pos →
    ∀ m ∈ cells, builtin_popcount m ≠ 2 ∧ ¬ (builtin_popcount m > 2 ∧ builtin_popcount m < best) := by
  intro cells
  induction cells with
  | nil => intro i best pos _ m hm; exact absurd hm (List.not_mem_nil _)
  | cons c cells ih =>
    intro i best pos h m hm
    rw [List.length_cons] at h
    rw [smallest_loop] at h
    split_ifs at h with h1 h2
    · omega
    · have := smallest_loop_lt cells (i + 1) (builtin_popcount c) i (i + (cells.length + 1))
        (by omega) (by omega)
      omega
    · rcases List.mem_cons.1 hm with rfl | hm
      · exact ⟨h1, h2⟩
      · exact ih (i + 1) best pos (by omega) m hm

theorem smallest_loop_some : ∀ (cells : List Nat) (i best pos : Nat),
    smallest_loop cells i best pos = pos ∨
      (i ≤ smallest_loop cells i best pos ∧ smallest_loop cells i best pos < i + cells.length ∧
        2 ≤ builtin_popcount (cells.getD (smallest_loop cells i best pos - i) 0)) := by
  intro cells
  induction cells with
  | nil => intro i best pos; exact Or.inl rfl
  | cons c cells ih =>
    intro i best pos
    rw [smallest_loop]
    rw [List.length_cons]
    have hshift : ∀ r, i + 1 ≤ r → (c :: cells).getD (r - i) 0 = cells.getD (r - (i + 1)) 0 := by
      intro r hr
      have : r - i = (r - (i + 1)) + 1 := by omega
      rw [this, List.getD_cons_succ]
    split_ifs with h1 h2
    · right
      refine ⟨Nat.le_refl _, by omega, ?_⟩
      rw [Nat.sub_self, List.getD_cons_zero]
      omega
    · rcases ih (i + 1) (builtin_popcount c) i with h | ⟨ha, hb, hc⟩
      · right
        rw [h]
        refine ⟨Nat.le_refl _, by omega, ?_⟩
        rw [Nat.sub_self, List.getD_cons_zero]
        omega
      · right
        exact ⟨by omega, by omega, by rw [hshift _ ha]; exact hc⟩
    · rcases ih (i + 1) best pos with h | ⟨ha, hb, hc⟩
      · exact Or.inl h
      · right
        exact ⟨by omega, by omega, by rw [hshift _ ha]; exact hc⟩

/-- When `get_smallest_unsolved` returns the sentinel, every cell of a well-formed grid is
solved. -/
theorem all_solved_of_sentinel (B : Nat) (g : List Nat) (hS : c_side_len B < 32)
    (hg : masks_ok B g) (h : ¬ get_smallest_unsolved B g < g.length) :
    ∀ c, c < c_total_cells B → ∃ k, k < c_side_len B ∧ g.getD c 0 = 2 ^ k := by
  intro c hc
  have hcl : c < g.length := by rw [hg.1]; exact hc
  have hm := hg.2 c hc
  have hnone := smallest_loop_none g 0 (c_side_len B + 1) g.length
    (by rw [get_smallest_unsolved] at h; omega) (g.getD c 0)
    (by rw [List.getD_eq_getElem _ _ hcl]; exact List.getElem_mem _)
  have hle := builtin_popcount_le _ _ hm.2
  have h32 : g.getD c 0 < 2 ^ 32 :=
    Nat.lt_of_lt_of_le hm.2 (Nat.pow_le_pow_right (by decide) (by omega))
  obtain ⟨j, _, hj⟩ := builtin_popcount_le_one _ hm.1 h32 (by omega)
  refine ⟨j, ?_, hj⟩
  rw [hj, two_pow_lt_iff] at hm
  exact hm.2

/-- The cell that `get_smallest_unsolved` returns, when it is not the sentinel, is unsolved. -/
theorem unsolved_of_choice (B : Nat) (g : List Nat) (hS : c_side_len B < 32)
    (hg : masks_ok B g) (h : get_smallest_unsolved B g < g.length) :
    ¬ is_solved (g.getD (get_smallest_unsolved B g) 0) = true := by
  intro hs
  have hc : get_smallest_unsolved B g < c_total_cells B := by rw [← hg.1]; exact h
  have hm := hg.2 _ hc
  obtain ⟨k, hk, hk2, _⟩ := mask_solved _ _ hS hm.1 hm.2 hs
  have h1 := builtin_popcount_two_pow k (by omega)
  rw [← hk2] at h1
  rcases smallest_loop_some g 0 (c_side_len B + 1) g.length with h2 | ⟨_, _, h2⟩
  · rw [get_smallest_unsolved] at h; omega
  · rw [Nat.sub_zero] at h2
    rw [get_smallest_unsolved] at h1
    omega

/-! ## The search loop keeps the invariant of the stack -/

/-- The copy of a stack grid with the branching cell set to one of its candidates satisfies the
invariant of `propagate`. -/
theorem branch_copy_inv (B : Nat) (tbl input grid occ : List Nat) (pos v : Nat)
    (hS : c_side_len B < 32) (hg : stack_inv B tbl input grid) (hpos : pos < c_total_cells B)
    (hv : v < c_side_len B) (hbit : (grid.getD pos 0).testBit v = true) :
    propagate_inv B tbl (grid.set pos (bit_mask v))
      { grid := grid.set pos (bit_mask v), occ := occ, queue := [] ++ [⟨pos, v⟩] } := by
  obtain ⟨⟨hlen, hmask⟩, hset, _⟩ := hg
  rw [bit_mask_eq v (by omega)]
  have hposl : pos < grid.length := by rw [hlen]; exact hpos
  refine ⟨⟨by rw [List.length_set]; exact hlen, fun c hc => ?_⟩, ?_, ?_, shrinks_refl _⟩
  · rw [getD_set_eq]
    split_ifs
    · exact ⟨Nat.pow_pos (by decide), (two_pow_lt_iff _ _).2 hv⟩
    · exact hmask c hc
  · intro e he
    rw [List.nil_append, List.mem_singleton] at he
    subst he
    exact ⟨hpos, hv, by dsimp only; rw [getD_set_eq, if_pos ⟨rfl, hposl⟩]⟩
  · intro c b hc hcb
    dsimp only at hcb ⊢
    by_cases hcp : c = pos
    · subst hcp
      rw [getD_set_eq, if_pos ⟨rfl, hposl⟩] at hcb
      left
      rw [two_pow_inj _ _ hcb]
      simp
    · rw [getD_set_eq, if_neg (fun h => hcp h.1.symm)] at hcb
      right
      intro p hp
      left
      rcases hset c b hc hcb with h | h
      · exact absurd h (List.not_mem_nil _)
      · rcases h p hp with h1 | h1
        · rw [getD_set_eq]
          split_ifs with h2
          · rw [Nat.testBit_two_pow]
            by_contra hne
            have hvb : v = b := by simpa using hne
            have h3 := h2.1
            subst h3
            subst hvb
            rw [hbit] at h1
            exact Bool.noConfusion h1
          · exact h1
        · exact absurd h1.2 (List.not_mem_nil _)

theorem branch_loop_sound (B : Nat) (tbl input grid : List Nat) (pos : Nat)
    (hS : c_side_len B < 32) (hg : stack_inv B tbl input grid) (hpos : pos < c_total_cells B)
    (hun : ¬ is_solved (grid.getD pos 0) = true) :
    ∀ (vs : List Nat) (stack : List (List Nat)) (occ : List Nat) (queue : List Solved)
      (stack1 : List (List Nat)) (occ1 : List Nat) (queue1 : List Solved),
      (∀ v ∈ vs, v < c_side_len B ∧ (grid.getD pos 0).testBit v = true) →
      (∀ g ∈ stack, stack_inv B tbl input g) → queue = [] →
      branch_loop B tbl grid pos vs stack occ queue = some (stack1, occ1, queue1) →
      (∀ g ∈ stack1, stack_inv B tbl input g) ∧ queue1 = [] := by
  intro vs
  induction vs with
  | nil =>
    intro stack occ queue stack1 occ1 queue1 _ hst hq h
    rw [branch_loop] at h
    cases h
    exact ⟨hst, hq⟩
  | cons v vs ih =>
    intro stack occ queue stack1 occ1 queue1 hvs hst hq h
    have hv := hvs v (List.mem_cons_self _ _)
    have hvs1 : ∀ w ∈ vs, w < c_side_len B ∧ (grid.getD pos 0).testBit w = true :=
      fun w hw => hvs w (List.mem_cons_of_mem _ hw)
    subst hq
    have hinv := branch_copy_inv B tbl input grid occ pos v hS hg hpos hv.1 hv.2
    rw [branch_loop] at h
    cases hp : propagate B tbl
        { grid := grid.set pos (bit_mask v), occ := occ, queue := [] ++ [⟨pos, v⟩] } with
    | none => rw [hp] at h; exact Option.noConfusion h
    | some r =>
      obtain ⟨ok, st⟩ := r
      rw [hp] at h
      rw [propagate] at hp
      obtain ⟨h1, h2, h3, h4⟩ := propagate_loop_sound B tbl _ hS _ _ _ _ hinv hp
      cases ok with
      | false => exact ih stack st.occ st.queue stack1 occ1 queue1 hvs1 hst h3 h
      | true =>
        refine ih (st.grid :: stack) st.occ st.queue stack1 occ1 queue1 hvs1 ?_ h3 h
        intro g hgm
        rcases List.mem_cons.1 hgm with rfl | hgm
        · refine ⟨h1, h4 rfl, fun i hi h0 => ?_⟩
          have hgi := hg.2.2 i hi h0
          have hip : pos ≠ i := by
            rintro rfl
            rw [hgi] at hun
            have := hg.1.2 pos hpos
            rw [hgi, two_pow_lt_iff] at this
            exact hun (is_solved_two_pow _ (by omega))
          have hci : (grid.set pos (bit_mask v)).getD i 0 = grid.getD i 0 := by
            rw [getD_set_eq, if_neg (fun h => hip h.1)]
          have hsol : is_solved ((grid.set pos (bit_mask v)).getD i 0) = true := by
            rw [hci, hgi]
            have := hg.1.2 i hi
            rw [hgi, two_pow_lt_iff] at this
            exact is_solved_two_pow _ (by omega)
          rw [(h2.2 i).1 hsol, hci, hgi]
        · exact hst g hgm

/-- A grid returned by the search loop is the formatted image of a grid that satisfies the
invariant of the stack and on which `get_smallest_unsolved` returns the sentinel. -/
theorem search_loop_sound (B : Nat) (tbl input : List Nat) (hS : c_side_len B < 32) :
    ∀ (fuel : Nat) (stack : List (List Nat)) (occ : List Nat) (queue : List Solved)
      (r : List Nat), (∀ g ∈ stack, stack_inv B tbl input g) → queue = [] →
      search_loop B tbl fuel stack occ queue = Outcome.solved r →
      ∃ g, stack_inv B tbl input g ∧ ¬ get_smallest_unsolved B g < g.length ∧ r = format g := by
  intro fuel
  induction fuel with
  | zero =>
    intro stack occ queue r _ _ h
    rw [search_loop] at h
    exact Outcome.noConfusion h
  | succ fuel ih =>
    intro stack occ queue r hst hq h
    cases stack with
    | nil => rw [search_loop] at h; exact Outcome.noConfusion h
    | cons grid stack =>
      have hg := hst grid (List.mem_cons_self _ _)
      rw [search_loop] at h
      cases hs : search_step B tbl grid stack occ queue with
      | inl res =>
        rw [hs] at h
        dsimp only at h
        subst h
        rw [search_step] at hs
        dsimp only at hs
        by_cases hpos : get_smallest_unsolved B grid < grid.length
        · rw [if_pos hpos] at hs
          split at hs
          · cases hs
          · exact Sum.noConfusion hs
        · rw [if_neg hpos] at hs
          cases hs
          exact ⟨grid, hg, hpos, rfl⟩
      | inr next =>
        obtain ⟨stack1, occ1, queue1⟩ := next
        rw [hs] at h
        dsimp only at h
        rw [search_step] at hs
        dsimp only at hs
        by_cases hpos : get_smallest_unsolved B grid < grid.length
        · rw [if_pos hpos] at hs
          split at hs
          · exact Sum.noConfusion hs
          · rename_i next hb
            cases hs
            have := branch_loop_sound B tbl input grid _ hS hg (by rw [← hg.1.1]; exact hpos)
              (unsolved_of_choice B grid hS hg.1 hpos) _ stack occ queue stack1 occ1 queue1
              (fun v hv => (mem_get_possible_values B occ _ v hS).1 hv)
              (fun g hgm => hst g (List.mem_cons_of_mem _ hgm)) hq hb
            exact ih stack1 occ1 queue1 r this.1 this.2 h
        · rw [if_neg hpos] at hs
          exact Sum.noConfusion hs

/-- A grid returned by `solve_with` on a well-formed input: see `search_loop_sound`. -/
theorem solve_with_sound (B : Nat) (tbl input r : List Nat) (hB : 2 ≤ B)
    (hS : c_side_len B < 32) (hin : well_formed B input)
    (h : solve_with B tbl input = Outcome.solved r) :
    ∃ g, stack_inv B tbl input g ∧ ¬ get_smallest_unsolved B g < g.length ∧ r = format g := by
  obtain ⟨st0, e1, e2, e3, _⟩ := initial_state_spec B tbl input hB hS hin
  rw [solve_with, if_neg (by simp [hin.1]), e1] at h
  dsimp only at h
  cases hp : propagate B tbl st0 with
  | none => rw [hp] at h; exact Outcome.noConfusion h
  | some res =>
    obtain ⟨ok, st⟩ := res
    rw [hp] at h
    rw [propagate] at hp
    obtain ⟨h1, h2, h3, h4⟩ := propagate_loop_sound B tbl _ hS _ _ _ _ e2 hp
    cases ok with
    | false => exact Outcome.noConfusion h
    | true =>
      dsimp only at h
      refine search_loop_sound B tbl input hS _ _ _ _ r ?_ h3 h
      intro g hg
      rw [List.mem_singleton] at hg
      subst hg
      refine ⟨h1, h4 rfl, fun i hi h0 => ?_⟩
      have hgi := e3 i hi h0
      have : is_solved (st0.grid.getD i 0) = true := by
        rw [hgi]
        have := e2.1.2 i hi
        rw [hgi, two_pow_lt_iff] at this
        exact is_solved_two_pow _ (by omega)
      rw [(h2.2 i).1 this, hgi]

/-! ## Rows, columns and blocks -/

/-- What the proofs need of a unit: `side_len` distinct cells that are peers of each other. -/
theorem units_spec (B : Nat) (hB : 0 < B) (u : List Nat) (hu : u ∈ units B) :
    u.Nodup ∧ u.length = c_side_len B ∧ (∀ c ∈ u, c < c_total_cells B) ∧
      ∀ c1 ∈ u, ∀ c2 ∈ u, same_unit B c1 c2 := by
  have hS : 0 < c_side_len B := Nat.mul_pos hB hB
  rw [units, List.mem_append, List.mem_append] at hu
  rcases hu with (hu | hu) | hu
  · -- a row
    rw [List.mem_map] at hu
    obtain ⟨r, hr, rfl⟩ := hu
    rw [List.mem_range] at hr
    rw [row_cells]
    refine ⟨List.Nodup.map (fun a b h => by omega) (List.nodup_range _), by simp, ?_, ?_⟩
    · intro c hc
      rw [List.mem_map] at hc
      obtain ⟨x, hx, rfl⟩ := hc
      rw [List.mem_range] at hx
      rw [Nat.add_comm, c_total_cells]
      exact cell_lt _ _ _ hx hr
    · intro c1 h1 c2 h2
      rw [List.mem_map] at h1 h2
      obtain ⟨x1, hx1, rfl⟩ := h1
      obtain ⟨x2, hx2, rfl⟩ := h2
      rw [List.mem_range] at hx1 hx2
      left
      rw [Nat.add_comm, cell_div _ _ _ hx1, Nat.add_comm, cell_div _ _ _ hx2]
  · -- a column
    rw [List.mem_map] at hu
    obtain ⟨c, hc, rfl⟩ := hu
    rw [List.mem_range] at hc
    rw [col_cells]
    refine ⟨List.Nodup.map (fun a b h => Nat.eq_of_mul_eq_mul_right hS (by omega))
      (List.nodup_range _), by simp, ?_, ?_⟩
    · intro x hx
      rw [List.mem_map] at hx
      obtain ⟨r, hr, rfl⟩ := hx
      rw [List.mem_range] at hr
      rw [Nat.add_comm, c_total_cells]
      exact cell_lt _ _ _ hc hr
    · intro c1 h1 c2 h2
      rw [List.mem_map] at h1 h2
      obtain ⟨r1, _, rfl⟩ := h1
      obtain ⟨r2, _, rfl⟩ := h2
      right; left
      rw [Nat.add_comm, cell_mod _ _ _ hc, Nat.add_comm, cell_mod _ _ _ hc]
  · -- a block
    rw [List.mem_flatMap] at hu
    obtain ⟨br, hbr, hu⟩ := hu
    rw [List.mem_map] at hu
    obtain ⟨bc, hbc, rfl⟩ := hu
    rw [List.mem_range] at hbr hbc
    have hcol : ∀ x, x < B → bc * B + x < c_side_len B := by
      intro x hx
      have := Nat.mul_le_mul_right B (Nat.succ_le_of_lt hbc)
      rw [Nat.succ_mul] at this
      rw [c_side_len]; omega
    have hrow : ∀ y, y < B → br * B + y < c_side_len B := by
      intro y hy
      have := Nat.mul_le_mul_right B (Nat.succ_le_of_lt hbr)
      rw [Nat.succ_mul] at this
      rw [c_side_len]; omega
    have hmem : ∀ c, c ∈ block_cells B br bc → ∃ y, y < B ∧ ∃ x, x < B ∧
        c / c_side_len B = br * B + y ∧ c % c_side_len B = bc * B + x ∧
        c < c_total_cells B := by
      intro c hc
      rw [block_cells, List.mem_flatMap] at hc
      obtain ⟨y, hy, hc⟩ := hc
      rw [List.mem_map] at hc
      obtain ⟨x, hx, rfl⟩ := hc
      rw [List.mem_range] at hx hy
      refine ⟨y, hy, x, hx, ?_, ?_, ?_⟩
      · rw [Nat.add_comm, cell_div _ _ _ (hcol x hx)]
      · rw [Nat.add_comm, cell_mod _ _ _ (hcol x hx)]
      · rw [Nat.add_comm, c_total_cells]
        exact cell_lt _ _ _ (hcol x hx) (hrow y hy)
    refine ⟨?_, ?_, fun c hc => ?_, ?_⟩
    · rw [block_cells, List.nodup_flatMap]
      constructor
      · intro y _
        exact List.Nodup.map (fun a b h => by omega) (List.nodup_range _)
      · apply List.Nodup.pairwise_of_forall_ne (List.nodup_range B)
        intro y1 hy1 y2 hy2 hne c h1 h2
        rw [List.mem_range] at hy1 hy2
        rw [List.mem_map] at h1 h2
        obtain ⟨x1, hx1, e1⟩ := h1
        obtain ⟨x2, hx2, e2⟩ := h2
        rw [List.mem_range] at hx1 hx2
        have d1 := cell_div _ _ (br * B + y1) (hcol x1 hx1)
        have d2 := cell_div _ _ (br * B + y2) (hcol x2 hx2)
        rw [Nat.add_comm, e1] at d1
        rw [Nat.add_comm, e2] at d2
        omega
    · rw [block_cells, List.length_flatMap]
      have e : (List.length ∘ fun y => List.map
          (fun x => (br * B + y) * c_side_len B + (bc * B + x)) (List.range B)) = fun _ => B := by
        funext y
        simp
      rw [e, List.map_const', List.sum_replicate, List.length_range, smul_eq_mul, c_side_len]
    · obtain ⟨_, _, _, _, _, _, h⟩ := hmem c hc
      exact h
    · intro c1 h1 c2 h2
      obtain ⟨y1, hy1, x1, hx1, r1, k1, _⟩ := hmem c1 h1
      obtain ⟨y2, hy2, x2, hx2, r2, k2, _⟩ := hmem c2 h2
      right; right
      rw [r1, r2, k1, k2]
      have a1 : (br * B + y1) / B = br := by
        rw [Nat.mul_comm, Nat.mul_add_div hB, Nat.div_eq_of_lt hy1, Nat.add_zero]
      have a2 : (br * B + y2) / B = br := by
        rw [Nat.mul_comm, Nat.mul_add_div hB, Nat.div_eq_of_lt hy2, Nat.add_zero]
      have a3 : (bc * B + x1) / B = bc := by
        rw [Nat.mul_comm, Nat.mul_add_div hB, Nat.div_eq_of_lt hx1, Nat.add_zero]
      have a4 : (bc * B + x2) / B = bc := by
        rw [Nat.mul_comm, Nat.mul_add_div hB, Nat.div_eq_of_lt hx2, Nat.add_zero]
      rw [a1, a2, a3, a4]
      exact ⟨rfl, rfl⟩

/-- A list of `n` distinct values of `1..n` holds each of them exactly once. -/
theorem count_of_nodup_range (l : List Nat) (n : Nat) (hl : l.Nodup) (hlen : l.length = n)
    (hr : ∀ x ∈ l, 1 ≤ x ∧ x ≤ n) (v : Nat) (hv : v < n) : l.count (v + 1) = 1 := by
  apply List.count_eq_one_of_mem hl
  have hsub : l.toFinset ⊆ Finset.Icc 1 n := by
    intro x hx
    rw [List.mem_toFinset] at hx
    rw [Finset.mem_Icc]
    exact hr x hx
  have hcard : (Finset.Icc 1 n).card ≤ l.toFinset.card := by
    rw [List.toFinset_card_of_nodup hl, Nat.card_Icc, hlen]
    omega
  have := Finset.eq_of_subset_of_card_le hsub hcard
  rw [← List.mem_toFinset, this, Finset.mem_Icc]
  omega

/-! ## Validity of a returned grid -/

theorem format_getD (g : List Nat) (c k : Nat) (hc : c < g.length) (hk : k < 63)
    (h : g.getD c 0 = 2 ^ k) : (format g).getD c 0 = k + 1 := by
  rw [format, List.getD_eq_getElem _ _ (by rw [List.length_map]; exact hc), List.getElem_map,
    ← List.getD_eq_getElem _ 0 hc, h, if_pos (is_solved_two_pow k (by omega)),
    highest_bit_two_pow k (by omega), myuint_succ_small k]
  exact Nat.lt_of_lt_of_le (by omega : k < 63) (Nat.le_of_lt (Nat.lt_pow_self (by decide) 63))

/-- A grid of the stack on which every cell is solved formats to a valid grid that keeps the
givens. -/
theorem format_valid (B : Nat) (input g : List Nat) (hB : 2 ≤ B) (hS : c_side_len B < 32)
    (hg : stack_inv B (compute_peers B) input g)
    (hall : ∀ c, c < c_total_cells B → ∃ k, k < c_side_len B ∧ g.getD c 0 = 2 ^ k) :
    valid_grid B (format g) ∧ (∀ x ∈ format g, 1 ≤ x ∧ x ≤ c_side_len B) ∧
      ∀ i, i < c_total_cells B → input.getD i 0 ≠ 0 → (format g).getD i 0 = input.getD i 0 := by
  obtain ⟨⟨hlen, hmask⟩, hset, hgiv⟩ := hg
  have hB0 : 0 < B := by omega
  have hflen : (format g).length = c_total_cells B := by rw [format, List.length_map, hlen]
  have hval : ∀ c, c < c_total_cells B → ∀ k, g.getD c 0 = 2 ^ k →
      k < c_side_len B ∧ (format g).getD c 0 = k + 1 := by
    intro c hc k hk
    have := (hmask c hc).2
    rw [hk, two_pow_lt_iff] at this
    exact ⟨this, format_getD g c k (by omega) (by omega) hk⟩
  have hrange : ∀ c, c < c_total_cells B →
      1 ≤ (format g).getD c 0 ∧ (format g).getD c 0 ≤ c_side_len B := by
    intro c hc
    obtain ⟨k, _, hk⟩ := hall c hc
    have := hval c hc k hk
    omega
  have hdiff : ∀ c1 c2, c1 < c_total_cells B → c2 < c_total_cells B → c1 ≠ c2 →
      same_unit B c1 c2 → (format g).getD c1 0 ≠ (format g).getD c2 0 := by
    intro c1 c2 h1 h2 hne hsu heq
    obtain ⟨k1, _, hk1⟩ := hall c1 h1
    obtain ⟨k2, _, hk2⟩ := hall c2 h2
    rw [(hval c1 h1 k1 hk1).2, (hval c2 h2 k2 hk2).2] at heq
    have hk : k1 = k2 := by omega
    rcases hset c1 k1 h1 hk1 with h | h
    · exact absurd h (List.not_mem_nil _)
    · have hp : c2 ∈ peer_slots B (compute_peers B) c1 := by
        rw [peer_slots_compute_peers B c1 hB0 h1, mem_peers_of B c1 c2 hB0 h1]
        exact ⟨h2, fun e => hne e.symm, hsu⟩
      rcases h c2 hp with h3 | h3
      · rw [hk2, ← hk, Nat.testBit_two_pow_self] at h3
        exact Bool.noConfusion h3
      · exact absurd h3.2 (List.not_mem_nil _)
  refine ⟨⟨hflen, ?_⟩, ?_, ?_⟩
  · intro u hu v hv
    rw [List.mem_range] at hv
    obtain ⟨u1, u2, u3, u4⟩ := units_spec B hB0 u hu
    apply count_of_nodup_range _ (c_side_len B) _ _ _ v hv
    · rw [values_at]
      apply List.Nodup.map_on _ u1
      intro x hx y hy hxy
      by_contra hne
      exact hdiff x y (u3 x hx) (u3 y hy) hne (u4 x hx y hy) hxy
    · rw [values_at, List.length_map, u2]
    · intro x hx
      rw [values_at, List.mem_map] at hx
      obtain ⟨c, hc, rfl⟩ := hx
      exact hrange c (u3 c hc)
  · intro x hx
    obtain ⟨c, hc, rfl⟩ := List.mem_iff_getElem.1 hx
    rw [← List.getD_eq_getElem _ 0 hc]
    exact hrange c (by rw [← hflen]; exact hc)
  · intro i hi h0
    have h1 := hgiv i hi h0
    rw [(hval i hi _ h1).2]
    omega

/-- Soundness of `solve`: a returned grid is valid and keeps the givens. -/
theorem solve_sound (B : Nat) (input r : List Nat) (hB : 2 ≤ B) (hS : c_side_len B < 32)
    (hin : well_formed B input) (h : solve B input = Outcome.solved r) :
    valid_grid B r ∧ (∀ x ∈ r, 1 ≤ x ∧ x ≤ c_side_len B) ∧
      ∀ i, i < c_total_cells B → input.getD i 0 ≠ 0 → r.getD i 0 = input.getD i 0 := by
  obtain ⟨g, h1, h2, rfl⟩ := solve_with_sound B _ input r hB hS hin h
  exact format_valid B input g hB hS h1 (all_solved_of_sentinel B g hS h1.1 h2)

/-! ## Termination of `propagate` -/

theorem unsolved_count_set (g : List Nat) (p m : Nat) (hp : p < g.length)
    (hs : ¬ is_solved (g.getD p 0) = true) :
    unsolved_count (g.set p m) + (if is_solved m = true then 1 else 0) = unsolved_count g := by
  have h1 := List.countP_set (fun cell => !is_solved cell) g p m hp
  have h2 := List.boole_getElem_le_countP (fun cell => !is_solved cell) g p hp
  rw [List.getD_eq_getElem _ _ hp] at hs
  rw [unsolved_count, unsolved_count, h1]
  have h3 : (!is_solved g[p]) = true := by simpa using hs
  rw [h3] at h2 ⊢
  rw [if_pos rfl] at h2 ⊢
  by_cases hm : is_solved m = true
  · rw [if_pos hm, hm]
    rw [if_neg (by decide)]
    omega
  · have hm' : is_solved m = false := by simpa using hm
    rw [if_neg hm, hm']
    rw [if_pos (by decide)]
    omega

/-- A visit does not increase the number of queue entries plus unsolved cells. -/
theorem peer_visit_measure (src : Solved) (p : Nat) (st st1 : State)
    (hv : peer_visit src p st = some st1) :
    st1.queue.length + unsolved_count st1.grid ≤ st.queue.length + unsolved_count st.grid := by
  unfold peer_visit at hv
  dsimp only at hv
  by_cases hps : is_solved (st.grid.getD p 0) = true
  · rw [if_pos hps] at hv
    split_ifs at hv
    cases hv
    exact Nat.le_refl _
  · rw [if_neg hps] at hv
    have hp : p < st.grid.length := by
      by_contra h
      rw [getD_of_ge _ _ (by omega)] at hps
      exact hps is_solved_zero
    have hc := unsolved_count_set st.grid p (lower_bit (st.grid.getD p 0) src.bit) hp hps
    by_cases hps1 : is_solved (lower_bit (st.grid.getD p 0) src.bit) = true
    · rw [if_pos hps1] at hv hc
      cases hv
      simp only [List.length_append, List.length_singleton]
      omega
    · rw [if_neg hps1] at hv hc
      cases hv
      dsimp only
      omega

theorem peer_loop_measure (B : Nat) (tbl : List Nat) (src : Solved) (is : List Nat)
    (st : State) (h : (peer_loop B tbl src is st).1 = true) :
    (peer_loop B tbl src is st).2.queue.length + unsolved_count (peer_loop B tbl src is st).2.grid
      ≤ st.queue.length + unsolved_count st.grid :=
  peer_loop_true B tbl src
    (fun _ s => s.queue.length + unsolved_count s.grid ≤ st.queue.length + unsolved_count st.grid)
    (fun p _ s s1 hs hv => Nat.le_trans (peer_visit_measure src p s s1 hv) hs)
    is st (Nat.le_refl _) h

/-- The loop of `propagate` returns when it may run more iterations than there are queue
entries and unsolved cells. -/
theorem propagate_loop_terminates (B : Nat) (tbl : List Nat) : ∀ (fuel : Nat) (st : State),
    st.queue.length + unsolved_count st.grid < fuel →
    ∃ r, propagate_loop B tbl fuel st = some r := by
  intro fuel
  induction fuel with
  | zero => intro st h; omega
  | succ fuel ih =>
    intro st h
    cases hq : st.queue with
    | nil => exact ⟨_, propagate_loop_nil B tbl fuel st hq⟩
    | cons src rest =>
      rw [propagate_loop_cons B tbl fuel st src rest hq]
      cases hp : peer_loop B tbl src (List.range (c_peer_count B)) { st with queue := rest } with
      | mk b st1 =>
        cases b with
        | false => exact ⟨_, rfl⟩
        | true =>
          have := peer_loop_measure B tbl src (List.range (c_peer_count B))
            { st with queue := rest } (by rw [hp])
          rw [hp] at this
          dsimp only at this
          rw [hq, List.length_cons] at h
          exact ih st1 (by omega)

theorem propagate_terminates (B : Nat) (tbl : List Nat) (st : State) :
    ∃ r, propagate B tbl st = some r :=
  propagate_loop_terminates B tbl _ st (Nat.lt_succ_self _)

/-! ## Propagation keeps every consistent assignment -/

/-- A visit from a source whose cell the assignment `s` fits meets no conflict and removes no
value that `s` picks. -/
theorem visit_fits (B : Nat) (tbl : List Nat) (src : Solved) (s : Nat → Nat)
    (hS : c_side_len B < 32) (hpos : src.position < c_total_cells B)
    (hs : proper B tbl s) (p : Nat) (todo : List Nat) (st : State)
    (hinv : visit_inv B tbl src (p :: todo) st) (hfit : fits B s st.grid)
    (hp : p ∈ peer_slots B tbl src.position) :
    ∃ st1, peer_visit src p st = some st1 ∧ fits B s st1.grid := by
  obtain ⟨⟨hlen, hmask⟩, _, hsrc, _⟩ := hinv
  have hsb : s src.position = src.bit := by
    have := hfit src.position hpos
    rw [hsrc, Nat.testBit_two_pow] at this
    exact (of_decide_eq_true this).symm
  have hbit : src.bit < c_side_len B := by rw [← hsb]; exact hs.1 _ hpos
  unfold peer_visit
  dsimp only
  by_cases hps : is_solved (st.grid.getD p 0) = true
  · rw [if_pos hps]
    have hne : src.bit ≠ highest_bit (st.grid.getD p 0) := by
      have hpN : p < c_total_cells B := (hs.2 src.position hpos p hp).1
      obtain ⟨k, _, hk, hhb⟩ := mask_solved _ _ hS (hmask p hpN).1 (hmask p hpN).2 hps
      rw [hhb]
      have h1 := hfit p hpN
      rw [hk, Nat.testBit_two_pow] at h1
      have h2 : k = s p := of_decide_eq_true h1
      have h3 := (hs.2 src.position hpos p hp).2
      rw [hsb] at h3
      omega
    rw [if_neg hne]
    exact ⟨st, rfl, hfit⟩
  · rw [if_neg hps]
    have hpN : p < c_total_cells B := by
      by_contra h
      rw [getD_of_ge _ _ (by omega)] at hps
      exact hps is_solved_zero
    obtain ⟨_, _, htb⟩ := mask_lowered _ _ src.bit hS (hmask p hpN).2 hps hbit
    have hfit1 : fits B s (st.grid.set p (lower_bit (st.grid.getD p 0) src.bit)) := by
      intro c hc
      rw [getD_set_eq]
      split_ifs with h
      · have h4 := h.1
        subst h4
        have h3 := (hs.2 src.position hpos p hp).2
        rw [hsb] at h3
        rw [htb, hfit p hc]
        simp [h3]
      · exact hfit c hc
    split_ifs
    · exact ⟨_, rfl, hfit1⟩
    · exact ⟨_, rfl, hfit1⟩

/-- A call of `propagate` on a state that a consistent assignment fits returns `true`, and the
assignment still fits the resulting grid. -/
theorem propagate_loop_fits (B : Nat) (tbl g0 : List Nat) (s : Nat → Nat)
    (hS : c_side_len B < 32) (hs : proper B tbl s) (fuel : Nat) (st r : State) (ok : Bool)
    (hJ : propagate_inv B tbl g0 st) (hfit : fits B s st.grid)
    (h : propagate_loop B tbl fuel st = some (ok, r)) : ok = true ∧ fits B s r.grid := by
  have hstep : ∀ (src : Solved) (rest : List Solved) (a : State),
      (propagate_inv B tbl g0 a ∧ fits B s a.grid) → a.queue = src :: rest →
      ∀ b a1, peer_loop B tbl src (List.range (c_peer_count B)) { a with queue := rest } = (b, a1) →
      b = true ∧ fits B s a1.grid := by
    intro src rest a ha hq b a1 hp
    obtain ⟨⟨hm, hqo, hset, hsh⟩, hf⟩ := ha
    have hsrc := hqo src (by rw [hq]; exact List.mem_cons_self _ _)
    let I : List Nat → State → Prop := fun todo x =>
      visit_inv B tbl src todo x ∧ fits B s x.grid ∧ ∀ p ∈ todo, p ∈ peer_slots B tbl src.position
    have hI : ∀ p todo x x1, I (p :: todo) x → peer_visit src p x = some x1 → I todo x1 := by
      intro p todo x x1 hx hv
      obtain ⟨x2, e1, e2⟩ := visit_fits B tbl src s hS hsrc.1 hs p todo x hx.1 hx.2.1
        (hx.2.2 p (List.mem_cons_self _ _))
      rw [hv] at e1
      cases e1
      exact ⟨(visit_inv_step B tbl src hS hsrc.2.1 p todo x x1 hx.1 hv).1, e2,
        fun q hq => hx.2.2 q (List.mem_cons_of_mem _ hq)⟩
    have hI0 : I ((List.range (c_peer_count B)).map (slot B tbl src.position))
        { a with queue := rest } := by
      refine ⟨⟨hm, ?_, hsrc.2.2, ?_⟩, hf, fun p hp => hp⟩
      · intro e he
        exact hqo e (by rw [hq]; exact List.mem_cons_of_mem _ he)
      · intro c b hc hcb
        rcases hset c b hc hcb with h | h
        · rw [hq] at h
          rcases List.mem_cons.1 h with h1 | h1
          · right
            intro p hp1
            right
            subst h1
            exact ⟨rfl, hp1⟩
          · exact Or.inl h1
        · right
          intro p hp1
          rcases h p hp1 with h2 | h2
          · exact Or.inl h2
          · exact absurd h2.2 (List.not_mem_nil _)
    cases b with
    | true =>
      have := peer_loop_true B tbl src I hI _ _ hI0 (by rw [hp])
      rw [hp] at this
      exact ⟨rfl, this.2.1⟩
    | false =>
      obtain ⟨p, todo, x, hx, hnone, _⟩ := peer_loop_false B tbl src I hI _ _ hI0 (by rw [hp])
      obtain ⟨x2, e1, _⟩ := visit_fits B tbl src s hS hsrc.1 hs p todo x hx.1 hx.2.1
        (hx.2.2 p (List.mem_cons_self _ _))
      rw [hnone] at e1
      exact Option.noConfusion e1
  obtain ⟨_, h2, h3⟩ := propagate_loop_inv B tbl
    (fun a => propagate_inv B tbl g0 a ∧ fits B s a.grid)
    (fun src rest a a1 ha hq hp =>
      ⟨(propagate_inv_step B tbl g0 hS src rest a a1 true ha.1 hq hp).2.2 rfl,
        (hstep src rest a ha hq true a1 hp).2⟩)
    fuel st ok r ⟨hJ, hfit⟩ h
  cases ok with
  | true => exact ⟨rfl, (h2 rfl).2⟩
  | false =>
    obtain ⟨a, src, rest, ha, hq, hp⟩ := h3 rfl
    exact absurd (hstep src rest a ha hq false r hp).1 (by decide)

/-! ## Number of candidates -/

theorem popcount_bits_mono : ∀ (k a b : Nat),
    (∀ j, a.testBit j = true → b.testBit j = true) → popcount_bits k a ≤ popcount_bits k b := by
  intro k
  induction k with
  | zero => intro a b _; exact Nat.le_refl _
  | succ k ih =>
    intro a b h
    rw [popcount_bits, popcount_bits]
    have h0 := h 0
    rw [Nat.testBit_zero, Nat.testBit_zero, decide_eq_true_eq, decide_eq_true_eq] at h0
    have h1 := ih (a / 2) (b / 2) (fun j hj => by
      rw [Nat.testBit_div_two] at hj ⊢
      exact h _ hj)
    omega

theorem subset_zero (a : Nat) (h : ∀ j, a.testBit j = true → (0 : Nat).testBit j = true) :
    a = 0 := by
  apply Nat.eq_of_testBit_eq
  intro j
  rw [Nat.zero_testBit]
  by_contra hne
  have := h j (by simpa using hne)
  rw [Nat.zero_testBit] at this
  exact Bool.noConfusion this

theorem popcount_bits_strict : ∀ (k a b : Nat), b < 2 ^ k →
    (∀ j, a.testBit j = true → b.testBit j = true) → a ≠ b →
    popcount_bits k a < popcount_bits k b := by
  intro k
  induction k with
  | zero =>
    intro a b hb h hne
    have hb0 : b = 0 := by simpa using hb
    subst hb0
    exact absurd (subset_zero a h) hne
  | succ k ih =>
    intro a b hb h hne
    rw [popcount_bits, popcount_bits]
    have h0 := h 0
    rw [Nat.testBit_zero, Nat.testBit_zero, decide_eq_true_eq, decide_eq_true_eq] at h0
    have hsub : ∀ j, (a / 2).testBit j = true → (b / 2).testBit j = true := fun j hj => by
      rw [Nat.testBit_div_two] at hj ⊢
      exact h _ hj
    have hb2 : b / 2 < 2 ^ k := by
      rw [Nat.pow_succ] at hb
      omega
    by_cases he : a / 2 = b / 2
    · rw [he]
      omega
    · have := ih (a / 2) (b / 2) hb2 hsub he
      omega

theorem candidate_count_cons (m : Nat) (g : List Nat) :
    candidate_count (m :: g) = popcount_bits 64 m + candidate_count g := by
  simp [candidate_count]

theorem candidate_count_set : ∀ (g : List Nat) (p m : Nat), p < g.length →
    candidate_count (g.set p m) + popcount_bits 64 (g.getD p 0)
      = candidate_count g + popcount_bits 64 m := by
  intro g
  induction g with
  | nil => intro p m h; exact absurd h (Nat.not_lt_zero _)
  | cons x g ih =>
    intro p m h
    cases p with
    | zero =>
      rw [List.set_cons_zero, List.getD_cons_zero, candidate_count_cons, candidate_count_cons]
      omega
    | succ p =>
      rw [List.set_cons_succ, List.getD_cons_succ, candidate_count_cons, candidate_count_cons]
      have := ih p m (by simpa using h)
      omega

theorem candidate_count_mono : ∀ (g1 g2 : List Nat), g2.length = g1.length →
    (∀ c, popcount_bits 64 (g2.getD c 0) ≤ popcount_bits 64 (g1.getD c 0)) →
    candidate_count g2 ≤ candidate_count g1 := by
  intro g1
  induction g1 with
  | nil =>
    intro g2 hl _
    have : g2 = [] := List.eq_nil_of_length_eq_zero hl
    rw [this]
  | cons x g1 ih =>
    intro g2 hl h
    cases g2 with
    | nil => exact absurd hl (by simp)
    | cons y g2 =>
      rw [candidate_count_cons, candidate_count_cons]
      have h0 := h 0
      rw [List.getD_cons_zero, List.getD_cons_zero] at h0
      have := ih g2 (by simpa using hl) (fun c => by
        have := h (c + 1)
        rw [List.getD_cons_succ, List.getD_cons_succ] at this
        exact this)
      omega

theorem candidate_count_shrinks (g1 g2 : List Nat) (h : shrinks g1 g2) :
    candidate_count g2 ≤ candidate_count g1 :=
  candidate_count_mono g1 g2 h.1 (fun c => popcount_bits_mono 64 _ _ (h.2 c).2)

/-! ## One branch of the search -/

/-- What the loop of `solve` does with one candidate `v` of the branching cell: the call of
`propagate` returns with an empty queue; a grid it accepts satisfies the invariant of the stack
and has fewer candidates than the popped grid; and if a consistent assignment fits the popped
grid and picks `v`, the call succeeds and the assignment fits the new grid. -/
theorem branch_try (B : Nat) (tbl input grid occ : List Nat) (pos v : Nat)
    (hS : c_side_len B < 32) (hg : stack_inv B tbl input grid) (hpos : pos < c_total_cells B)
    (hun : ¬ is_solved (grid.getD pos 0) = true) (hv : v < c_side_len B)
    (hbit : (grid.getD pos 0).testBit v = true) :
    ∃ ok st, propagate B tbl
        { grid := grid.set pos (bit_mask v), occ := occ, queue := [] ++ [⟨pos, v⟩] } = some (ok, st) ∧
      st.queue = [] ∧
      (ok = true → stack_inv B tbl input st.grid ∧ candidate_count st.grid < candidate_count grid) ∧
      (∀ s, proper B tbl s → fits B s grid → s pos = v → ok = true ∧ fits B s st.grid) := by
  have hinv := branch_copy_inv B tbl input grid occ pos v hS hg hpos hv hbit
  obtain ⟨⟨ok, st⟩, hp⟩ := propagate_terminates B tbl
    { grid := grid.set pos (bit_mask v), occ := occ, queue := [] ++ [⟨pos, v⟩] }
  refine ⟨ok, st, hp, ?_⟩
  rw [propagate] at hp
  obtain ⟨h1, h2, h3, h4⟩ := propagate_loop_sound B tbl _ hS _ _ _ _ hinv hp
  have hposl : pos < grid.length := by rw [hg.1.1]; exact hpos
  have hm := hg.1.2 pos hpos
  have h64 : grid.getD pos 0 < 2 ^ 64 :=
    Nat.lt_of_lt_of_le hm.2 (Nat.pow_le_pow_right (by decide) (by omega))
  refine ⟨h3, fun hok => ⟨⟨h1, h4 hok, fun i hi h0 => ?_⟩, ?_⟩, ?_⟩
  · have hgi := hg.2.2 i hi h0
    have hip : pos ≠ i := by
      rintro rfl
      rw [hgi] at hun
      have := hg.1.2 pos hpos
      rw [hgi, two_pow_lt_iff] at this
      exact hun (is_solved_two_pow _ (by omega))
    have hci : (grid.set pos (bit_mask v)).getD i 0 = grid.getD i 0 := by
      rw [getD_set_eq, if_neg (fun h => hip h.1)]
    have hsol : is_solved ((grid.set pos (bit_mask v)).getD i 0) = true := by
      rw [hci, hgi]
      have := hg.1.2 i hi
      rw [hgi, two_pow_lt_iff] at this
      exact is_solved_two_pow _ (by omega)
    rw [(h2.2 i).1 hsol, hci, hgi]
  · have hc1 := candidate_count_shrinks _ _ h2
    have hc2 := candidate_count_set grid pos (bit_mask v) hposl
    have hc3 : popcount_bits 64 (bit_mask v) < popcount_bits 64 (grid.getD pos 0) := by
      rw [bit_mask_eq v (by omega)]
      apply popcount_bits_strict 64 _ _ h64
      · intro j hj
        rw [Nat.testBit_two_pow] at hj
        rw [← of_decide_eq_true hj]
        exact hbit
      · intro he
        rw [← he] at hun
        exact hun (is_solved_two_pow v (by omega))
    omega
  · intro s hs hfit hsv
    have hfit1 : fits B s (grid.set pos (bit_mask v)) := by
      intro c hc
      rw [getD_set_eq]
      split_ifs with h
      · rw [bit_mask_eq v (by omega), ← h.1, hsv]
        exact Nat.testBit_two_pow_self
      · exact hfit c hc
    exact propagate_loop_fits B tbl _ s hS hs _ _ _ _ hinv hfit1 hp

/-- The loop over the candidate values pushes at most one grid per value on top of the stack;
every pushed grid satisfies the invariant of the stack and has fewer candidates than the popped
grid; a consistent assignment that fits the popped grid fits one of the pushed grids. -/
theorem branch_loop_complete (B : Nat) (tbl input grid : List Nat) (pos : Nat)
    (hS : c_side_len B < 32) (hg : stack_inv B tbl input grid) (hpos : pos < c_total_cells B)
    (hun : ¬ is_solved (grid.getD pos 0) = true) :
    ∀ (vs : List Nat) (stack : List (List Nat)) (occ : List Nat),
      (∀ v ∈ vs, v < c_side_len B ∧ (grid.getD pos 0).testBit v = true) →
      ∃ pushed occ1, branch_loop B tbl grid pos vs stack occ [] = some (pushed ++ stack, occ1, []) ∧
        pushed.length ≤ vs.length ∧
        (∀ g ∈ pushed, stack_inv B tbl input g ∧ candidate_count g < candidate_count grid) ∧
        (∀ s, proper B tbl s → fits B s grid → s pos ∈ vs → ∃ g ∈ pushed, fits B s g) := by
  intro vs
  induction vs with
  | nil =>
    intro stack occ _
    refine ⟨[], occ, rfl, Nat.le_refl _, fun g hg => absurd hg (List.not_mem_nil _), ?_⟩
    intro s _ _ h
    exact absurd h (List.not_mem_nil _)
  | cons v vs ih =>
    intro stack occ hvs
    have hv := hvs v (List.mem_cons_self _ _)
    have hvs1 : ∀ w ∈ vs, w < c_side_len B ∧ (grid.getD pos 0).testBit w = true :=
      fun w hw => hvs w (List.mem_cons_of_mem _ hw)
    obtain ⟨ok, st, hp, hq, hok, hfit⟩ :=
      branch_try B tbl input grid occ pos v hS hg hpos hun hv.1 hv.2
    rw [branch_loop, hp]
    cases ok with
    | true =>
      dsimp only
      rw [hq]
      obtain ⟨pushed, occ1, e1, e2, e3, e4⟩ := ih (st.grid :: stack) st.occ hvs1
      refine ⟨pushed ++ [st.grid], occ1, ?_, ?_, ?_, ?_⟩
      · rw [e1, List.append_assoc, List.singleton_append]
      · rw [List.length_append, List.length_singleton, List.length_cons]
        omega
      · intro g hgm
        rcases List.mem_append.1 hgm with h | h
        · exact e3 g h
        · rw [List.mem_singleton] at h
          rw [h]
          exact hok rfl
      · intro s hs hf hsv
        rcases List.mem_cons.1 hsv with h | h
        · exact ⟨st.grid, List.mem_append.2 (Or.inr (List.mem_singleton.2 rfl)),
            (hfit s hs hf h).2⟩
        · obtain ⟨g, hg1, hg2⟩ := e4 s hs hf h
          exact ⟨g, List.mem_append.2 (Or.inl hg1), hg2⟩
    | false =>
      dsimp only
      rw [hq]
      obtain ⟨pushed, occ1, e1, e2, e3, e4⟩ := ih stack st.occ hvs1
      refine ⟨pushed, occ1, e1, ?_, e3, ?_⟩
      · rw [List.length_cons]; omega
      · intro s hs hf hsv
        rcases List.mem_cons.1 hsv with h | h
        · exact absurd (hfit s hs hf h).1 (by decide)
        · exact e4 s hs hf h

/-! ## Termination and completeness of the search loop -/

theorem search_need_append (B : Nat) (a b : List (List Nat)) :
    search_need B (a ++ b) = search_need B a + search_need B b := by
  simp [search_need]

theorem search_need_cons (B : Nat) (g : List Nat) (stack : List (List Nat)) :
    search_need B (g :: stack)
      = (c_side_len B + 1) ^ (candidate_count g + 1) + search_need B stack := by
  simp [search_need]

theorem search_need_le (B : Nat) (M : Nat) : ∀ (l : List (List Nat)),
    (∀ g ∈ l, candidate_count g + 1 ≤ M) →
    search_need B l ≤ l.length * (c_side_len B + 1) ^ M := by
  intro l
  induction l with
  | nil => intro _; simp [search_need]
  | cons g l ih =>
    intro h
    rw [search_need_cons, List.length_cons, Nat.succ_mul]
    have h1 := ih (fun x hx => h x (List.mem_cons_of_mem _ hx))
    have h2 : (c_side_len B + 1) ^ (candidate_count g + 1) ≤ (c_side_len B + 1) ^ M :=
      Nat.pow_le_pow_right (by omega) (h g (List.mem_cons_self _ _))
    omega

theorem get_possible_values_length (B : Nat) (occ : List Nat) (value : Nat)
    (hS : c_side_len B < 32) : (get_possible_values B occ value).length ≤ c_side_len B := by
  rw [(get_possible_values_perm B occ value hS).length_eq]
  have := List.length_filter_le (fun i => value.testBit i) (List.range (c_side_len B))
  rw [List.length_range] at this
  exact this

/-- The search loop returns when it may run more than `search_need` iterations; when a
consistent assignment fits a grid of the stack, it returns a grid. -/
theorem search_loop_complete (B : Nat) (tbl input : List Nat) (hS : c_side_len B < 32) :
    ∀ (fuel : Nat) (stack : List (List Nat)) (occ : List Nat),
      (∀ g ∈ stack, stack_inv B tbl input g) → search_need B stack < fuel →
      search_loop B tbl fuel stack occ [] ≠ Outcome.out_of_fuel ∧
      (∀ s, proper B tbl s → (∃ g ∈ stack, fits B s g) →
        ∃ r, search_loop B tbl fuel stack occ [] = Outcome.solved r) := by
  intro fuel
  induction fuel with
  | zero => intro stack occ _ h; omega
  | succ fuel ih =>
    intro stack occ hst hneed
    cases stack with
    | nil =>
      rw [search_loop]
      refine ⟨fun h => Outcome.noConfusion h, ?_⟩
      rintro s _ ⟨g, hg, _⟩
      exact absurd hg (List.not_mem_nil _)
    | cons grid stack =>
      have hg := hst grid (List.mem_cons_self _ _)
      rw [search_loop, search_step]
      dsimp only
      by_cases hpos : get_smallest_unsolved B grid < grid.length
      · rw [if_pos hpos]
        have hposN : get_smallest_unsolved B grid < c_total_cells B := by
          rw [← hg.1.1]; exact hpos
        obtain ⟨pushed, occ1, e1, e2, e3, e4⟩ := branch_loop_complete B tbl input grid _ hS hg
          hposN (unsolved_of_choice B grid hS hg.1 hpos)
          (get_possible_values B occ (grid.getD (get_smallest_unsolved B grid) 0)) stack occ
          (fun v hv => (mem_get_possible_values B occ _ v hS).1 hv)
        rw [e1]
        dsimp only
        have hlen := get_possible_values_length B occ
          (grid.getD (get_smallest_unsolved B grid) 0) hS
        have hn1 := search_need_le B (candidate_count grid) pushed
          (fun g hgm => (e3 g hgm).2)
        have hn2 : pushed.length * (c_side_len B + 1) ^ candidate_count grid
            ≤ c_side_len B * (c_side_len B + 1) ^ candidate_count grid :=
          Nat.mul_le_mul_right _ (Nat.le_trans e2 hlen)
        have hn3 : 0 < (c_side_len B + 1) ^ candidate_count grid := Nat.pow_pos (by omega)
        have hn4 : (c_side_len B + 1) ^ (candidate_count grid + 1)
            = c_side_len B * (c_side_len B + 1) ^ candidate_count grid
              + (c_side_len B + 1) ^ candidate_count grid := by
          rw [Nat.pow_succ, Nat.mul_comm, Nat.succ_mul]
        rw [search_need_cons] at hneed
        have hst1 : ∀ g ∈ pushed ++ stack, stack_inv B tbl input g := by
          intro g hgm
          rcases List.mem_append.1 hgm with h | h
          · exact (e3 g h).1
          · exact hst g (List.mem_cons_of_mem _ h)
        obtain ⟨i1, i2⟩ := ih (pushed ++ stack) occ1 hst1 (by rw [search_need_append]; omega)
        refine ⟨i1, fun s hs hex => i2 s hs ?_⟩
        obtain ⟨g, hgm, hf⟩ := hex
        rcases List.mem_cons.1 hgm with h | h
        · rw [h] at hf
          obtain ⟨g1, hg1, hf1⟩ := e4 s hs hf
            ((mem_get_possible_values B occ _ _ hS).2 ⟨hs.1 _ hposN, hf _ hposN⟩)
          exact ⟨g1, List.mem_append.2 (Or.inl hg1), hf1⟩
        · exact ⟨g, List.mem_append.2 (Or.inr h), hf⟩
      · rw [if_neg hpos]
        exact ⟨fun h => Outcome.noConfusion h, fun _ _ _ => ⟨_, rfl⟩⟩

/-- Termination and completeness of `solve_with` on a well-formed input: the bound of the model
is never reached, and when a consistent assignment agrees with the givens a grid is returned. -/
theorem solve_with_complete (B : Nat) (tbl input : List Nat) (hB : 2 ≤ B)
    (hS : c_side_len B < 32) (hin : well_formed B input) :
    solve_with B tbl input ≠ Outcome.out_of_fuel ∧
    (∀ s, proper B tbl s →
      (∀ i, i < c_total_cells B → input.getD i 0 ≠ 0 → s i = input.getD i 0 - 1) →
      ∃ r, solve_with B tbl input = Outcome.solved r) := by
  obtain ⟨st0, e1, e2, e3, e4⟩ := initial_state_spec B tbl input hB hS hin
  rw [solve_with, if_neg (by simp [hin.1]), e1]
  dsimp only
  obtain ⟨⟨ok, st⟩, hp⟩ := propagate_terminates B tbl st0
  rw [hp]
  rw [propagate] at hp
  obtain ⟨h1, h2, h3, h4⟩ := propagate_loop_sound B tbl _ hS _ _ _ _ e2 hp
  have hfit0 : ∀ s, proper B tbl s →
      (∀ i, i < c_total_cells B → input.getD i 0 ≠ 0 → s i = input.getD i 0 - 1) →
      fits B s st0.grid := by
    intro s hs hgiv c hc
    by_cases h0 : input.getD c 0 = 0
    · rw [e4 c hc h0, Nat.testBit_two_pow_sub_one]
      exact decide_eq_true (hs.1 c hc)
    · rw [e3 c hc h0, hgiv c hc h0]
      exact Nat.testBit_two_pow_self
  cases ok with
  | false =>
    dsimp only
    refine ⟨fun h => Outcome.noConfusion h, fun s hs hgiv => ?_⟩
    exact absurd (propagate_loop_fits B tbl _ s hS hs _ _ _ _ e2 (hfit0 s hs hgiv) hp).1
      (by decide)
  | true =>
    dsimp only
    rw [h3]
    have hinv : ∀ g ∈ [st.grid], stack_inv B tbl input g := by
      intro g hg
      rw [List.mem_singleton] at hg
      subst hg
      refine ⟨h1, h4 rfl, fun i hi h0 => ?_⟩
      have hgi := e3 i hi h0
      have : is_solved (st0.grid.getD i 0) = true := by
        rw [hgi]
        have := e2.1.2 i hi
        rw [hgi, two_pow_lt_iff] at this
        exact is_solved_two_pow _ (by omega)
      rw [(h2.2 i).1 this, hgi]
    obtain ⟨i1, i2⟩ := search_loop_complete B tbl input hS (search_bound B st.grid) [st.grid]
      st.occ hinv (by rw [search_need_cons, search_bound]; simp [search_need])
    refine ⟨i1, fun s hs hgiv => i2 s hs ⟨st.grid, List.mem_singleton.2 rfl, ?_⟩⟩
    exact (propagate_loop_fits B tbl _ s hS hs _ _ _ _ e2 (hfit0 s hs hgiv) hp).2

/-! ## Completions of an input -/

/-- Two cells of the same row, column or block lie in a common unit. -/
theorem units_cover (B c p : Nat) (hB : 0 < B) (hc : c < c_total_cells B)
    (hp : p < c_total_cells B) (h : same_unit B c p) : ∃ u ∈ units B, c ∈ u ∧ p ∈ u := by
  obtain ⟨c1, c2, c3, c4, _, _⟩ := coords B c hB hc
  obtain ⟨p1, p2, p3, p4, _, _⟩ := coords B p hB hp
  have dc := cell_decomp (c_side_len B) c
  have dp := cell_decomp (c_side_len B) p
  rcases h with h | h | h
  · refine ⟨row_cells B (c / c_side_len B), ?_, ?_, ?_⟩
    · rw [units, List.mem_append, List.mem_append]
      exact Or.inl (Or.inl (List.mem_map.2 ⟨_, List.mem_range.2 c2, rfl⟩))
    · rw [row_cells, List.mem_map]
      exact ⟨c % c_side_len B, List.mem_range.2 c1, by omega⟩
    · rw [row_cells, List.mem_map]
      exact ⟨p % c_side_len B, List.mem_range.2 p1, by rw [h]; omega⟩
  · refine ⟨col_cells B (c % c_side_len B), ?_, ?_, ?_⟩
    · rw [units, List.mem_append, List.mem_append]
      exact Or.inl (Or.inr (List.mem_map.2 ⟨_, List.mem_range.2 c1, rfl⟩))
    · rw [col_cells, List.mem_map]
      exact ⟨c / c_side_len B, List.mem_range.2 c2, by omega⟩
    · rw [col_cells, List.mem_map]
      exact ⟨p / c_side_len B, List.mem_range.2 p2, by rw [h]; omega⟩
  · have key : ∀ q, q < c_total_cells B → q / c_side_len B / B = c / c_side_len B / B →
        q % c_side_len B / B = c % c_side_len B / B →
        q ∈ block_cells B (c / c_side_len B / B) (c % c_side_len B / B) := by
      intro q _ hr hk
      have dq := cell_decomp (c_side_len B) q
      have e1 := Nat.div_add_mod (q / c_side_len B) B
      have e2 := Nat.div_add_mod (q % c_side_len B) B
      rw [hr] at e1
      rw [hk] at e2
      rw [block_cells, List.mem_flatMap]
      refine ⟨q / c_side_len B % B, List.mem_range.2 (Nat.mod_lt _ hB), ?_⟩
      rw [List.mem_map]
      refine ⟨q % c_side_len B % B, List.mem_range.2 (Nat.mod_lt _ hB), ?_⟩
      rw [Nat.mul_comm (c / c_side_len B / B) B, Nat.mul_comm (c % c_side_len B / B) B, e1, e2]
      omega
    refine ⟨block_cells B (c / c_side_len B / B) (c % c_side_len B / B), ?_,
      key c hc rfl rfl, key p hp h.1.symm h.2.symm⟩
    rw [units, List.mem_append]
    right
    rw [List.mem_flatMap]
    exact ⟨_, List.mem_range.2 c4, List.mem_map.2 ⟨_, List.mem_range.2 c3, rfl⟩⟩

/-- In a grid without repeated value two distinct cells of a common unit hold different
values. -/
theorem no_repeat_ne (B : Nat) (grid : List Nat) (c p : Nat) (hB : 0 < B)
    (hc : c < c_total_cells B) (hp : p < c_total_cells B) (hne : c ≠ p) (h : same_unit B c p)
    (hg : no_repeat B grid) : grid.getD c 0 ≠ grid.getD p 0 := by
  obtain ⟨u, hu, hcu, hpu⟩ := units_cover B c p hB hc hp h
  have := hg u hu
  rw [values_at] at this
  intro he
  exact hne (List.inj_on_of_nodup_map this hcu hpu he)

/-- A completion of the input gives a consistent assignment that agrees with the givens. -/
theorem completion_proper (B : Nat) (input grid : List Nat) (hB : 0 < B)
    (h : completion B input grid) :
    proper B (compute_peers B) (fun i => grid.getD i 0 - 1) ∧
      ∀ i, i < c_total_cells B → input.getD i 0 ≠ 0 →
        (fun i => grid.getD i 0 - 1) i = input.getD i 0 - 1 := by
  obtain ⟨hlen, hval, hgiv, hrep⟩ := h
  have hv : ∀ c, c < c_total_cells B → 1 ≤ grid.getD c 0 ∧ grid.getD c 0 ≤ c_side_len B := by
    intro c hc
    rw [List.getD_eq_getElem _ _ (by omega)]
    exact hval _ (List.getElem_mem _)
  refine ⟨⟨fun c hc => ?_, fun c hc p hp => ?_⟩, fun i hi h0 => ?_⟩
  · have := hv c hc
    dsimp only
    omega
  · rw [peer_slots_compute_peers B c hB hc, mem_peers_of B c p hB hc] at hp
    have hpN := hp.1
    refine ⟨hpN, ?_⟩
    have h1 := no_repeat_ne B grid c p hB hc hpN (fun e => hp.2.1 e.symm) hp.2.2 hrep
    have h2 := hv c hc
    have h3 := hv p hpN
    dsimp only
    omega
  · dsimp only
    rw [hgiv i hi h0]

/-- Termination of `solve` on a well-formed input, and completeness: when the input has a valid
completion, `solve` returns a grid. -/
theorem solve_complete (B : Nat) (input : List Nat) (hB : 2 ≤ B) (hS : c_side_len B < 32)
    (hin : well_formed B input) :
    solve B input ≠ Outcome.out_of_fuel ∧
      ((∃ grid, completion B input grid) → ∃ r, solve B input = Outcome.solved r) := by
  obtain ⟨h1, h2⟩ := solve_with_complete B (compute_peers B) input hB hS hin
  refine ⟨h1, ?_⟩
  rintro ⟨grid, hg⟩
  obtain ⟨p1, p2⟩ := completion_proper B input grid (by omega) hg
  exact h2 _ p1 p2

/-! ## `solve` against the completions of its input -/

theorem valid_grid_no_repeat (B : Nat) (grid : List Nat) (h : valid_grid B grid)
    (hr : ∀ x ∈ grid, 1 ≤ x ∧ x ≤ c_side_len B) (hB : 0 < B) : no_repeat B grid := by
  intro u hu
  rw [List.nodup_iff_count_le_one]
  intro a
  by_cases ha : a ∈ values_at grid u
  · rw [values_at, List.mem_map] at ha
    obtain ⟨c, hc, rfl⟩ := ha
    have hcN := (units_spec B hB u hu).2.2.1 c hc
    have hx := hr (grid.getD c 0) (by
      rw [List.getD_eq_getElem _ _ (by rw [h.1]; exact hcN)]
      exact List.getElem_mem _)
    have := h.2 u hu (grid.getD c 0 - 1) (List.mem_range.2 (by omega))
    rw [Nat.sub_add_cancel hx.1] at this
    omega
  · rw [List.count_eq_zero_of_not_mem ha]
    omega

/-- A grid returned by `solve` is a valid completion of the input. -/
theorem solve_returns_completion (B : Nat) (input r : List Nat) (hB : 2 ≤ B)
    (hS : c_side_len B < 32) (hin : well_formed B input) (h : solve B input = Outcome.solved r) :
    completion B input r := by
  obtain ⟨h1, h2, h3⟩ := solve_sound B input r hB hS hin h
  exact ⟨h1.1, h2, h3, valid_grid_no_repeat B r h1 h2 (by omega)⟩

/-- The search loop raises no exception. -/
theorem search_loop_cases (B : Nat) (tbl : List Nat) : ∀ (fuel : Nat) (stack : List (List Nat))
    (occ : List Nat) (queue : List Solved),
    search_loop B tbl fuel stack occ queue = Outcome.out_of_fuel ∨
    search_loop B tbl fuel stack occ queue = Outcome.absent ∨
    ∃ r, search_loop B tbl fuel stack occ queue = Outcome.solved r := by
  intro fuel
  induction fuel with
  | zero => intro stack occ queue; left; cases stack <;> rfl
  | succ fuel ih =>
    intro stack occ queue
    cases stack with
    | nil => right; left; rfl
    | cons grid stack =>
      rw [search_loop]
      cases hstep : search_step B tbl grid stack occ queue with
      | inl res =>
        dsimp only
        rw [search_step] at hstep
        dsimp only at hstep
        split_ifs at hstep
        · split at hstep
          · cases hstep; left; rfl
          · exact Sum.noConfusion hstep
        · cases hstep; right; right; exact ⟨_, rfl⟩
      | inr next =>
        obtain ⟨s1, o1, q1⟩ := next
        exact ih s1 o1 q1

/-- On a well-formed input `solve` returns a grid or the empty optional. -/
theorem solve_cases (B : Nat) (input : List Nat) (hB : 2 ≤ B) (hS : c_side_len B < 32)
    (hin : well_formed B input) :
    solve B input = Outcome.absent ∨ ∃ r, solve B input = Outcome.solved r := by
  have hfuel := (solve_complete B input hB hS hin).1
  obtain ⟨st0, e1, _⟩ := initial_state_spec B (compute_peers B) input hB hS hin
  rw [solve, solve_with, if_neg (by simp [hin.1]), e1] at hfuel ⊢
  dsimp only at hfuel ⊢
  obtain ⟨⟨ok, st⟩, hp⟩ := propagate_terminates B (compute_peers B) st0
  rw [hp] at hfuel ⊢
  cases ok with
  | false => left; rfl
  | true =>
    dsimp only at hfuel ⊢
    rcases search_loop_cases B (compute_peers B) (search_bound B st.grid) [st.grid] st.occ
      st.queue with h | h | h
    · exact absurd h hfuel
    · exact Or.inl h
    · exact Or.inr h

/-- For a well-formed input `solve` returns a grid exactly when the input has a valid
completion, and the empty optional exactly when it has none. -/
theorem solve_decides (B : Nat) (input : List Nat) (hB : 2 ≤ B) (hS : c_side_len B < 32)
    (hin : well_formed B input) :
    ((∃ grid, completion B input grid) → ∃ r, solve B input = Outcome.solved r ∧
      completion B input r) ∧
    ((¬ ∃ grid, completion B input grid) → solve B input = Outcome.absent) := by
  constructor
  · intro hex
    obtain ⟨r, hr⟩ := (solve_complete B input hB hS hin).2 hex
    exact ⟨r, hr, solve_returns_completion B input r hB hS hin hr⟩
  · intro hno
    rcases solve_cases B input hB hS hin with h | ⟨r, h⟩
    · exact h
    · exact absurd ⟨r, solve_returns_completion B input r hB hS hin h⟩ hno

/-! ## Two peers with the same given -/

/-- For `side_len < 32`: when two distinct cells of a common row, column or block hold the same
given, the initial call of `propagate` returns `false` and `solve` returns the empty optional
from its early return, before the search loop. -/
theorem duplicate_givens_absent (B : Nat) (input : List Nat) (a b : Nat) (hB : 2 ≤ B)
    (hS : c_side_len B < 32) (hin : well_formed B input) (ha : a < c_total_cells B)
    (hb : b < c_total_cells B) (hab : a ≠ b) (hu : same_unit B a b)
    (hv : input.getD a 0 ≠ 0) (he : input.getD a 0 = input.getD b 0) :
    (∃ st0 st, initial_state B input = some st0 ∧
      propagate B (compute_peers B) st0 = some (false, st)) ∧
    solve B input = Outcome.absent := by
  obtain ⟨st0, e1, e2, e3, _⟩ := initial_state_spec B (compute_peers B) input hB hS hin
  obtain ⟨⟨ok, st⟩, hp⟩ := propagate_terminates B (compute_peers B) st0
  have hok : ok = false := by
    cases ok with
    | false => rfl
    | true =>
      exfalso
      have hp1 := hp
      rw [propagate] at hp1
      obtain ⟨_, h2, _, h4⟩ := propagate_loop_sound B _ _ hS _ _ _ _ e2 hp1
      have hga := e3 a ha hv
      have hgb := e3 b hb (by rw [← he]; exact hv)
      have hlt := (e2.1.2 a ha).2
      rw [hga, two_pow_lt_iff] at hlt
      have hsa : is_solved (st0.grid.getD a 0) = true := by
        rw [hga]; exact is_solved_two_pow _ (by omega)
      have hsb : is_solved (st0.grid.getD b 0) = true := by
        rw [hgb, ← he]; exact is_solved_two_pow _ (by omega)
      have ha1 := (h2.2 a).1 hsa
      have hb1 := (h2.2 b).1 hsb
      rw [hga] at ha1
      rw [hgb, ← he] at hb1
      rcases h4 rfl a _ ha ha1 with h | h
      · exact absurd h (List.not_mem_nil _)
      · have hmem : b ∈ peer_slots B (compute_peers B) a := by
          rw [peer_slots_compute_peers B a (by omega) ha, mem_peers_of B a b (by omega) ha]
          exact ⟨hb, fun e => hab e.symm, hu⟩
        rcases h b hmem with h1 | h1
        · rw [hb1, Nat.testBit_two_pow_self] at h1
          exact Bool.noConfusion h1
        · exact absurd h1.2 (List.not_mem_nil _)
  subst hok
  refine ⟨⟨st0, st, e1, hp⟩, ?_⟩
  rw [solve, solve_with, if_neg (by simp [hin.1]), e1]
  dsimp only
  rw [hp]

/-! ## Grids on which no visit changes anything -/

theorem peer_visit_quiet (src : Solved) (p : Nat) (st : State)
    (hs : is_solved (st.grid.getD p 0) = true) (hb : src.bit ≠ highest_bit (st.grid.getD p 0)) :
    peer_visit src p st = some st := by
  rw [peer_visit]
  dsimp only
  rw [if_pos hs, if_neg hb]

theorem peer_loop_quiet (B : Nat) (tbl : List Nat) (src : Solved) :
    ∀ (is : List Nat) (st : State),
      (∀ c, is_solved (st.grid.getD c 0) = true ∧ src.bit ≠ highest_bit (st.grid.getD c 0)) →
      peer_loop B tbl src is st = (true, st) := by
  intro is
  induction is with
  | nil => intro st _; rfl
  | cons i is ih =>
    intro st hz
    rw [peer_loop_cons, peer_visit_quiet src _ st (hz _).1 (hz _).2]
    exact ih st hz

/-- When every cell passes the test "is solved?" with a highest bit below 32 and every queue
entry has a bit of 32 or more, `propagate` drains the queue, finds no conflict and changes
nothing. -/
theorem propagate_loop_quiet (B : Nat) (tbl : List Nat) : ∀ (fuel : Nat) (st : State),
    (∀ c, is_solved (st.grid.getD c 0) = true ∧ highest_bit (st.grid.getD c 0) < 32) →
    (∀ e ∈ st.queue, 32 ≤ e.bit) → st.queue.length < fuel →
    propagate_loop B tbl fuel st = some (true, { st with queue := [] }) := by
  intro fuel
  induction fuel with
  | zero => intro st _ _ h; omega
  | succ fuel ih =>
    intro st hz hq hlen
    cases hqe : st.queue with
    | nil =>
      rw [propagate_loop_nil B tbl fuel st hqe]
      cases st
      simp only at hqe
      rw [hqe]
    | cons src rest =>
      have hsrc := hq src (by rw [hqe]; exact List.mem_cons_self _ _)
      have hpl := peer_loop_quiet B tbl src (List.range (c_peer_count B))
        { grid := st.grid, occ := st.occ, queue := rest }
        (fun c => ⟨(hz c).1, fun h => by
          have h1 := (hz c).2
          have h2 : src.bit = highest_bit (st.grid.getD c 0) := h
          omega⟩)
      rw [propagate_loop_cons B tbl fuel st src rest hqe, hpl]
      dsimp only
      rw [hqe, List.length_cons] at hlen
      exact ih _ hz (fun e he => hq e (by rw [hqe]; exact List.mem_cons_of_mem _ he))
        (by dsimp only; omega)

theorem smallest_loop_skip : ∀ (cells : List Nat) (i best pos : Nat),
    (∀ m ∈ cells, builtin_popcount m < 2) → smallest_loop cells i best pos = pos := by
  intro cells
  induction cells with
  | nil => intro i best pos _; rfl
  | cons c cells ih =>
    intro i best pos h
    have hc := h c (List.mem_cons_self _ _)
    rw [smallest_loop]
    rw [if_neg (by omega), if_neg (by omega)]
    exact ih _ _ _ (fun m hm => h m (List.mem_cons_of_mem _ hm))

/-! ## The empty 9x9 grid -/

theorem empty_9x9_well_formed : well_formed 3 empty_9x9 := by
  refine ⟨rfl, ?_⟩
  intro v hv
  rw [empty_9x9, List.mem_replicate] at hv
  rw [hv.2]
  exact Nat.zero_le _

theorem empty_9x9_has_completion : completion 3 empty_9x9 empty_9x9_solution := by
  refine ⟨rfl, by decide, ?_, ?_⟩
  · intro i _ h
    exfalso
    apply h
    rw [empty_9x9, List.getD_eq_getElem?_getD, List.getElem?_replicate]
    split <;> rfl
  · unfold no_repeat
    decide

/-! ## Givens above 32 -/

/-- The shift `1 << z0` of a given `v` in `33..63`: the count `v - 1` is taken modulo 32, so
the mask is that of the given `v - 32`. -/
theorem bit_mask_high (v : Nat) (h1 : 33 ≤ v) (h2 : v < 64) : bit_mask (v - 1) = 2 ^ (v - 33) := by
  have e : (v - 1) % 32 = v - 33 := by omega
  have h3 : 2 ^ (v - 33) < 2 ^ 31 := Nat.pow_lt_pow_right (by decide) (by omega)
  rw [bit_mask, int_shl1, e, int_to_myuint, if_pos h3]

/-- For a block size that the constructor accepts and an input of `total_cells` givens that are
all above 32, the initial call of `propagate` finds no conflict and `solve` returns the grid
that holds `v - 32` where the input holds `v`. -/
theorem solve_high_givens (B : Nat) (input : List Nat) (hS : c_side_len B < 64)
    (hl : input.length = c_total_cells B) (hv : ∀ v ∈ input, 33 ≤ v ∧ v ≤ c_side_len B) :
    (∃ st0 st, initial_state B input = some st0 ∧
      propagate B (compute_peers B) st0 = some (true, st)) ∧
    solve B input = Outcome.solved (input.map (fun v => v - 32)) := by
  have hpow : c_side_len B < 2 ^ 62 := Nat.lt_of_lt_of_le hS (by decide)
  obtain ⟨st0, e1, e2, _, e4, e5⟩ := init_loop_spec B hpow input 0
    { grid := List.replicate (c_total_cells B) 0,
      occ := List.replicate (c_side_len B) 0, queue := [] }
    (fun v h => by have := (hv v h).2; omega)
    (by dsimp only; rw [List.length_replicate, hl]; omega)
  dsimp only at e2
  rw [List.length_replicate] at e2
  have hin : ∀ k, k < input.length → 33 ≤ input.getD k 0 ∧ input.getD k 0 ≤ c_side_len B := by
    intro k hk
    rw [List.getD_eq_getElem _ _ hk]
    exact hv _ (List.getElem_mem _)
  have hcell : ∀ k, k < input.length → st0.grid.getD k 0 = 2 ^ (input.getD k 0 - 33) := by
    intro k hk
    have h1 := e4 k hk
    have h2 := hin k hk
    rw [Nat.zero_add, if_neg (by omega), bit_mask_high _ h2.1 (by omega)] at h1
    exact h1
  have hg : st0.grid = input.map (fun v => 2 ^ (v - 33)) := by
    apply List.ext_getElem
    · rw [e2, List.length_map, hl]
    · intro k h1 h2
      rw [List.length_map] at h2
      rw [List.getElem_map, ← List.getD_eq_getElem _ 0 h1, hcell k h2, List.getD_eq_getElem _ _ h2]
  have hsol : ∀ c, is_solved (st0.grid.getD c 0) = true ∧ highest_bit (st0.grid.getD c 0) < 32 := by
    intro c
    rcases Nat.lt_or_ge c input.length with hc | hc
    · have h2 := hin c hc
      rw [hcell c hc, highest_bit_two_pow _ (by omega)]
      exact ⟨is_solved_two_pow _ (by omega), by omega⟩
    · rw [getD_of_ge _ _ (by rw [e2, ← hl]; exact hc), highest_bit_zero]
      exact ⟨is_solved_zero, by decide⟩
  have hq : ∀ e ∈ st0.queue, 32 ≤ e.bit := by
    intro e he
    rw [e5] at he
    rcases he with he | ⟨k, hk, _, he⟩
    · exact absurd he (List.not_mem_nil _)
    · have := hin k hk
      rw [he]
      dsimp only
      omega
  have hp : propagate B (compute_peers B) st0 = some (true, { st0 with queue := [] }) := by
    rw [propagate]
    exact propagate_loop_quiet B _ _ st0 hsol hq (by omega)
  refine ⟨⟨st0, _, e1, hp⟩, ?_⟩
  rw [solve, solve_with, if_neg (by simp [hl])]
  rw [initial_state, e1]
  dsimp only
  rw [hp]
  dsimp only
  rw [search_bound, search_loop, search_step]
  dsimp only
  have hs : get_smallest_unsolved B st0.grid = st0.grid.length := by
    rw [get_smallest_unsolved]
    apply smallest_loop_skip
    intro m hm
    rw [hg, List.mem_map] at hm
    obtain ⟨v, hvm, rfl⟩ := hm
    have := hv v hvm
    rw [builtin_popcount_two_pow _ (by omega)]
    decide
  rw [hs, if_neg (Nat.lt_irrefl _), hg, format, List.map_map]
  dsimp only
  congr 1
  apply List.map_congr_left
  intro v hvm
  have := hv v hvm
  rw [Function.comp_apply, if_pos (is_solved_two_pow _ (by omega)),
    highest_bit_two_pow _ (by omega), myuint_succ_small _ (by omega)]
  omega

/-! ## A conflict that waits in the queue -/

/-- A visit leaves the mask of every cell that passes the test "is solved?" as it is. -/
theorem peer_visit_keeps (c : Nat) (src : Solved) (p : Nat) (st st1 : State)
    (h : is_solved (st.grid.getD c 0) = true) (hv : peer_visit src p st = some st1) :
    st1.grid.getD c 0 = st.grid.getD c 0 := by
  rw [peer_visit] at hv
  dsimp only at hv
  by_cases hsol : is_solved (st.grid.getD p 0) = true
  · rw [if_pos hsol] at hv
    split at hv
    · exact Option.noConfusion hv
    · cases hv; rfl
  · rw [if_neg hsol] at hv
    have hpc : p ≠ c := by
      intro e
      apply hsol
      rw [e]
      exact h
    have hg : (st.grid.set p (lower_bit (st.grid.getD p 0) src.bit)).getD c 0 =
        st.grid.getD c 0 := by
      rw [getD_set_eq, if_neg (fun e => hpc e.1)]
    split at hv <;> (cases hv; exact hg)

/-- A visit removes no entry from the queue. -/
theorem peer_visit_queue (src : Solved) (p : Nat) (st st1 : State) (e : Solved)
    (he : e ∈ st.queue) (hv : peer_visit src p st = some st1) : e ∈ st1.queue := by
  rw [peer_visit] at hv
  dsimp only at hv
  split at hv
  · split at hv
    · exact Option.noConfusion hv
    · cases hv; exact he
  · split at hv
    · cases hv; exact List.mem_append_left _ he
    · cases hv; exact he

/-- The visits of a source whose bit is the highest bit of the solved mask of one of its
peers end with `false`. -/
theorem peer_loop_conflict (B : Nat) (tbl : List Nat) (src : Solved) (z m : Nat)
    (hm : is_solved m = true) (hb : src.bit = highest_bit m) :
    ∀ (is : List Nat) (st : State), st.grid.getD z 0 = m →
      z ∈ is.map (slot B tbl src.position) → (peer_loop B tbl src is st).1 = false := by
  intro is
  induction is with
  | nil => intro st _ h; exact absurd h (List.not_mem_nil _)
  | cons i is ih =>
    intro st hz hmem
    rw [peer_loop_cons]
    cases hv : peer_visit src (slot B tbl src.position i) st with
    | none => rfl
    | some st1 =>
      dsimp only
      rw [List.map_cons] at hmem
      rcases List.mem_cons.1 hmem with h | h
      · exfalso
        rw [← h, peer_visit] at hv
        dsimp only at hv
        rw [hz, if_pos hm, if_pos hb] at hv
        exact Option.noConfusion hv
      · refine ih st1 ?_ h
        rw [peer_visit_keeps z src _ st st1 (by rw [hz]; exact hm) hv]
        exact hz

/-- When the queue holds an entry `e` and a peer `z` of its cell has a solved mask whose
highest bit is the bit of `e`, `propagate` does not return `true`. -/
theorem propagate_loop_conflict (B : Nat) (tbl : List Nat) (e : Solved) (z m : Nat)
    (hm : is_solved m = true) (hb : e.bit = highest_bit m)
    (hz : z ∈ peer_slots B tbl e.position) :
    ∀ (fuel : Nat) (st r : State), st.grid.getD z 0 = m → e ∈ st.queue →
      propagate_loop B tbl fuel st ≠ some (true, r) := by
  intro fuel st r hg he hp
  have step : ∀ (src : Solved) (rest : List Solved) (st st1 : State),
      (st.grid.getD z 0 = m ∧ e ∈ st.queue) → st.queue = src :: rest →
      peer_loop B tbl src (List.range (c_peer_count B)) { st with queue := rest } = (true, st1) →
      (st1.grid.getD z 0 = m ∧ e ∈ st1.queue) := by
    intro src rest st st1 hJ hq hpl
    have hin : e ∈ rest := by
      have h1 := hJ.2
      rw [hq] at h1
      rcases List.mem_cons.1 h1 with h2 | h2
      · exfalso
        subst h2
        have := peer_loop_conflict B tbl e z m hm hb (List.range (c_peer_count B))
          { st with queue := rest } hJ.1 (by rw [← peer_slots_eq]; exact hz)
        rw [hpl] at this
        exact Bool.noConfusion this
      · exact h2
    have h1 := peer_loop_true B tbl src (fun _ s => s.grid.getD z 0 = m ∧ e ∈ s.queue)
      (fun p _ s s1 hs hv =>
        ⟨by rw [peer_visit_keeps z src p s s1 (by rw [hs.1]; exact hm) hv]; exact hs.1,
          peer_visit_queue src p s s1 e hs.2 hv⟩)
      (List.range (c_peer_count B)) { st with queue := rest } ⟨hJ.1, hin⟩ (by rw [hpl])
    rw [hpl] at h1
    exact h1
  obtain ⟨hq, hJr, _⟩ := propagate_loop_inv B tbl
    (fun s => s.grid.getD z 0 = m ∧ e ∈ s.queue) step fuel st true r ⟨hg, he⟩ hp
  have := (hJr rfl).2
  rw [hq] at this
  exact absurd this (List.not_mem_nil _)

/-- The empty optional from the initial `propagate`: the initial state has a queue entry and a
peer of its cell with a solved mask of the same highest bit. -/
theorem solve_conflict (B : Nat) (input : List Nat) (st0 : State) (e : Solved) (z : Nat)
    (hl : input.length = c_total_cells B) (h0 : initial_state B input = some st0)
    (hm : is_solved (st0.grid.getD z 0) = true) (hb : e.bit = highest_bit (st0.grid.getD z 0))
    (hz : z ∈ peer_slots B (compute_peers B) e.position) (he : e ∈ st0.queue) :
    (∃ st, propagate B (compute_peers B) st0 = some (false, st)) ∧
    solve B input = Outcome.absent := by
  obtain ⟨⟨ok, st⟩, hp⟩ := propagate_terminates B (compute_peers B) st0
  have hok : ok = false := by
    cases ok with
    | false => rfl
    | true =>
      exfalso
      rw [propagate] at hp
      exact propagate_loop_conflict B (compute_peers B) e z _ hm hb hz _ st0 st rfl he hp
  subst hok
  refine ⟨⟨st, hp⟩, ?_⟩
  rw [solve, solve_with, if_neg (by rw [hl]; exact fun h => h rfl), h0]
  dsimp only
  rw [hp]

/-! ## The shifted grid -/

theorem getD_map_range (f : Nat → Nat) (n i : Nat) (h : i < n) :
    ((List.range n).map f).getD i 0 = f i := by
  rw [List.getD_eq_getElem _ _ (by rw [List.length_map, List.length_range]; exact h),
    List.getElem_map, List.getElem_range]

theorem shifted_grid_length (B : Nat) : (shifted_grid B).length = c_total_cells B := by
  rw [shifted_grid, List.length_map, List.length_range]

theorem shifted_grid_getD (B i : Nat) (h : i < c_total_cells B) :
    (shifted_grid B).getD i 0 = shifted_value B i :=
  getD_map_range _ _ _ h

theorem shifted_value_range (B i : Nat) (hB : 0 < B) :
    1 ≤ shifted_value B i ∧ shifted_value B i ≤ c_side_len B := by
  have hS : 0 < c_side_len B := Nat.mul_pos hB hB
  rw [shifted_value]
  have := Nat.mod_lt (i / c_side_len B % B * B + i / c_side_len B / B + i % c_side_len B) hS
  omega

set_option maxRecDepth 100000 in
theorem shifted_units_36x36 : ∀ u ∈ units 6, (u.map (shifted_value 6)).Nodup := by
  decide!

theorem shifted_grid_no_repeat_36x36 : no_repeat 6 (shifted_grid 6) := by
  intro u hu
  have hc := (units_spec 6 (by decide) u hu).2.2.1
  have : values_at (shifted_grid 6) u = u.map (shifted_value 6) := by
    rw [values_at]
    apply List.map_congr_left
    intro i hi
    exact shifted_grid_getD 6 i (hc i hi)
  rw [this]
  exact shifted_units_36x36 u hu

/-! ## The complete 36x36 grid as an input -/

theorem full_36x36_completion : completion 6 full_36x36 full_36x36 := by
  refine ⟨shifted_grid_length 6, ?_, fun _ _ _ => rfl, shifted_grid_no_repeat_36x36⟩
  intro v hv
  rw [full_36x36, shifted_grid, List.mem_map] at hv
  obtain ⟨i, _, rfl⟩ := hv
  exact shifted_value_range 6 i (by decide)

theorem full_36x36_unique (r : List Nat) (h : completion 6 full_36x36 r) : r = full_36x36 := by
  obtain ⟨h1, _, h3, _⟩ := h
  apply List.ext_getElem
  · rw [h1, full_36x36, shifted_grid_length]
  · intro i hi1 hi2
    have hi : i < c_total_cells 6 := by rw [← h1]; exact hi1
    have hne : full_36x36.getD i 0 ≠ 0 := by
      rw [full_36x36, shifted_grid_getD 6 i hi]
      have := (shifted_value_range 6 i (by decide)).1
      omega
    have := h3 i hi hne
    rw [List.getD_eq_getElem _ _ hi1, List.getD_eq_getElem _ _ hi2] at this
    exact this

theorem row_peer_36x36 (i p : Nat) (hi : i < 36) (hp : p < 36) (hne : p ≠ i) :
    p ∈ peer_slots 6 (compute_peers 6) i := by
  have hiN : i < c_total_cells 6 := by
    have : c_total_cells 6 = 1296 := rfl
    omega
  have hpN : p < c_total_cells 6 := by
    have : c_total_cells 6 = 1296 := rfl
    omega
  rw [peer_slots_compute_peers 6 i (by decide) hiN, mem_peers_of 6 i p (by decide) hiN]
  refine ⟨hpN, hne, Or.inl ?_⟩
  have h36 : c_side_len 6 = 36 := rfl
  rw [h36]
  omega

/-- The initial grid for `full_36x36`: the given 1 of cell 0 and the given 33 of cell 32, a
peer in the same row, both get the mask 1, and the queue holds the entry of cell 0. -/
theorem full_36x36_initial : ∃ st0, initial_state 6 full_36x36 = some st0 ∧
    st0.grid.getD 0 0 = 1 ∧ st0.grid.getD 32 0 = 1 ∧ (⟨0, 0⟩ : Solved) ∈ st0.queue := by
  have hv : ∀ v ∈ full_36x36, v ≤ c_side_len 6 + 1 := by
    intro v hv
    rw [full_36x36, shifted_grid, List.mem_map] at hv
    obtain ⟨i, _, rfl⟩ := hv
    have := (shifted_value_range 6 i (by decide)).2
    omega
  obtain ⟨st0, e1, _, _, e4, e5⟩ := init_loop_spec 6 (by decide) full_36x36 0
    { grid := List.replicate (c_total_cells 6) 0,
      occ := List.replicate (c_side_len 6) 0, queue := [] } hv
    (by
      dsimp only
      rw [List.length_replicate, full_36x36, shifted_grid_length]
      omega)
  have hlen : full_36x36.length = 1296 := by
    rw [full_36x36, shifted_grid_length]; rfl
  have hg0 : full_36x36.getD 0 0 = 1 := by
    rw [full_36x36, shifted_grid_getD 6 0 (by decide)]
    decide
  have hg32 : full_36x36.getD 32 0 = 33 := by
    rw [full_36x36, shifted_grid_getD 6 32 (by decide)]
    decide
  refine ⟨st0, e1, ?_, ?_, ?_⟩
  · have := e4 0 (by rw [hlen]; decide)
    rw [Nat.zero_add, hg0, if_neg (by decide)] at this
    rw [this]
    decide
  · have := e4 32 (by rw [hlen]; decide)
    rw [Nat.zero_add, hg32, if_neg (by decide)] at this
    rw [this]
    decide
  · rw [e5]
    right
    refine ⟨0, by rw [hlen]; decide, by rw [hg0]; decide, ?_⟩
    rw [hg0]

/-! ## The first row with 33 givens -/

theorem first_row_getD (i : Nat) (h : i < 1296) :
    first_row_36x36.getD i 0 = if i < 32 ∨ i = 33 then i + 1 else 0 :=
  getD_map_range _ _ _ h

theorem first_row_well_formed : well_formed 6 first_row_36x36 := by
  constructor
  · rw [first_row_36x36, List.length_map, List.length_range]
    rfl
  · intro v hv
    rw [first_row_36x36, List.mem_map] at hv
    obtain ⟨i, _, rfl⟩ := hv
    have h36 : c_side_len 6 = 36 := rfl
    rw [h36]
    split <;> omega

theorem first_row_completion : completion 6 first_row_36x36 (shifted_grid 6) := by
  refine ⟨shifted_grid_length 6, ?_, ?_, shifted_grid_no_repeat_36x36⟩
  · intro v hv
    rw [shifted_grid, List.mem_map] at hv
    obtain ⟨i, _, rfl⟩ := hv
    exact shifted_value_range 6 i (by decide)
  · intro i hi hne
    have hi2 : i < 1296 := hi
    rw [first_row_getD i hi2] at hne ⊢
    rw [shifted_grid_getD 6 i hi]
    by_cases hc : i < 32 ∨ i = 33
    · rw [if_pos hc]
      have h36 : c_side_len 6 = 36 := rfl
      rw [shifted_value, h36]
      omega
    · rw [if_neg hc] at hne
      exact absurd rfl hne

/-- The initial grid for `first_row_36x36`: the blank cell 32 has all 64 bits set, the given
32 of cell 31 has the bits `31..63` set, the given 2 of cell 1 and the given 34 of cell 33 both
get the mask 2, and the queue holds the entry of cell 1. -/
theorem first_row_initial : ∃ st0, initial_state 6 first_row_36x36 = some st0 ∧
    st0.grid.getD 32 0 = 2 ^ 64 - 1 ∧ st0.grid.getD 31 0 = 2 ^ 64 - 2 ^ 31 ∧
    st0.grid.getD 1 0 = 2 ∧ st0.grid.getD 33 0 = 2 ∧ (⟨1, 1⟩ : Solved) ∈ st0.queue := by
  have hlen : first_row_36x36.length = 1296 := by
    rw [first_row_36x36, List.length_map, List.length_range]
  have hv : ∀ v ∈ first_row_36x36, v ≤ c_side_len 6 + 1 := by
    intro v hv
    have := first_row_well_formed.2 v hv
    omega
  obtain ⟨st0, e1, _, _, e4, e5⟩ := init_loop_spec 6 (by decide) first_row_36x36 0
    { grid := List.replicate (c_total_cells 6) 0,
      occ := List.replicate (c_side_len 6) 0, queue := [] } hv
    (by
      dsimp only
      rw [List.length_replicate, hlen]
      decide)
  have cell : ∀ k, k < 1296 → st0.grid.getD k 0 =
      if (if k < 32 ∨ k = 33 then k + 1 else 0) = 0 then blank_mask 6
      else bit_mask ((if k < 32 ∨ k = 33 then k + 1 else 0) - 1) := by
    intro k hk
    have := e4 k (by rw [hlen]; exact hk)
    rw [Nat.zero_add, first_row_getD k hk] at this
    exact this
  refine ⟨st0, e1, ?_, ?_, ?_, ?_, ?_⟩
  · rw [cell 32 (by decide)]; decide
  · rw [cell 31 (by decide)]; decide
  · rw [cell 1 (by decide)]; decide
  · rw [cell 33 (by decide)]; decide
  · rw [e5]
    right
    refine ⟨1, by rw [hlen]; decide, ?_, ?_⟩
    · rw [first_row_getD 1 (by decide)]; decide
    · rw [first_row_getD 1 (by decide)]; rfl

/-! ## Claims -/

/-- C1 (validity). For every block size `B ≥ 2` with `side_len = B * B < 32` and every input of
`total_cells` values in `[0, side_len]`: a grid returned by `solve` holds, in every row, every
column and every block, each of the values `1..side_len` exactly once; no cell of it is `0`. -/
theorem solve_returns_valid_grid (B : Nat) (input grid : List Nat) (hB : 2 ≤ B)
    (hS : c_side_len B < 32) (hin : well_formed B input)
    (h : solve B input = Outcome.solved grid) :
    valid_grid B grid ∧ ∀ x ∈ grid, x ≠ 0 := by
  obtain ⟨h1, h2, _⟩ := solve_sound B input grid hB hS hin h
  exact ⟨h1, fun x hx => by have := h2 x hx; omega⟩

set_option maxRecDepth 100000 in
theorem solve_returns_valid_grid_witness :
    (2 ≤ 2 ∧ c_side_len 2 < 32 ∧ well_formed 2 two_givens_4x4 ∧
      solve 2 two_givens_4x4 = Outcome.solved [3, 2, 4, 1, 4, 1, 2, 3, 2, 3, 1, 4, 1, 4, 3, 2]) ∧
    valid_grid 2 [3, 2, 4, 1, 4, 1, 2, 3, 2, 3, 1, 4, 1, 4, 3, 2] ∧
    ∀ x ∈ [3, 2, 4, 1, 4, 1, 2, 3, 2, 3, 1, 4, 1, 4, 3, 2], x ≠ 0 :=
  ⟨⟨by decide, by decide, by unfold well_formed; decide, by decide!⟩,
    solve_returns_valid_grid 2 two_givens_4x4 _ (by decide) (by decide)
      (by unfold well_formed; decide) (by decide!)⟩

/-- C6 (cell-value validation), evaluated at the input whose first cell is `side_len + 1 = 5`
for block size 2: the loop that fills the grid does not raise "Invalid Grid Cell Value." and
`solve` goes on to return a grid that holds the value 5. -/
theorem solve_accepts_side_len_plus_one :
    (initial_state 2 input_with_five).isSome = true ∧
    solve 2 input_with_five ≠ Outcome.invalid_value ∧
    solve 2 input_with_five = Outcome.solved [5, 4, 3, 2, 2, 3, 4, 1, 4, 2, 1, 3, 3, 1, 2, 4] := by
  decide!

/-- C7 (peer table). For every block size `B ≥ 2` and every cell `i`: the body of the loop of
`compute_peers` writes `peer_count` values, into the consecutive slots that start at
`i * peer_count`, and ends with the slot counter at `peer_count`; in the finished table the slots
of `i` do not hold `i`, hold no cell twice, hold cells of the grid only, and hold a cell `j`
exactly when `j ≠ i` and `j` shares the row, the column or the block of `i`. -/
theorem compute_peers_table (B i : Nat) (hB : 2 ≤ B) (hi : i < c_total_cells B) :
    (∀ peers, peers_cell B i peers =
      (write_seq peers (i * c_peer_count B) (peer_slots B (compute_peers B) i), c_peer_count B)) ∧
    (peer_slots B (compute_peers B) i).length = c_peer_count B ∧
    i ∉ peer_slots B (compute_peers B) i ∧
    (peer_slots B (compute_peers B) i).Nodup ∧
    (∀ j ∈ peer_slots B (compute_peers B) i, j < c_total_cells B) ∧
    ∀ j, j < c_total_cells B →
      (j ∈ peer_slots B (compute_peers B) i ↔ j ≠ i ∧ same_unit B i j) := by
  have hB0 : 0 < B := by omega
  rw [peer_slots_compute_peers B i hB0 hi]
  refine ⟨fun peers => ?_, peers_of_length B i hB0 hi, ?_, peers_of_nodup B i hB0 hi, ?_, ?_⟩
  · rw [peers_cell_eq, peers_of_length B i hB0 hi]
  · intro h
    exact ((mem_peers_of B i i hB0 hi).1 h).2.1 rfl
  · intro j hj
    exact ((mem_peers_of B i j hB0 hi).1 hj).1
  · intro j hj
    rw [mem_peers_of B i j hB0 hi]
    exact ⟨fun h => h.2, fun h => ⟨hj, h⟩⟩

theorem compute_peers_table_witness :
    (2 ≤ 2 ∧ 5 < c_total_cells 2) ∧
    (∀ peers, peers_cell 2 5 peers =
      (write_seq peers (5 * c_peer_count 2) (peer_slots 2 (compute_peers 2) 5), c_peer_count 2)) ∧
    (peer_slots 2 (compute_peers 2) 5).length = c_peer_count 2 ∧
    5 ∉ peer_slots 2 (compute_peers 2) 5 ∧
    (peer_slots 2 (compute_peers 2) 5).Nodup ∧
    (∀ j ∈ peer_slots 2 (compute_peers 2) 5, j < c_total_cells 2) ∧
    ∀ j, j < c_total_cells 2 →
      (j ∈ peer_slots 2 (compute_peers 2) 5 ↔ j ≠ 5 ∧ same_unit 2 5 j) :=
  ⟨⟨by decide, by decide⟩, compute_peers_table 2 5 (by decide) (by decide)⟩

/-- C8, as stated, fails: for block size 2 and the input `scenario_4x4` the initial propagation
succeeds but leaves cells with more than one candidate, and `get_smallest_unsolved` returns the
cell 1 on the propagated grid, not the sentinel. -/
theorem scenario_4x4_not_solved_by_propagation :
    ∃ st, (initial_state 2 scenario_4x4).bind (propagate 2 (compute_peers 2)) = some (true, st) ∧
      ¬ (∀ m ∈ st.grid, builtin_popcount m = 1) ∧
      get_smallest_unsolved 2 st.grid ≠ c_total_cells 2 :=
  ⟨{ grid := [1, 14, 14, 14, 14, 14, 1, 14, 14, 1, 14, 14, 14, 14, 14, 1], occ := [4, 0, 0, 0],
     queue := [] }, by decide!, by decide!, by decide!⟩

/-- C8, amended. For block size 2 and the input `scenario_4x4` the initial propagation leaves
each of the twelve blank cells with the three candidates 2, 3 and 4 (mask 14), the search loop
branches, first on cell 1, and `solve` returns a full grid in which every row, column and block
holds each of 1..4 exactly once, hence no value twice. -/
theorem scenario_4x4_solved_by_search :
    (∃ st, (initial_state 2 scenario_4x4).bind (propagate 2 (compute_peers 2)) = some (true, st) ∧
      st.grid = [1, 14, 14, 14, 14, 14, 1, 14, 14, 1, 14, 14, 14, 14, 14, 1] ∧
      get_smallest_unsolved 2 st.grid = 1) ∧
    solve 2 scenario_4x4 = Outcome.solved scenario_4x4_solution ∧
    valid_grid 2 scenario_4x4_solution ∧ no_repeat 2 scenario_4x4_solution := by
  refine ⟨⟨{ grid := [1, 14, 14, 14, 14, 14, 1, 14, 14, 1, 14, 14, 14, 14, 14, 1],
             occ := [4, 0, 0, 0], queue := [] }, by decide!, rfl, by decide!⟩,
    by decide!, ?_, ?_⟩
  · unfold valid_grid; decide!
  · unfold no_repeat; decide!

/-! ## Claims on completeness, absence, the givens and the initial masks -/

/-- C2 (completeness), evaluated for block size 6, which the constructor accepts
(`side_len = 36 < 64`), at the complete grid `full_36x36` given as input: the input is its own
valid completion and has no other, and `solve` returns the empty optional instead of it. The
given 33 of cell 32 gets the mask `1 << 32`, which is the mask 1 of the given 1 of cell 0 in
the same row, and the initial call of `propagate` returns `false`. -/
theorem complete_grid_36x36_absent :
    constructible 6 ∧ well_formed 6 full_36x36 ∧ completion 6 full_36x36 full_36x36 ∧
    (∀ r, completion 6 full_36x36 r → r = full_36x36) ∧
    (full_36x36.getD 0 0 = 1 ∧ full_36x36.getD 32 0 = 33) ∧
    (∃ st0 st, initial_state 6 full_36x36 = some st0 ∧ st0.grid.getD 0 0 = 1 ∧
      st0.grid.getD 32 0 = 1 ∧ propagate 6 (compute_peers 6) st0 = some (false, st)) ∧
    solve 6 full_36x36 = Outcome.absent := by
  obtain ⟨st0, e1, e2, e3, e4⟩ := full_36x36_initial
  obtain ⟨⟨st, hp⟩, hs⟩ := solve_conflict 6 full_36x36 st0 ⟨0, 0⟩ 32
    (by rw [full_36x36, shifted_grid_length]) e1
    (by rw [e3]; decide) (by rw [e3]; decide)
    (row_peer_36x36 0 32 (by decide) (by decide) (by decide)) e4
  refine ⟨by unfold constructible; decide, ⟨full_36x36_completion.1, ?_⟩,
    full_36x36_completion, full_36x36_unique, ⟨?_, ?_⟩, ⟨st0, st, e1, e2, e3, hp⟩, hs⟩
  · intro v hv
    exact (full_36x36_completion.2.1 v hv).2
  · rw [full_36x36, shifted_grid_getD 6 0 (by decide)]
    decide
  · rw [full_36x36, shifted_grid_getD 6 32 (by decide)]
    decide

/-- C3 (absence means unsolvable), evaluated for block size 6 at the input `first_row_36x36`
(givens `1..32` in cells `0..31`, `34` in cell 33, all else blank): the input has a valid
completion, the grid `shifted_grid 6`, and `solve` returns the empty optional. The given 34
of cell 33 gets the mask `1 << 33`, which is the mask 2 of the given 2 of cell 1 in the same
row, and the initial call of `propagate` returns `false`. -/
theorem completion_exists_but_absent_36x36 :
    constructible 6 ∧ well_formed 6 first_row_36x36 ∧
    completion 6 first_row_36x36 (shifted_grid 6) ∧
    (first_row_36x36.getD 1 0 = 2 ∧ first_row_36x36.getD 33 0 = 34) ∧
    (∃ st0 st, initial_state 6 first_row_36x36 = some st0 ∧ st0.grid.getD 1 0 = 2 ∧
      st0.grid.getD 33 0 = 2 ∧ propagate 6 (compute_peers 6) st0 = some (false, st)) ∧
    solve 6 first_row_36x36 = Outcome.absent := by
  obtain ⟨st0, e1, _, _, e2, e3, e4⟩ := first_row_initial
  obtain ⟨⟨st, hp⟩, hs⟩ := solve_conflict 6 first_row_36x36 st0 ⟨1, 1⟩ 33
    first_row_well_formed.1 e1
    (by rw [e3]; decide) (by rw [e3]; decide)
    (row_peer_36x36 1 33 (by decide) (by decide) (by decide)) e4
  refine ⟨by unfold constructible; decide, first_row_well_formed, first_row_completion,
    ⟨?_, ?_⟩, ⟨st0, st, e1, e2, e3, hp⟩, hs⟩
  · rw [first_row_getD 1 (by decide)]; decide
  · rw [first_row_getD 33 (by decide)]; decide

/-- C4 (the solution extends the givens), evaluated for block size 6 at the input whose
1296 cells all hold 36: every cell gets the mask `1 << 35`, which is the mask 8 of the given
4; `solve` returns a grid, and the grid holds 4 in every cell, not the given 36. -/
theorem givens_lost_36x36 :
    constructible 6 ∧ well_formed 6 all_36_36x36 ∧ all_36_36x36.getD 0 0 = 36 ∧
    bit_mask (36 - 1) = 8 ∧
    solve 6 all_36_36x36 = Outcome.solved (List.replicate 1296 4) := by
  refine ⟨by unfold constructible; decide, ⟨?_, ?_⟩, by decide, by decide, ?_⟩
  · rw [all_36_36x36, List.length_replicate]; rfl
  · intro v hv
    rw [all_36_36x36, List.mem_replicate] at hv
    rw [hv.2]
    decide
  · have h := (solve_high_givens 6 all_36_36x36 (by decide)
      (by rw [all_36_36x36, List.length_replicate]; rfl)
      (by
        intro v hv
        rw [all_36_36x36, List.mem_replicate] at hv
        rw [hv.2]
        decide)).2
    rw [h, all_36_36x36, List.map_replicate]

/-- C5 (no-solution detection), evaluated for block size 6 at the input whose 1296 cells all
hold 33, so that any two peers hold the same value: every cell gets the mask `1 << 32`, which
is the mask 1, while the queue entries carry the bit 32; the initial call of `propagate`
returns `true`, and `solve` goes through the search loop and returns a grid of ones instead
of the empty optional. -/
theorem equal_peers_not_detected_36x36 :
    constructible 6 ∧ well_formed 6 all_33_36x36 ∧
    (all_33_36x36.getD 0 0 = 33 ∧ all_33_36x36.getD 1 0 = 33 ∧ same_unit 6 0 1) ∧
    (∃ st0 st, initial_state 6 all_33_36x36 = some st0 ∧
      propagate 6 (compute_peers 6) st0 = some (true, st)) ∧
    solve 6 all_33_36x36 ≠ Outcome.absent ∧
    solve 6 all_33_36x36 = Outcome.solved (List.replicate 1296 1) := by
  have hs := solve_high_givens 6 all_33_36x36 (by decide)
    (by rw [all_33_36x36, List.length_replicate]; rfl)
    (by
      intro v hv
      rw [all_33_36x36, List.mem_replicate] at hv
      rw [hv.2]
      decide)
  have h2 : solve 6 all_33_36x36 = Outcome.solved (List.replicate 1296 1) := by
    rw [hs.2, all_33_36x36, List.map_replicate]
  refine ⟨by unfold constructible; decide, ⟨?_, ?_⟩, ⟨by decide, by decide, ?_⟩, hs.1, ?_, h2⟩
  · rw [all_33_36x36, List.length_replicate]; rfl
  · intro v hv
    rw [all_33_36x36, List.mem_replicate] at hv
    rw [hv.2]
    decide
  · unfold same_unit; decide
  · rw [h2]
    exact fun h => Outcome.noConfusion h

/-- C9 (empty 9x9 grid). For block size 3 and the input of 81 zeros `solve` returns a grid,
neither the empty optional nor an exception, and every row, every column and every 3x3 block
of the grid holds each of `1..9` exactly once. -/
theorem solve_empty_9x9 :
    ∃ grid, solve 3 empty_9x9 = Outcome.solved grid ∧ valid_grid 3 grid := by
  obtain ⟨r, hr⟩ := (solve_complete 3 empty_9x9 (by decide) (by decide)
    empty_9x9_well_formed).2 ⟨empty_9x9_solution, empty_9x9_has_completion⟩
  exact ⟨r, hr, (solve_sound 3 empty_9x9 r (by decide) (by decide) empty_9x9_well_formed hr).1⟩

/-- C10 (initial masks), evaluated for block size 6, which the constructor accepts
(`side_len = 36 < 64`): the mask of a blank cell has all 64 bits set, not the bits `0..35`
only; the mask of the given 32 has the bits `31..63` set; the masks of the givens 33 and 34
are the masks 1 and 2 of the givens 1 and 2. The initial grid that `solve` builds for
`first_row_36x36` holds these masks in the blank cell 32 and in the cells 31 and 33. -/
theorem initial_masks_block_size_6 :
    constructible 6 ∧ blank_mask 6 = 2 ^ 64 - 1 ∧ blank_mask 6 ≠ 2 ^ c_side_len 6 - 1 ∧
    (blank_mask 6).testBit 36 = true ∧
    bit_mask (32 - 1) = 2 ^ 64 - 2 ^ 31 ∧ bit_mask (32 - 1) ≠ 2 ^ (32 - 1) ∧
    bit_mask (33 - 1) = 1 ∧ bit_mask (33 - 1) ≠ 2 ^ (33 - 1) ∧
    bit_mask (34 - 1) = 2 ∧ bit_mask (34 - 1) ≠ 2 ^ (34 - 1) ∧
    well_formed 6 first_row_36x36 ∧
    (first_row_36x36.getD 32 0 = 0 ∧ first_row_36x36.getD 31 0 = 32 ∧
      first_row_36x36.getD 33 0 = 34) ∧
    ∃ st0, initial_state 6 first_row_36x36 = some st0 ∧ st0.grid.getD 32 0 = 2 ^ 64 - 1 ∧
      st0.grid.getD 31 0 = 2 ^ 64 - 2 ^ 31 ∧ st0.grid.getD 33 0 = 2 := by
  obtain ⟨st0, e1, e2, e3, _, e5, _⟩ := first_row_initial
  refine ⟨by unfold constructible; decide, by decide, by decide, by decide, by decide,
    by decide, by decide, by decide, by decide, by decide, first_row_well_formed,
    ⟨?_, ?_, ?_⟩, ⟨st0, e1, e2, e3, e5⟩⟩
  · rw [first_row_getD 32 (by decide)]; decide
  · rw [first_row_getD 31 (by decide)]; decide
  · rw [first_row_getD 33 (by decide)]; decide

end SudokuSolver
